import Mathlib

/-!
Verification of the TreeMapBase core: tree model (`src/model.rs`),
scanner pipeline (`src/scanner.rs`) and squarified treemap layout
(`src/treemap.rs`), shallowly embedded in Lean.

Machine `u64` arithmetic is modelled as `Nat` with explicit saturation at
`2^64 - 1` where the source uses `saturating_add` / `saturating_sub`;
`f32` arithmetic is modelled over `ℚ`; fallible operations return
`Option`/`Except`.  Paths (`PathBuf`) are modelled as their component
lists (`List String`).
-/

namespace TreeMapBase

/-! ### Tree model (`src/model.rs`) -/

/-- `u64::MAX` (`2 ^ 64 - 1`). -/
def U64MAX : Nat := 18446744073709551615

/-- `u64::saturating_add`. -/
def satAdd (a b : Nat) : Nat := min (a + b) U64MAX

/-- `Node` from `model.rs`: name, full path (as components), size, children. -/
inductive Node : Type where
  | mk (name : String) (path : List String) (size : Nat) (children : List Node)

def Node.name : Node → String
  | .mk n _ _ _ => n

def Node.path : Node → List String
  | .mk _ p _ _ => p

def Node.size : Node → Nat
  | .mk _ _ s _ => s

def Node.children : Node → List Node
  | .mk _ _ _ cs => cs

@[simp] theorem Node.name_mk (n p s cs) : (Node.mk n p s cs).name = n := rfl
@[simp] theorem Node.path_mk (n p s cs) : (Node.mk n p s cs).path = p := rfl
@[simp] theorem Node.size_mk (n p s cs) : (Node.mk n p s cs).size = s := rfl
@[simp] theorem Node.children_mk (n p s cs) : (Node.mk n p s cs).children = cs := rfl

/-- Overwrite the stored size (`child.size = leaf_size`). -/
def Node.setSize (t : Node) (sz : Nat) : Node :=
  match t with
  | .mk n p _ cs => .mk n p sz cs

/-- Apply `f` to the first child whose name is `nm` (mirrors
`children.iter().position(...)` followed by indexing). -/
def applyAt (nm : String) (f : Node → Node) : List Node → List Node
  | [] => []
  | c :: cs => if c.name = nm then f c :: cs else c :: applyAt nm f cs

/-- A path component is skipped when it is empty or the current-dir marker. -/
def skipComp (c : String) : Bool := c = "" || c = "."

/-- `Node::insert_components`: walk the component list, creating missing
children (size 0, appended at the end) and setting the terminal size. -/
def Node.insertComps : List String → Nat → Node → Node
  | [], _, t => t
  | c :: rest, leafSize, .mk n p s cs =>
    if skipComp c then
      Node.insertComps rest leafSize (.mk n p s cs)
    else
      let cs0 := if cs.any (fun ch => ch.name = c) then cs
                 else cs ++ [Node.mk c (p ++ [c]) 0 []]
      .mk n p s (applyAt c
        (fun child =>
          if rest.isEmpty then child.setSize leafSize
          else Node.insertComps rest leafSize child) cs0)

/-- `Node::insert_relative`. -/
def Node.insertRelative (t : Node) (relPath : List String) (leafSize : Nat) : Node :=
  if relPath.isEmpty then t else Node.insertComps relPath leafSize t

/-- Saturating sum of the children's stored sizes, as computed by the
fold in `Node::compute_total_size`. -/
def satSumSizes (cs : List Node) : Nat :=
  cs.foldl (fun acc c => satAdd acc c.size) 0

/-- `Node::compute_total_size`: post-order size aggregation.  A node with
no children keeps its size; otherwise the size becomes the saturating sum
of the children's finalized sizes. -/
def Node.computeTotalSize : Node → Node
  | .mk n p s cs =>
    if cs.isEmpty then .mk n p s cs
    else
      let cs' := cs.attach.map (fun c => Node.computeTotalSize c.1)
      .mk n p (satSumSizes cs') cs'
decreasing_by
  have h1 := List.sizeOf_lt_of_mem c.2
  simp only [Node.mk.sizeOf_spec]
  omega

/-- All nodes of a tree (the node itself and all descendants). -/
def Node.allNodes : Node → List Node
  | .mk n p s cs => .mk n p s cs :: cs.attach.flatMap (fun c => Node.allNodes c.1)
decreasing_by
  have h1 := List.sizeOf_lt_of_mem c.2
  simp only [Node.mk.sizeOf_spec]
  omega

/-- The `(path, size)` data of every leaf, in traversal order. -/
def Node.leafData : Node → List (List String × Nat)
  | .mk _ p s cs =>
    if cs.isEmpty then [(p, s)]
    else cs.attach.flatMap (fun c => Node.leafData c.1)
decreasing_by
  have h1 := List.sizeOf_lt_of_mem c.2
  simp only [Node.mk.sizeOf_spec]
  omega

theorem attach_map_eq {α β : Type _} (l : List α) (f : α → β) :
    l.attach.map (fun x => f x.1) = l.map f := by
  simp

theorem attach_flatMap_eq {α β : Type _} (l : List α) (f : α → List β) :
    l.attach.flatMap (fun x => f x.1) = l.flatMap f := by
  simp

@[simp] theorem computeTotalSize_mk (n p s cs) :
    Node.computeTotalSize (.mk n p s cs) =
      if cs.isEmpty then .mk n p s cs
      else .mk n p (satSumSizes (cs.map Node.computeTotalSize)) (cs.map Node.computeTotalSize) := by
  rw [Node.computeTotalSize.eq_def]
  simp only [attach_map_eq]

@[simp] theorem allNodes_mk (n p s cs) :
    Node.allNodes (.mk n p s cs) = .mk n p s cs :: cs.flatMap Node.allNodes := by
  rw [Node.allNodes.eq_def]
  simp only [attach_flatMap_eq]

@[simp] theorem leafData_mk (n p s cs) :
    Node.leafData (.mk n p s cs) =
      if cs.isEmpty then [(p, s)] else cs.flatMap Node.leafData := by
  rw [Node.leafData.eq_def]
  simp only [attach_flatMap_eq]

/-- Structural induction principle for `Node` that recurses through the
children list. -/
theorem Node.ind {P : Node → Prop}
    (h : ∀ n p s cs, (∀ c ∈ cs, P c) → P (.mk n p s cs)) : ∀ t, P t
  | .mk n p s cs =>
    h n p s cs (fun c hc => Node.ind h c)
decreasing_by
  have h1 := List.sizeOf_lt_of_mem hc
  simp only [Node.mk.sizeOf_spec]
  omega

/-- C1, part 1 (as a standalone lemma): in a finalized tree every node with
children carries the saturating sum of its children's sizes. -/
theorem computeTotalSize_internal_sizes :
    ∀ t : Node, ∀ u ∈ (Node.computeTotalSize t).allNodes,
      u.children ≠ [] → u.size = satSumSizes u.children := by
  intro t
  induction t using Node.ind with
  | h n p s cs ih =>
    intro u hu hne
    rw [computeTotalSize_mk] at hu
    by_cases hcs : cs.isEmpty
    · rw [List.isEmpty_iff] at hcs
      subst hcs
      simp at hu
      subst hu
      simp at hne
    · simp only [if_neg hcs, allNodes_mk, List.mem_cons] at hu
      rcases hu with rfl | hu
      · simp
      · rw [List.mem_flatMap] at hu
        obtain ⟨c', hc', huc⟩ := hu
        rw [List.mem_map] at hc'
        obtain ⟨c, hc, rfl⟩ := hc'
        exact ih c hc u huc hne

/-- C1, part 2 (as a standalone lemma): finalization leaves every leaf's
`(path, size)` data unchanged. -/
theorem computeTotalSize_leafData :
    ∀ t : Node, (Node.computeTotalSize t).leafData = t.leafData := by
  intro t
  induction t using Node.ind with
  | h n p s cs ih =>
    rw [computeTotalSize_mk]
    by_cases hcs : cs.isEmpty
    · simp [hcs]
    · simp only [if_neg hcs, leafData_mk]
      have hmapne : ¬ (List.map Node.computeTotalSize cs).isEmpty = true := by
        simpa [List.isEmpty_iff, List.map_eq_nil_iff] using hcs
      rw [if_neg hmapne, List.flatMap_map]
      exact List.flatMap_congr (fun c hc => ih c hc)

/-- C1: after finalization (`compute_total_size`) every non-leaf node's
size equals the saturating sum of its children's finalized sizes, and
every leaf's stored `(path, size)` data is unchanged. -/
theorem c1_finalization_aggregation :
    (∀ t : Node, ∀ u ∈ (Node.computeTotalSize t).allNodes,
       u.children ≠ [] → u.size = satSumSizes u.children)
    ∧ (∀ t : Node, (Node.computeTotalSize t).leafData = t.leafData) :=
  ⟨computeTotalSize_internal_sizes, computeTotalSize_leafData⟩

/-- `Node::sort_children_by_size_desc`: stable descending sort of every
children list (Rust's `sort_by` with comparator `b.size.cmp(&a.size)`). -/
def Node.sortChildrenBySizeDesc : Node → Node
  | .mk n p s cs =>
    .mk n p s ((cs.mergeSort (fun a b => decide (b.size ≤ a.size))).attach.map
      (fun c => Node.sortChildrenBySizeDesc c.1))
decreasing_by
  have h0 := c.2
  rw [List.mem_mergeSort] at h0
  have h1 := List.sizeOf_lt_of_mem h0
  simp only [Node.mk.sizeOf_spec]
  omega

/-! ### Scanner (`src/scanner.rs`)

The filesystem walk (the external `walkdir` crate) is modelled as the
list of entries it yields in order: each is either a successful entry
(depth, file-type, full path, metadata read outcome) or a walk error.
Wall-clock time is modelled by an oracle `time : Nat → ℚ` giving elapsed
seconds as a function of the entries-scanned counter. -/

/-- One entry of the directory walk. -/
inductive WalkEntry where
  | ok (depth : Nat) (isDir : Bool) (path : List String) (meta : Except String Nat)
  | err (epath : Option (List String)) (msg : String)

/-- `ScanConfig`. -/
structure ScanConfig where
  maxDepth : Nat
  maxFiles : Option Nat
  progressInterval : Nat

/-- `ScanPhase`. -/
inductive ScanPhase where
  | counting
  | scanning
deriving DecidableEq

/-- `ScanProgress` (percentages and ETA over `ℚ` in place of `f32`
and `Duration`). -/
structure ScanProgress where
  phase : ScanPhase
  entriesScanned : Nat
  filesScanned : Nat
  directoriesScanned : Nat
  warnings : Nat
  truncated : Bool
  currentPath : Option (List String)
  totalEstimatedEntries : Option Nat
  remainingEstimatedEntries : Option Nat
  progressPercent : Option ℚ
  eta : Option ℚ

/-- `ScanProgress::default()`. -/
def ScanProgress.init : ScanProgress :=
  ⟨.counting, 0, 0, 0, 0, false, none, none, none, none, none⟩

/-- `ScanStats`. -/
structure ScanStats where
  entriesScanned : Nat
  filesScanned : Nat
  directoriesScanned : Nat
  warnings : Nat
  truncated : Bool
  estimatedTotalEntries : Option Nat
  elapsed : ℚ

/-- `ScanResult`. -/
structure ScanResult where
  root : Node
  stats : ScanStats
  warningsList : List String

/-- Render a component path for error/warning messages
(`Path::display`). -/
def pathString (p : List String) : String := String.intercalate "/" p

/-- `format_walkdir_error`. -/
def formatWalkdirError : Option (List String) → String → String
  | some p, msg => "Could not access " ++ pathString p ++ ": " ++ msg
  | none, msg => "Walkdir error: " ++ msg

/-- `f32::clamp` over `ℚ`. -/
def qclamp (x lo hi : ℚ) : ℚ := min (max x lo) hi

/-- `update_scan_progress_metrics`. -/
def updateScanProgressMetrics (p : ScanProgress) (elapsedSeconds : ℚ)
    (finished : Bool) : ScanProgress :=
  let total := max (p.totalEstimatedEntries.getD 1) 1
  let percent0 : ℚ := (p.entriesScanned : ℚ) / (total : ℚ) * 100
  let percent1 : ℚ := if finished then 100 else qclamp percent0 0 (999/10)
  let percent2 : ℚ :=
    match p.progressPercent with
    | some prev => if finished then percent1 else max percent1 prev
    | none => percent1
  let remaining : Nat := if finished then 0 else total - p.entriesScanned
  let p1 := { p with progressPercent := some percent2,
                     remainingEstimatedEntries := some remaining }
  if finished then { p1 with eta := some 0 }
  else if p1.entriesScanned = 0 then { p1 with eta := none }
  else if elapsedSeconds ≤ 0 then { p1 with eta := none }
  else
    let rate : ℚ := (p1.entriesScanned : ℚ) / elapsedSeconds
    if rate ≤ 0 then { p1 with eta := none }
    else { p1 with eta := some (max ((remaining : ℚ) / rate) 0) }

/-- State of the counting walk: the running progress snapshot and the
progress messages emitted so far. -/
structure CountSt where
  progress : ScanProgress
  msgs : List ScanProgress

/-- Cadence check at the end of a counting-loop iteration. -/
def countEmit (cfg : ScanConfig) (st : CountSt) : CountSt :=
  if st.progress.entriesScanned % (max cfg.progressInterval 1) = 0 then
    { st with msgs := st.msgs ++ [st.progress] }
  else st

/-- The body of the walk loop of `estimate_total_entries` for one entry:
`.inl` is a `break` (truncation), `.inr` continues with the next state.
`continue` and `break` skip the end-of-iteration cadence check, exactly
as in the source. -/
def countStep (cfg : ScanConfig) (e : WalkEntry) (st : CountSt) : CountSt ⊕ CountSt :=
  match e with
  | .err _ _ =>
    let p := { st.progress with warnings := satAdd st.progress.warnings 1 }
    .inr (countEmit cfg { st with progress := p })
  | .ok depth isDir pth _ =>
    let p1 := { st.progress with
                entriesScanned := satAdd st.progress.entriesScanned 1,
                currentPath := some pth }
    if depth = 0 then
      .inr { st with progress := p1 }
    else if isDir then
      let p2 := { p1 with directoriesScanned := satAdd p1.directoriesScanned 1 }
      .inr (countEmit cfg { st with progress := p2 })
    else
      match cfg.maxFiles with
      | some mf =>
        if mf ≤ p1.filesScanned then
          .inl { st with progress := { p1 with truncated := true } }
        else
          let p2 := { p1 with filesScanned := satAdd p1.filesScanned 1 }
          .inr (countEmit cfg { st with progress := p2 })
      | none =>
        let p2 := { p1 with filesScanned := satAdd p1.filesScanned 1 }
        .inr (countEmit cfg { st with progress := p2 })

/-- The walk loop of `estimate_total_entries`. -/
def countLoop (cfg : ScanConfig) : List WalkEntry → CountSt → CountSt
  | [], st => st
  | e :: rest, st =>
    match countStep cfg e st with
    | .inl stop => stop
    | .inr next => countLoop cfg rest next

/-- `estimate_total_entries`: returns the emitted progress messages and
the final estimate. -/
def estimateTotalEntries (cfg : ScanConfig) (entries : List WalkEntry) :
    List ScanProgress × Nat :=
  let st := countLoop cfg entries ⟨ScanProgress.init, []⟩
  let est := max st.progress.entriesScanned 1
  let pfin := { st.progress with totalEstimatedEntries := some est }
  (st.msgs ++ [pfin], est)

/-- `entry.path().strip_prefix(root_path)`. -/
def stripRootPrefix (rootPath pth : List String) : Option (List String) :=
  if rootPath.isPrefixOf pth then some (pth.drop rootPath.length) else none

/-- State of the scanning walk. -/
structure ScanSt where
  progress : ScanProgress
  root : Node
  warnList : List String
  msgs : List ScanProgress

/-- Cadence check at the end of a scanning-loop iteration: refresh the
derived metrics, then emit. -/
def scanEmit (cfg : ScanConfig) (time : Nat → ℚ) (st : ScanSt) : ScanSt :=
  if st.progress.entriesScanned % (max cfg.progressInterval 1) = 0 then
    let p := updateScanProgressMetrics st.progress
               (time st.progress.entriesScanned) false
    { st with progress := p, msgs := st.msgs ++ [p] }
  else st

/-- The tail of a scanning-loop iteration after the counters were
updated: relative-path computation, size lookup, insertion into the
tree, and the cadence check. -/
def scanProceed (cfg : ScanConfig) (rootPath : List String) (time : Nat → ℚ)
    (pth : List String) (isDir : Bool) (meta : Except String Nat)
    (st : ScanSt) (p2 : ScanProgress) : ScanSt ⊕ ScanSt :=
  match stripRootPrefix rootPath pth with
  | none => .inr { st with progress := p2 }
  | some rel =>
    if rel.isEmpty then
      .inr { st with progress := p2 }
    else
      let szw : Nat × ScanProgress × List String :=
        if isDir then (0, p2, st.warnList)
        else
          match meta with
          | .ok len => (len, p2, st.warnList)
          | .error emsg =>
            (0, { p2 with warnings := satAdd p2.warnings 1 },
             st.warnList ++
               ["Could not read metadata for " ++ pathString pth ++ ": " ++ emsg])
      .inr (scanEmit cfg time
        { progress := szw.2.1,
          root := st.root.insertRelative rel szw.1,
          warnList := szw.2.2,
          msgs := st.msgs })

/-- The body of the walk loop of `scan_directory` for one entry:
`.inl` is a `break` (truncation), `.inr` continues with the next state. -/
def scanStep (cfg : ScanConfig) (rootPath : List String) (time : Nat → ℚ)
    (e : WalkEntry) (st : ScanSt) : ScanSt ⊕ ScanSt :=
  match e with
  | .err epath emsg =>
    let p := { st.progress with warnings := satAdd st.progress.warnings 1 }
    let w := st.warnList ++ [formatWalkdirError epath emsg]
    .inr (scanEmit cfg time { st with progress := p, warnList := w })
  | .ok depth isDir pth meta =>
    let p1 := { st.progress with
                entriesScanned := satAdd st.progress.entriesScanned 1,
                currentPath := some pth }
    if depth = 0 then
      .inr { st with progress := p1 }
    else if isDir then
      scanProceed cfg rootPath time pth isDir meta st
        { p1 with directoriesScanned := satAdd p1.directoriesScanned 1 }
    else
      match cfg.maxFiles with
      | some mf =>
        if mf ≤ p1.filesScanned then
          .inl { st with progress := { p1 with truncated := true } }
        else
          scanProceed cfg rootPath time pth isDir meta st
            { p1 with filesScanned := satAdd p1.filesScanned 1 }
      | none =>
        scanProceed cfg rootPath time pth isDir meta st
          { p1 with filesScanned := satAdd p1.filesScanned 1 }

/-- The walk loop of `scan_directory`. -/
def scanLoop (cfg : ScanConfig) (rootPath : List String) (time : Nat → ℚ) :
    List WalkEntry → ScanSt → ScanSt
  | [], st => st
  | e :: rest, st =>
    match scanStep cfg rootPath time e st with
    | .inl stop => stop
    | .inr next => scanLoop cfg rootPath time rest next

/-- `scan_directory`: run the scanning walk, finalize and sort the tree,
emit the terminal progress message, and assemble the `ScanResult`. -/
def scanDirectory (cfg : ScanConfig) (rootPath : List String) (time : Nat → ℚ)
    (entries : List WalkEntry) (estimatedTotalEntries : Nat) :
    List ScanProgress × ScanResult :=
  let rootName := rootPath.getLast?.getD (pathString rootPath)
  let root0 := Node.mk rootName rootPath 0 []
  let p0 : ScanProgress :=
    { ScanProgress.init with
        phase := .scanning,
        totalEstimatedEntries := some (max estimatedTotalEntries 1),
        progressPercent := some 0 }
  let stF := scanLoop cfg rootPath time entries ⟨p0, root0, [], []⟩
  let root1 := stF.root.computeTotalSize.sortChildrenBySizeDesc
  let pT := updateScanProgressMetrics stF.progress
              (time stF.progress.entriesScanned) true
  (stF.msgs ++ [pT],
   { root := root1,
     stats :=
       { entriesScanned := pT.entriesScanned,
         filesScanned := pT.filesScanned,
         directoriesScanned := pT.directoriesScanned,
         warnings := pT.warnings,
         truncated := pT.truncated,
         estimatedTotalEntries := pT.totalEstimatedEntries,
         elapsed := 0 },
     warningsList := stF.warnList })

/-- The filesystem as the scanner observes it: the two root checks and
the entry stream the (depth-bounded) walk yields. -/
structure FsModel where
  rootPath : List String
  rootExists : Bool
  rootIsDir : Bool
  entries : List WalkEntry

/-- `run_scan_pipeline`: fatal root checks, then the two phases.  Returns
the stream of progress messages and the terminal result. -/
def runScanPipeline (fs : FsModel) (cfg : ScanConfig) (time : Nat → ℚ) :
    List ScanProgress × Except String ScanResult :=
  if fs.rootExists = false then
    ([], .error ("Directory does not exist: " ++ pathString fs.rootPath))
  else if fs.rootIsDir = false then
    ([], .error ("Path is not a directory: " ++ pathString fs.rootPath))
  else
    let c := estimateTotalEntries cfg fs.entries
    let s := scanDirectory cfg fs.rootPath time fs.entries c.2
    (c.1 ++ s.1, .ok s.2)

/-! ### Scanner lemmas -/

theorem update_filesScanned (p : ScanProgress) (e : ℚ) (f : Bool) :
    (updateScanProgressMetrics p e f).filesScanned = p.filesScanned := by
  simp only [updateScanProgressMetrics]
  repeat' split
  all_goals rfl

theorem update_entriesScanned (p : ScanProgress) (e : ℚ) (f : Bool) :
    (updateScanProgressMetrics p e f).entriesScanned = p.entriesScanned := by
  simp only [updateScanProgressMetrics]
  repeat' split
  all_goals rfl

theorem update_directoriesScanned (p : ScanProgress) (e : ℚ) (f : Bool) :
    (updateScanProgressMetrics p e f).directoriesScanned = p.directoriesScanned := by
  simp only [updateScanProgressMetrics]
  repeat' split
  all_goals rfl

theorem update_warnings (p : ScanProgress) (e : ℚ) (f : Bool) :
    (updateScanProgressMetrics p e f).warnings = p.warnings := by
  simp only [updateScanProgressMetrics]
  repeat' split
  all_goals rfl

theorem update_truncated (p : ScanProgress) (e : ℚ) (f : Bool) :
    (updateScanProgressMetrics p e f).truncated = p.truncated := by
  simp only [updateScanProgressMetrics]
  repeat' split
  all_goals rfl

theorem update_phase (p : ScanProgress) (e : ℚ) (f : Bool) :
    (updateScanProgressMetrics p e f).phase = p.phase := by
  simp only [updateScanProgressMetrics]
  repeat' split
  all_goals rfl

theorem update_totalEstimatedEntries (p : ScanProgress) (e : ℚ) (f : Bool) :
    (updateScanProgressMetrics p e f).totalEstimatedEntries = p.totalEstimatedEntries := by
  simp only [updateScanProgressMetrics]
  repeat' split
  all_goals rfl

@[simp] theorem scanEmit_filesScanned (cfg : ScanConfig) (time : Nat → ℚ) (st : ScanSt) :
    (scanEmit cfg time st).progress.filesScanned = st.progress.filesScanned := by
  unfold scanEmit
  split
  · exact update_filesScanned _ _ _
  · rfl

@[simp] theorem scanEmit_truncated (cfg : ScanConfig) (time : Nat → ℚ) (st : ScanSt) :
    (scanEmit cfg time st).progress.truncated = st.progress.truncated := by
  unfold scanEmit
  split
  · exact update_truncated _ _ _
  · rfl

@[simp] theorem scanEmit_warnList (cfg : ScanConfig) (time : Nat → ℚ) (st : ScanSt) :
    (scanEmit cfg time st).warnList = st.warnList := by
  unfold scanEmit
  split <;> rfl

/-- The file entries of the walk stream: successful non-root non-directory
entries (these are the ones the walk counts against `max_files`). -/
def isCountedFile : WalkEntry → Bool
  | .ok d isDir _ _ => decide (d ≠ 0) && !isDir
  | .err _ _ => false

theorem scanProceed_spec (cfg : ScanConfig) (rp : List String) (time : Nat → ℚ)
    (pth : List String) (isDir : Bool) (meta : Except String Nat)
    (st : ScanSt) (p2 : ScanProgress) :
    ∃ next, scanProceed cfg rp time pth isDir meta st p2 = Sum.inr next ∧
      next.progress.filesScanned = p2.filesScanned ∧
      next.progress.truncated = p2.truncated ∧
      st.warnList <+: next.warnList := by
  unfold scanProceed
  split
  · exact ⟨_, rfl, rfl, rfl, List.prefix_rfl⟩
  · split
    · exact ⟨_, rfl, rfl, rfl, List.prefix_rfl⟩
    · refine ⟨_, rfl, ?_, ?_, ?_⟩
      · simp only [scanEmit_filesScanned]
        split
        · rfl
        · split <;> rfl
      · simp only [scanEmit_truncated]
        split
        · rfl
        · split <;> rfl
      · simp only [scanEmit_warnList]
        split
        · exact List.prefix_rfl
        · split
          · exact List.prefix_rfl
          · exact ⟨_, rfl⟩

theorem scanStep_spec (cfg : ScanConfig) (rp : List String) (time : Nat → ℚ)
    (e : WalkEntry) (st : ScanSt) :
    (∃ next, scanStep cfg rp time e st = Sum.inr next ∧
       next.progress.filesScanned =
         (if isCountedFile e = true then satAdd st.progress.filesScanned 1
          else st.progress.filesScanned) ∧
       next.progress.truncated = st.progress.truncated ∧
       st.warnList <+: next.warnList ∧
       (∀ N, cfg.maxFiles = some N → isCountedFile e = true →
         st.progress.filesScanned < N)) ∨
    (∃ stop N, cfg.maxFiles = some N ∧ isCountedFile e = true ∧
       N ≤ st.progress.filesScanned ∧
       scanStep cfg rp time e st = Sum.inl stop ∧
       stop.progress.truncated = true ∧
       stop.progress.filesScanned = st.progress.filesScanned ∧
       stop.warnList = st.warnList) := by
  cases e with
  | err epath emsg =>
    left
    refine ⟨_, rfl, ?_, ?_, ?_, ?_⟩
    · simp [isCountedFile]
    · simp
    · simp
    · intro N _ hctd
      simp [isCountedFile] at hctd
  | ok depth isDir pth meta =>
    simp only [scanStep]
    by_cases hd : depth = 0
    · left
      simp only [if_pos hd]
      refine ⟨_, rfl, ?_, rfl, List.prefix_rfl, ?_⟩
      · simp [isCountedFile, hd]
      · intro N _ hctd
        simp [isCountedFile, hd] at hctd
    · simp only [if_neg hd]
      by_cases hdir : isDir
      · obtain ⟨next, hnext, h1, h2, h3⟩ :=
          scanProceed_spec cfg rp time pth isDir meta st
            { { st.progress with
                  entriesScanned := satAdd st.progress.entriesScanned 1,
                  currentPath := some pth } with
                directoriesScanned :=
                  satAdd { st.progress with
                    entriesScanned := satAdd st.progress.entriesScanned 1,
                    currentPath := some pth }.directoriesScanned 1 }
        left
        simp only [if_pos hdir]
        refine ⟨next, hnext, ?_, ?_, h3, ?_⟩
        · rw [h1]
          simp [isCountedFile, hdir]
        · rw [h2]
        · intro N _ hctd
          simp [isCountedFile, hdir] at hctd
      · have hctd : isCountedFile (WalkEntry.ok depth isDir pth meta) = true := by
          simp [isCountedFile, hd, hdir]
        simp only [if_neg hdir]
        cases hmf : cfg.maxFiles with
        | none =>
          obtain ⟨next, hnext, h1, h2, h3⟩ :=
            scanProceed_spec cfg rp time pth isDir meta st
              { { st.progress with
                    entriesScanned := satAdd st.progress.entriesScanned 1,
                    currentPath := some pth } with
                  filesScanned :=
                    satAdd { st.progress with
                      entriesScanned := satAdd st.progress.entriesScanned 1,
                      currentPath := some pth }.filesScanned 1 }
          left
          refine ⟨next, hnext, ?_, ?_, h3, ?_⟩
          · rw [h1]
            simp [hctd]
          · rw [h2]
          · intro N hN
            simp at hN
        | some N =>
          by_cases htr : N ≤ st.progress.filesScanned
          · right
            refine ⟨{ st with progress :=
                { st.progress with
                    entriesScanned := satAdd st.progress.entriesScanned 1,
                    currentPath := some pth,
                    truncated := true } }, N, rfl, hctd, htr, ?_, rfl, rfl, rfl⟩
            dsimp only
            rw [if_pos htr]
          · obtain ⟨next, hnext, h1, h2, h3⟩ :=
              scanProceed_spec cfg rp time pth isDir meta st
                { { st.progress with
                      entriesScanned := satAdd st.progress.entriesScanned 1,
                      currentPath := some pth } with
                    filesScanned :=
                      satAdd { st.progress with
                        entriesScanned := satAdd st.progress.entriesScanned 1,
                        currentPath := some pth }.filesScanned 1 }
            left
            simp only [if_neg htr]
            refine ⟨next, hnext, ?_, ?_, h3, ?_⟩
            · rw [h1]
              simp [hctd]
            · rw [h2]
            · intro N' hN' _
              simp at hN'
              omega

theorem scanLoop_warn_mono (cfg : ScanConfig) (rp : List String) (time : Nat → ℚ) :
    ∀ entries st, st.warnList <+: (scanLoop cfg rp time entries st).warnList := by
  intro entries
  induction entries with
  | nil => intro st; exact List.prefix_rfl
  | cons e rest ih =>
    intro st
    rcases scanStep_spec cfg rp time e st with
      ⟨next, heq, _, _, hpre, _⟩ | ⟨stop, N, _, _, _, heq, _, _, hw⟩
    · simp only [scanLoop, heq]
      exact hpre.trans (ih next)
    · simp only [scanLoop, heq]
      exact hw ▸ List.prefix_rfl

theorem scanLoop_files_le (cfg : ScanConfig) (rp : List String) (time : Nat → ℚ)
    (N : Nat) (hcfg : cfg.maxFiles = some N) :
    ∀ entries st, st.progress.filesScanned ≤ N →
      (scanLoop cfg rp time entries st).progress.filesScanned ≤ N := by
  intro entries
  induction entries with
  | nil => intro st h; exact h
  | cons e rest ih =>
    intro st h
    rcases scanStep_spec cfg rp time e st with
      ⟨next, heq, hf, _, _, hlt⟩ | ⟨stop, N', _, _, _, heq, _, hf, _⟩
    · simp only [scanLoop, heq]
      apply ih
      rw [hf]
      by_cases hctd : isCountedFile e = true
      · have := hlt N hcfg hctd
        simp only [if_pos hctd]
        unfold satAdd
        omega
      · simp only [if_neg hctd]
        exact h
    · simp only [scanLoop, heq]
      rw [hf]
      exact h

theorem scanLoop_truncates (cfg : ScanConfig) (rp : List String) (time : Nat → ℚ)
    (N : Nat) (hcfg : cfg.maxFiles = some N) (hN : N ≤ U64MAX) :
    ∀ entries st, st.progress.filesScanned ≤ N →
      N < st.progress.filesScanned + entries.countP isCountedFile →
      (scanLoop cfg rp time entries st).progress.truncated = true := by
  intro entries
  induction entries with
  | nil =>
    intro st h hlt
    simp only [List.countP_nil] at hlt
    omega
  | cons e rest ih =>
    intro st h hlt
    rw [List.countP_cons] at hlt
    rcases scanStep_spec cfg rp time e st with
      ⟨next, heq, hf, _, _, hltN⟩ | ⟨stop, N', hN', _, _, heq, htr, _, _⟩
    · simp only [scanLoop, heq]
      by_cases hctd : isCountedFile e = true
      · have hflt := hltN N hcfg hctd
        have hsat : satAdd st.progress.filesScanned 1 = st.progress.filesScanned + 1 := by
          unfold satAdd U64MAX
          unfold U64MAX at hN
          omega
        apply ih
        · rw [hf, if_pos hctd, hsat]
          omega
        · rw [hf, if_pos hctd, hsat]
          simp only [hctd, if_pos] at hlt
          omega
      · apply ih
        · rw [hf, if_neg hctd]
          exact h
        · rw [hf, if_neg hctd]
          simp only [hctd] at hlt
          simpa using hlt
    · simp only [scanLoop, heq]
      exact htr

theorem scanEmit_maxFiles_none (cfg : ScanConfig) (time : Nat → ℚ) (st : ScanSt) :
    scanEmit { cfg with maxFiles := none } time st = scanEmit cfg time st := rfl

theorem scanProceed_maxFiles_none (cfg : ScanConfig) (rp : List String) (time : Nat → ℚ)
    (pth : List String) (isDir : Bool) (meta : Except String Nat)
    (st : ScanSt) (p2 : ScanProgress) :
    scanProceed { cfg with maxFiles := none } rp time pth isDir meta st p2 =
      scanProceed cfg rp time pth isDir meta st p2 := by
  unfold scanProceed
  split
  · rfl
  · split
    · rfl
    · simp only [scanEmit_maxFiles_none]

theorem scanStep_maxFiles_none (cfg : ScanConfig) (rp : List String) (time : Nat → ℚ)
    (e : WalkEntry) (st : ScanSt)
    (h : ∀ N, cfg.maxFiles = some N → isCountedFile e = true →
      st.progress.filesScanned < N) :
    scanStep { cfg with maxFiles := none } rp time e st = scanStep cfg rp time e st := by
  cases e with
  | err epath emsg => rfl
  | ok depth isDir pth meta =>
    simp only [scanStep]
    by_cases hd : depth = 0
    · simp [hd]
    · simp only [if_neg hd]
      by_cases hdir : isDir
      · simp only [if_pos hdir]
        exact scanProceed_maxFiles_none cfg rp time pth isDir meta st _
      · simp only [if_neg hdir]
        cases hmf : cfg.maxFiles with
        | none => exact scanProceed_maxFiles_none cfg rp time pth isDir meta st _
        | some N =>
          have hflt := h N hmf (by simp [isCountedFile, hd, hdir])
          dsimp only
          rw [if_neg (by omega)]
          exact scanProceed_maxFiles_none cfg rp time pth isDir meta st _

theorem scanLoop_capped_warnings (cfg : ScanConfig) (rp : List String) (time : Nat → ℚ)
    (N : Nat) (hcfg : cfg.maxFiles = some N) :
    ∀ entries st,
      (scanLoop cfg rp time entries st).warnList <+:
        (scanLoop { cfg with maxFiles := none } rp time entries st).warnList := by
  intro entries
  induction entries with
  | nil => intro st; exact List.prefix_rfl
  | cons e rest ih =>
    intro st
    rcases scanStep_spec cfg rp time e st with
      ⟨next, heq, _, _, _, hlt⟩ | ⟨stop, N', hN', hctd, htrig, heq, _, _, hw⟩
    · have heq' := (scanStep_maxFiles_none cfg rp time e st hlt).trans heq
      simp only [scanLoop, heq, heq']
      exact ih next
    · rcases scanStep_spec { cfg with maxFiles := none } rp time e st with
        ⟨next', heq', _, _, hpre', _⟩ | ⟨stop', N'', habs, _⟩
      · simp only [scanLoop, heq, heq']
        rw [hw]
        exact hpre'.trans (scanLoop_warn_mono _ rp time rest next')
      · simp at habs

/-- C4: with `max_files = N` and more than `N` file entries in the walk,
the scan still succeeds, the final stats report `files_scanned ≤ N` and
`truncated = true`, and truncation itself contributes no warning: the
truncated run's warning list is a prefix of the warning list the same
walk produces without a file cap. -/
theorem c4_truncation_bound (fs : FsModel) (cfg : ScanConfig) (time : Nat → ℚ) (N : Nat)
    (hcfg : cfg.maxFiles = some N) (hN : N ≤ U64MAX)
    (hroot : fs.rootExists = true) (hdir : fs.rootIsDir = true)
    (hmany : N < fs.entries.countP isCountedFile) :
    ∃ res, (runScanPipeline fs cfg time).2 = Except.ok res ∧
      res.stats.filesScanned ≤ N ∧
      res.stats.truncated = true ∧
      res.warningsList <+:
        (scanDirectory { cfg with maxFiles := none } fs.rootPath time fs.entries
          (estimateTotalEntries cfg fs.entries).2).2.warningsList := by
  refine ⟨(scanDirectory cfg fs.rootPath time fs.entries
    (estimateTotalEntries cfg fs.entries).2).2, ?_, ?_, ?_, ?_⟩
  · unfold runScanPipeline
    rw [hroot, hdir]
    simp
  · simp only [scanDirectory, update_filesScanned]
    exact scanLoop_files_le cfg fs.rootPath time N hcfg fs.entries _ (Nat.zero_le N)
  · simp only [scanDirectory, update_truncated]
    apply scanLoop_truncates cfg fs.rootPath time N hcfg hN fs.entries _ (Nat.zero_le N)
    simpa [ScanProgress.init] using hmany
  · simp only [scanDirectory]
    exact scanLoop_capped_warnings cfg fs.rootPath time N hcfg fs.entries _

/-- Witness for C4 at a concrete walk with two files and `max_files = 1`. -/
theorem c4_truncation_bound_witness :
    ((ScanConfig.mk 64 (some 1) 400).maxFiles = some 1 ∧ 1 ≤ U64MAX ∧
     (FsModel.mk ["r"] true true
        [WalkEntry.ok 0 true ["r"] (Except.ok 0),
         WalkEntry.ok 1 false ["r", "a"] (Except.ok 5),
         WalkEntry.ok 1 false ["r", "b"] (Except.ok 7)]).rootExists = true ∧
     (FsModel.mk ["r"] true true
        [WalkEntry.ok 0 true ["r"] (Except.ok 0),
         WalkEntry.ok 1 false ["r", "a"] (Except.ok 5),
         WalkEntry.ok 1 false ["r", "b"] (Except.ok 7)]).rootIsDir = true ∧
     1 < (FsModel.mk ["r"] true true
        [WalkEntry.ok 0 true ["r"] (Except.ok 0),
         WalkEntry.ok 1 false ["r", "a"] (Except.ok 5),
         WalkEntry.ok 1 false ["r", "b"] (Except.ok 7)]).entries.countP isCountedFile) ∧
    (∃ res, (runScanPipeline (FsModel.mk ["r"] true true
        [WalkEntry.ok 0 true ["r"] (Except.ok 0),
         WalkEntry.ok 1 false ["r", "a"] (Except.ok 5),
         WalkEntry.ok 1 false ["r", "b"] (Except.ok 7)])
        (ScanConfig.mk 64 (some 1) 400) (fun _ => 0)).2 = Except.ok res ∧
      res.stats.filesScanned ≤ 1 ∧
      res.stats.truncated = true ∧
      res.warningsList <+:
        (scanDirectory { ScanConfig.mk 64 (some 1) 400 with maxFiles := none }
          (FsModel.mk ["r"] true true
            [WalkEntry.ok 0 true ["r"] (Except.ok 0),
             WalkEntry.ok 1 false ["r", "a"] (Except.ok 5),
             WalkEntry.ok 1 false ["r", "b"] (Except.ok 7)]).rootPath (fun _ => 0)
          (FsModel.mk ["r"] true true
            [WalkEntry.ok 0 true ["r"] (Except.ok 0),
             WalkEntry.ok 1 false ["r", "a"] (Except.ok 5),
             WalkEntry.ok 1 false ["r", "b"] (Except.ok 7)]).entries
          (estimateTotalEntries (ScanConfig.mk 64 (some 1) 400)
            (FsModel.mk ["r"] true true
              [WalkEntry.ok 0 true ["r"] (Except.ok 0),
               WalkEntry.ok 1 false ["r", "a"] (Except.ok 5),
               WalkEntry.ok 1 false ["r", "b"] (Except.ok 7)]).entries).2).2.warningsList) :=
  ⟨⟨rfl, by decide, rfl, rfl, by decide⟩,
   c4_truncation_bound _ _ _ 1 rfl (by decide) rfl rfl (by decide)⟩

/-- Successful walk entries. -/
def isOkEntry : WalkEntry → Bool
  | .ok _ _ _ _ => true
  | .err _ _ => false

/-- The single depth-0 (root) entry of the walk. -/
def isRootEntry : WalkEntry → Bool
  | .ok d _ _ _ => decide (d = 0)
  | .err _ _ => false

/-- Successful non-root directory entries. -/
def isDirEntry : WalkEntry → Bool
  | .ok d isDir _ _ => decide (d ≠ 0) && isDir
  | .err _ _ => false

@[simp] theorem countEmit_progress (cfg : ScanConfig) (st : CountSt) :
    (countEmit cfg st).progress = st.progress := by
  unfold countEmit
  split <;> rfl

theorem countStep_spec (cfg : ScanConfig) (e : WalkEntry) (st : CountSt) :
    (∃ next, countStep cfg e st = Sum.inr next ∧
       next.progress.filesScanned =
         (if isCountedFile e = true then satAdd st.progress.filesScanned 1
          else st.progress.filesScanned) ∧
       next.progress.entriesScanned =
         (if isOkEntry e = true then satAdd st.progress.entriesScanned 1
          else st.progress.entriesScanned) ∧
       next.progress.truncated = st.progress.truncated ∧
       (∀ N, cfg.maxFiles = some N → isCountedFile e = true →
         st.progress.filesScanned < N)) ∨
    (∃ stop N, cfg.maxFiles = some N ∧ isCountedFile e = true ∧
       N ≤ st.progress.filesScanned ∧
       countStep cfg e st = Sum.inl stop ∧
       stop.progress.truncated = true ∧
       stop.progress.filesScanned = st.progress.filesScanned ∧
       stop.progress.entriesScanned = satAdd st.progress.entriesScanned 1) := by
  cases e with
  | err epath emsg =>
    left
    refine ⟨_, rfl, ?_, ?_, ?_, ?_⟩
    · simp [isCountedFile]
    · simp [isOkEntry]
    · simp
    · intro N _ hctd
      simp [isCountedFile] at hctd
  | ok depth isDir pth meta =>
    simp only [countStep]
    by_cases hd : depth = 0
    · left
      simp only [if_pos hd]
      refine ⟨_, rfl, ?_, ?_, rfl, ?_⟩
      · simp [isCountedFile, hd]
      · simp [isOkEntry]
      · intro N _ hctd
        simp [isCountedFile, hd] at hctd
    · simp only [if_neg hd]
      by_cases hdir : isDir
      · left
        simp only [if_pos hdir]
        refine ⟨_, rfl, ?_, ?_, ?_, ?_⟩
        · simp [isCountedFile, hdir]
        · simp [isOkEntry]
        · simp
        · intro N _ hctd
          simp [isCountedFile, hdir] at hctd
      · have hctd : isCountedFile (WalkEntry.ok depth isDir pth meta) = true := by
          simp [isCountedFile, hd, hdir]
        simp only [if_neg hdir]
        cases hmf : cfg.maxFiles with
        | none =>
          left
          refine ⟨_, rfl, ?_, ?_, ?_, ?_⟩
          · simp [hctd]
          · simp [isOkEntry]
          · simp
          · intro N hN
            simp at hN
        | some N =>
          by_cases htr : N ≤ st.progress.filesScanned
          · right
            refine ⟨{ st with progress :=
                { st.progress with
                    entriesScanned := satAdd st.progress.entriesScanned 1,
                    currentPath := some pth,
                    truncated := true } }, N, rfl, hctd, htr, ?_, rfl, rfl, rfl⟩
            dsimp only
            rw [if_pos htr]
          · left
            dsimp only
            rw [if_neg htr]
            refine ⟨_, rfl, ?_, ?_, ?_, ?_⟩
            · simp [hctd]
            · simp [isOkEntry]
            · simp
            · intro N' hN' _
              simp at hN'
              omega

theorem countLoop_files_le (cfg : ScanConfig) (N : Nat) (hcfg : cfg.maxFiles = some N) :
    ∀ entries st, st.progress.filesScanned ≤ N →
      (countLoop cfg entries st).progress.filesScanned ≤ N := by
  intro entries
  induction entries with
  | nil => intro st h; exact h
  | cons e rest ih =>
    intro st h
    rcases countStep_spec cfg e st with
      ⟨next, heq, hf, _, _, hlt⟩ | ⟨stop, N', _, _, _, heq, _, hf, _⟩
    · simp only [countLoop, heq]
      apply ih
      rw [hf]
      by_cases hctd : isCountedFile e = true
      · have := hlt N hcfg hctd
        simp only [if_pos hctd]
        unfold satAdd
        omega
      · simp only [if_neg hctd]
        exact h
    · simp only [countLoop, heq]
      rw [hf]
      exact h

theorem countLoop_truncates (cfg : ScanConfig) (N : Nat)
    (hcfg : cfg.maxFiles = some N) (hN : N ≤ U64MAX) :
    ∀ entries st, st.progress.filesScanned ≤ N →
      N < st.progress.filesScanned + entries.countP isCountedFile →
      (countLoop cfg entries st).progress.truncated = true := by
  intro entries
  induction entries with
  | nil =>
    intro st h hlt
    simp only [List.countP_nil] at hlt
    omega
  | cons e rest ih =>
    intro st h hlt
    rw [List.countP_cons] at hlt
    rcases countStep_spec cfg e st with
      ⟨next, heq, hf, _, _, hltN⟩ | ⟨stop, N', hN', _, _, heq, htr, _, _⟩
    · simp only [countLoop, heq]
      by_cases hctd : isCountedFile e = true
      · have hflt := hltN N hcfg hctd
        have hsat : satAdd st.progress.filesScanned 1 = st.progress.filesScanned + 1 := by
          unfold satAdd U64MAX
          unfold U64MAX at hN
          omega
        apply ih
        · rw [hf, if_pos hctd, hsat]
          omega
        · rw [hf, if_pos hctd, hsat]
          simp only [hctd, if_pos] at hlt
          omega
      · apply ih
        · rw [hf, if_neg hctd]
          exact h
        · rw [hf, if_neg hctd]
          simp only [hctd] at hlt
          simpa using hlt
    · simp only [countLoop, heq]
      exact htr

theorem okEntry_split (e : WalkEntry) (h : isOkEntry e = true) :
    (isRootEntry e = true ∧ isDirEntry e = false ∧ isCountedFile e = false) ∨
    (isRootEntry e = false ∧ isDirEntry e = true ∧ isCountedFile e = false) ∨
    (isRootEntry e = false ∧ isDirEntry e = false ∧ isCountedFile e = true) := by
  cases e with
  | err epath emsg => simp [isOkEntry] at h
  | ok d isDir pth meta =>
    by_cases hd : d = 0
    · left
      simp [isRootEntry, isDirEntry, isCountedFile, hd]
    · by_cases hdir : isDir
      · right; left
        simp [isRootEntry, isDirEntry, isCountedFile, hd, hdir]
      · right; right
        simp [isRootEntry, isDirEntry, isCountedFile, hd, hdir]

theorem countLoop_entries_bound (cfg : ScanConfig) (N : Nat)
    (hcfg : cfg.maxFiles = some N) (hN : N ≤ U64MAX) :
    ∀ entries st, st.progress.filesScanned ≤ N →
      (countLoop cfg entries st).progress.entriesScanned ≤
        st.progress.entriesScanned + entries.countP isRootEntry +
          entries.countP isDirEntry + (N - st.progress.filesScanned) + 1 := by
  intro entries
  induction entries with
  | nil =>
    intro st h
    simp only [countLoop, List.countP_nil]
    omega
  | cons e rest ih =>
    intro st h
    rw [List.countP_cons, List.countP_cons]
    rcases countStep_spec cfg e st with
      ⟨next, heq, hf, he, _, hltN⟩ | ⟨stop, N', hN', _, _, heq, _, _, he⟩
    · simp only [countLoop, heq]
      by_cases hok : isOkEntry e = true
      · have hesat : satAdd st.progress.entriesScanned 1 ≤ st.progress.entriesScanned + 1 := by
          unfold satAdd
          omega
        rcases okEntry_split e hok with ⟨h1, h2, h3⟩ | ⟨h1, h2, h3⟩ | ⟨h1, h2, h3⟩
        · have := ih next (by rw [hf, h3]; simpa using h)
          rw [hf, h3] at this
          rw [he, hok] at this
          simp only [h1, h2, h3] at this ⊢
          simp at this ⊢
          omega
        · have := ih next (by rw [hf, h3]; simpa using h)
          rw [hf, h3] at this
          rw [he, hok] at this
          simp only [h1, h2, h3] at this ⊢
          simp at this ⊢
          omega
        · have hflt := hltN N hcfg h3
          have hsat : satAdd st.progress.filesScanned 1 = st.progress.filesScanned + 1 := by
            unfold satAdd U64MAX
            unfold U64MAX at hN
            omega
          have := ih next (by rw [hf, h3, hsat]; simpa using hflt)
          rw [hf, h3, hsat] at this
          rw [he, hok] at this
          simp only [h1, h2, h3] at this ⊢
          simp at this ⊢
          omega
      · have he' : isRootEntry e = false ∧ isDirEntry e = false ∧ isCountedFile e = false := by
          cases e with
          | err a b => simp [isRootEntry, isDirEntry, isCountedFile]
          | ok a b c d => simp [isOkEntry] at hok
        obtain ⟨h1, h2, h3⟩ := he'
        have := ih next (by rw [hf, h3]; simpa using h)
        rw [hf, h3] at this
        rw [he] at this
        simp only [h1, h2, h3] at this ⊢
        simp only [hok] at this
        simp at this ⊢
        omega
    · simp only [countLoop, heq]
      rw [he]
      have : satAdd st.progress.entriesScanned 1 ≤ st.progress.entriesScanned + 1 := by
        unfold satAdd
        omega
      omega

/-- C10, counterexample: with `max_files = 1` on a walk of a root entry
and two files, the counting phase truncates but the estimate is `3`,
which exceeds "root + directories + N files" (= 2) and equals the
full-tree successful-entry count — the triggering entry is counted into
`entries_scanned` before the `break`. -/
theorem c10_counterexample_estimate :
    (estimateTotalEntries (ScanConfig.mk 64 (some 1) 400)
       [WalkEntry.ok 0 true ["r"] (Except.ok 0),
        WalkEntry.ok 1 false ["r", "a"] (Except.ok 5),
        WalkEntry.ok 1 false ["r", "b"] (Except.ok 7)]).2 = 3 ∧
    (countLoop (ScanConfig.mk 64 (some 1) 400)
       [WalkEntry.ok 0 true ["r"] (Except.ok 0),
        WalkEntry.ok 1 false ["r", "a"] (Except.ok 5),
        WalkEntry.ok 1 false ["r", "b"] (Except.ok 7)]
       ⟨ScanProgress.init, []⟩).progress.truncated = true ∧
    (countLoop (ScanConfig.mk 64 (some 1) 400)
       [WalkEntry.ok 0 true ["r"] (Except.ok 0),
        WalkEntry.ok 1 false ["r", "a"] (Except.ok 5),
        WalkEntry.ok 1 false ["r", "b"] (Except.ok 7)]
       ⟨ScanProgress.init, []⟩).progress.directoriesScanned = 0 ∧
    ¬ (estimateTotalEntries (ScanConfig.mk 64 (some 1) 400)
       [WalkEntry.ok 0 true ["r"] (Except.ok 0),
        WalkEntry.ok 1 false ["r", "a"] (Except.ok 5),
        WalkEntry.ok 1 false ["r", "b"] (Except.ok 7)]).2 ≤ 1 + 0 + 1 ∧
    (estimateTotalEntries (ScanConfig.mk 64 (some 1) 400)
       [WalkEntry.ok 0 true ["r"] (Except.ok 0),
        WalkEntry.ok 1 false ["r", "a"] (Except.ok 5),
        WalkEntry.ok 1 false ["r", "b"] (Except.ok 7)]).2 =
      [WalkEntry.ok 0 true ["r"] (Except.ok 0),
       WalkEntry.ok 1 false ["r", "a"] (Except.ok 5),
       WalkEntry.ok 1 false ["r", "b"] (Except.ok 7)].countP isOkEntry := by
  decide

/-- C10 (amended): the Counting phase enforces the `max_files = N` cap —
at most `N` files are counted and truncation fires once a further file
entry is met — and the estimate counts at most the root entries, the
directory entries, the `N` counted files, and one extra entry (the file
whose arrival triggers the break, which is counted into
`entries_scanned` before the loop exits); the estimate may therefore
still equal the full-tree entry count when exactly one file follows the
cap. -/
theorem c10_counting_cap (cfg : ScanConfig) (entries : List WalkEntry) (N : Nat)
    (hcfg : cfg.maxFiles = some N) (hN : N ≤ U64MAX) :
    (countLoop cfg entries ⟨ScanProgress.init, []⟩).progress.filesScanned ≤ N ∧
    (estimateTotalEntries cfg entries).2 ≤
      entries.countP isRootEntry + entries.countP isDirEntry + N + 1 ∧
    (N < entries.countP isCountedFile →
      (countLoop cfg entries ⟨ScanProgress.init, []⟩).progress.truncated = true) := by
  refine ⟨?_, ?_, ?_⟩
  · exact countLoop_files_le cfg N hcfg entries _ (Nat.zero_le N)
  · have hb := countLoop_entries_bound cfg N hcfg hN entries ⟨ScanProgress.init, []⟩
      (Nat.zero_le N)
    simp only [ScanProgress.init] at hb
    simp only [estimateTotalEntries]
    have h1 : 1 ≤ entries.countP isRootEntry + entries.countP isDirEntry + N + 1 := by
      omega
    simp only [ScanProgress.init]
    omega
  · intro hmany
    apply countLoop_truncates cfg N hcfg hN entries _ (Nat.zero_le N)
    simpa [ScanProgress.init] using hmany

/-- Witness for C10 (amended) at a concrete walk. -/
theorem c10_counting_cap_witness :
    ((ScanConfig.mk 64 (some 1) 400).maxFiles = some 1 ∧ 1 ≤ U64MAX) ∧
    ((countLoop (ScanConfig.mk 64 (some 1) 400)
        [WalkEntry.ok 0 true ["r"] (Except.ok 0),
         WalkEntry.ok 1 false ["r", "a"] (Except.ok 5),
         WalkEntry.ok 1 false ["r", "b"] (Except.ok 7)]
        ⟨ScanProgress.init, []⟩).progress.filesScanned ≤ 1 ∧
     (estimateTotalEntries (ScanConfig.mk 64 (some 1) 400)
        [WalkEntry.ok 0 true ["r"] (Except.ok 0),
         WalkEntry.ok 1 false ["r", "a"] (Except.ok 5),
         WalkEntry.ok 1 false ["r", "b"] (Except.ok 7)]).2 ≤
       [WalkEntry.ok 0 true ["r"] (Except.ok 0),
        WalkEntry.ok 1 false ["r", "a"] (Except.ok 5),
        WalkEntry.ok 1 false ["r", "b"] (Except.ok 7)].countP isRootEntry +
       [WalkEntry.ok 0 true ["r"] (Except.ok 0),
        WalkEntry.ok 1 false ["r", "a"] (Except.ok 5),
        WalkEntry.ok 1 false ["r", "b"] (Except.ok 7)].countP isDirEntry + 1 + 1 ∧
     (1 < [WalkEntry.ok 0 true ["r"] (Except.ok 0),
           WalkEntry.ok 1 false ["r", "a"] (Except.ok 5),
           WalkEntry.ok 1 false ["r", "b"] (Except.ok 7)].countP isCountedFile →
       (countLoop (ScanConfig.mk 64 (some 1) 400)
          [WalkEntry.ok 0 true ["r"] (Except.ok 0),
           WalkEntry.ok 1 false ["r", "a"] (Except.ok 5),
           WalkEntry.ok 1 false ["r", "b"] (Except.ok 7)]
          ⟨ScanProgress.init, []⟩).progress.truncated = true)) :=
  ⟨⟨rfl, by decide⟩,
   c10_counting_cap (ScanConfig.mk 64 (some 1) 400)
     [WalkEntry.ok 0 true ["r"] (Except.ok 0),
      WalkEntry.ok 1 false ["r", "a"] (Except.ok 5),
      WalkEntry.ok 1 false ["r", "b"] (Except.ok 7)] 1 rfl (by decide)⟩

/-! ### C5: progress monotonicity -/

/-- The `progress_percent` values present in a message stream. -/
def percentsOf (ms : List ScanProgress) : List ℚ :=
  ms.filterMap (fun m => m.progressPercent)

theorem update_percent_val (p : ScanProgress) (e : ℚ) (f : Bool) :
    (updateScanProgressMetrics p e f).progressPercent = some (
      match p.progressPercent with
      | some prev =>
        if f then (if f then (100 : ℚ)
                   else qclamp ((p.entriesScanned : ℚ) /
                     ((max (p.totalEstimatedEntries.getD 1) 1 : Nat) : ℚ) * 100) 0 (999/10))
        else max (if f then (100 : ℚ)
                  else qclamp ((p.entriesScanned : ℚ) /
                    ((max (p.totalEstimatedEntries.getD 1) 1 : Nat) : ℚ) * 100) 0 (999/10)) prev
      | none =>
        if f then (100 : ℚ)
        else qclamp ((p.entriesScanned : ℚ) /
          ((max (p.totalEstimatedEntries.getD 1) 1 : Nat) : ℚ) * 100) 0 (999/10)) := by
  simp only [updateScanProgressMetrics]
  repeat' split
  all_goals rfl

theorem update_percent_finished (p : ScanProgress) (e : ℚ) :
    (updateScanProgressMetrics p e true).progressPercent = some 100 := by
  rw [update_percent_val]
  cases hp : p.progressPercent <;> simp

theorem qclamp_nonneg (x c : ℚ) (hc : 0 ≤ c) : 0 ≤ qclamp x 0 c :=
  le_min (le_max_right x 0) hc

theorem qclamp_le (x c : ℚ) : qclamp x 0 c ≤ c :=
  min_le_right _ _

theorem update_percent_mono (p : ScanProgress) (e : ℚ) (q : ℚ)
    (hp : p.progressPercent = some q) :
    ∃ q', (updateScanProgressMetrics p e false).progressPercent = some q' ∧
      q ≤ q' ∧ 0 ≤ q' ∧ (q ≤ 999/10 → q' ≤ 999/10) := by
  rw [update_percent_val, hp]
  refine ⟨_, rfl, ?_, ?_, ?_⟩
  · simp only [if_neg (Bool.false_ne_true)]
    exact le_max_right _ _
  · simp only [if_neg (Bool.false_ne_true)]
    exact le_trans (qclamp_nonneg _ (999/10) (by norm_num)) (le_max_left _ _)
  · intro hq
    simp only [if_neg (Bool.false_ne_true)]
    exact max_le (qclamp_le _ _) hq

/-- The scanning-phase stream invariant: the state carries a percentage
in `[0, 99.9]`, every message emitted so far is a Scanning message with
a percentage in `[0, 99.9]`, the emitted percentages are non-decreasing,
and the state's percentage dominates the last emitted one. -/
def PInv (st : ScanSt) (q : ℚ) : Prop :=
  st.progress.progressPercent = some q ∧ 0 ≤ q ∧ q ≤ 999/10 ∧
  st.progress.phase = ScanPhase.scanning ∧
  (percentsOf st.msgs).Chain' (· ≤ ·) ∧
  (∀ r ∈ (percentsOf st.msgs).getLast?, r ≤ q) ∧
  (∀ m ∈ st.msgs, m.phase = ScanPhase.scanning ∧
    ∃ r, m.progressPercent = some r ∧ 0 ≤ r ∧ r ≤ 999/10)

theorem pinv_transfer (st st' : ScanSt) (q : ℚ) (h : PInv st q)
    (h1 : st'.progress.progressPercent = st.progress.progressPercent)
    (h2 : st'.progress.phase = st.progress.phase)
    (h3 : st'.msgs = st.msgs) : PInv st' q := by
  obtain ⟨hp, h0, h99, hph, hch, hlast, hall⟩ := h
  exact ⟨h1.trans hp, h0, h99, h2.trans hph, h3 ▸ hch, h3 ▸ hlast, h3 ▸ hall⟩

theorem pinv_scanEmit (cfg : ScanConfig) (time : Nat → ℚ) (st : ScanSt) (q : ℚ)
    (h : PInv st q) :
    ∃ q', q ≤ q' ∧ PInv (scanEmit cfg time st) q' := by
  obtain ⟨hp, h0, h99, hph, hch, hlast, hall⟩ := h
  unfold scanEmit
  split
  · obtain ⟨q', hq', hle, h0', h99'⟩ :=
      update_percent_mono st.progress (time st.progress.entriesScanned) q hp
    refine ⟨q', hle, hq', h0', h99' h99, ?_, ?_, ?_, ?_⟩
    · exact (update_phase _ _ _).trans hph
    · show (percentsOf (st.msgs ++ [_])).Chain' (· ≤ ·)
      rw [percentsOf, List.filterMap_append]
      rw [List.chain'_append]
      refine ⟨hch, ?_, ?_⟩
      · simp [hq']
      · intro x hx y hy
        simp only [List.filterMap_cons, hq'] at hy
        simp at hy
        subst hy
        exact le_trans (hlast x hx) hle
    · show ∀ r ∈ (percentsOf (st.msgs ++ [_])).getLast?, r ≤ q'
      rw [percentsOf, List.filterMap_append]
      simp only [List.filterMap_cons, hq', List.filterMap_nil]
      intro r hr
      rw [List.getLast?_append_of_ne_nil _ (by simp)] at hr
      simp at hr
      subst hr
      exact le_refl q'
    · intro m hm
      rw [List.mem_append] at hm
      rcases hm with hm | hm
      · exact hall m hm
      · simp at hm
        subst hm
        exact ⟨(update_phase _ _ _).trans hph, q', hq', h0', h99' h99⟩
  · exact ⟨q, le_refl q, hp, h0, h99, hph, hch, hlast, hall⟩

theorem pinv_scanProceed (cfg : ScanConfig) (rp : List String) (time : Nat → ℚ)
    (pth : List String) (isDir : Bool) (meta : Except String Nat)
    (st : ScanSt) (p2 : ScanProgress) (q : ℚ) (h : PInv st q)
    (hp2p : p2.progressPercent = st.progress.progressPercent)
    (hp2f : p2.phase = st.progress.phase) :
    ∀ next, scanProceed cfg rp time pth isDir meta st p2 = Sum.inr next →
      ∃ q', q ≤ q' ∧ PInv next q' := by
  unfold scanProceed
  split
  · intro next hnext
    cases hnext
    exact ⟨q, le_refl q, pinv_transfer st _ q h hp2p hp2f rfl⟩
  · split
    · intro next hnext
      cases hnext
      exact ⟨q, le_refl q, pinv_transfer st _ q h hp2p hp2f rfl⟩
    · intro next hnext
      cases hnext
      apply pinv_scanEmit
      apply pinv_transfer st _ q h
      · show (_ : Nat × ScanProgress × List String).2.1.progressPercent = _
        split
        · exact hp2p
        · split
          · exact hp2p
          · exact hp2p
      · show (_ : Nat × ScanProgress × List String).2.1.phase = _
        split
        · exact hp2f
        · split
          · exact hp2f
          · exact hp2f
      · rfl

theorem scanProceed_ne_inl (cfg : ScanConfig) (rp : List String) (time : Nat → ℚ)
    (pth : List String) (isDir : Bool) (meta : Except String Nat)
    (st : ScanSt) (p2 : ScanProgress) :
    ∀ stop, scanProceed cfg rp time pth isDir meta st p2 ≠ Sum.inl stop := by
  intro stop h
  obtain ⟨nx, hnx, _, _, _⟩ := scanProceed_spec cfg rp time pth isDir meta st p2
  rw [hnx] at h
  exact Sum.noConfusion h

theorem pinv_scanStep (cfg : ScanConfig) (rp : List String) (time : Nat → ℚ)
    (e : WalkEntry) (st : ScanSt) (q : ℚ) (h : PInv st q) :
    (∀ next, scanStep cfg rp time e st = Sum.inr next →
       ∃ q', q ≤ q' ∧ PInv next q') ∧
    (∀ stop, scanStep cfg rp time e st = Sum.inl stop → PInv stop q) := by
  cases e with
  | err epath emsg =>
    constructor
    · intro next hnext
      simp only [scanStep] at hnext
      cases hnext
      apply pinv_scanEmit
      exact pinv_transfer st _ q h rfl rfl rfl
    · intro stop hstop
      simp only [scanStep] at hstop
      exact Sum.noConfusion hstop
  | ok depth isDir pth meta =>
    simp only [scanStep]
    by_cases hd : depth = 0
    · simp only [if_pos hd]
      constructor
      · intro next hnext
        cases hnext
        exact ⟨q, le_refl q, pinv_transfer st _ q h rfl rfl rfl⟩
      · intro stop hstop
        exact Sum.noConfusion hstop
    · simp only [if_neg hd]
      by_cases hdir : isDir
      · simp only [if_pos hdir]
        constructor
        · intro next hnext
          refine pinv_scanProceed cfg rp time pth isDir meta st _ q h ?_ ?_ next hnext
          · rfl
          · rfl
        · intro stop hstop
          exact absurd hstop (scanProceed_ne_inl cfg rp time pth isDir meta st _ stop)
      · simp only [if_neg hdir]
        cases hmf : cfg.maxFiles with
        | none =>
          dsimp only
          constructor
          · intro next hnext
            refine pinv_scanProceed cfg rp time pth isDir meta st _ q h ?_ ?_ next hnext
            · rfl
            · rfl
          · intro stop hstop
            exact absurd hstop (scanProceed_ne_inl cfg rp time pth isDir meta st _ stop)
        | some N =>
          dsimp only
          by_cases htr : N ≤ st.progress.filesScanned
          · rw [if_pos htr]
            constructor
            · intro next hnext
              exact Sum.noConfusion hnext
            · intro stop hstop
              cases hstop
              exact pinv_transfer st _ q h rfl rfl rfl
          · rw [if_neg htr]
            constructor
            · intro next hnext
              refine pinv_scanProceed cfg rp time pth isDir meta st _ q h ?_ ?_ next hnext
              · rfl
              · rfl
            · intro stop hstop
              exact absurd hstop (scanProceed_ne_inl cfg rp time pth isDir meta st _ stop)

theorem pinv_scanLoop (cfg : ScanConfig) (rp : List String) (time : Nat → ℚ) :
    ∀ entries st q, PInv st q →
      ∃ q', q ≤ q' ∧ PInv (scanLoop cfg rp time entries st) q' := by
  intro entries
  induction entries with
  | nil => intro st q h; exact ⟨q, le_refl q, h⟩
  | cons e rest ih =>
    intro st q h
    cases hstep : scanStep cfg rp time e st with
    | inl stop =>
      simp only [scanLoop, hstep]
      exact ⟨q, le_refl q, (pinv_scanStep cfg rp time e st q h).2 stop hstep⟩
    | inr next =>
      simp only [scanLoop, hstep]
      obtain ⟨q1, hq1, hinv1⟩ := (pinv_scanStep cfg rp time e st q h).1 next hstep
      obtain ⟨q2, hq2, hinv2⟩ := ih next q1 hinv1
      exact ⟨q2, le_trans hq1 hq2, hinv2⟩

theorem countEmit_msgs_mem (cfg : ScanConfig) (st : CountSt) :
    ∀ m ∈ (countEmit cfg st).msgs, m = st.progress ∨ m ∈ st.msgs := by
  unfold countEmit
  split
  · intro m hm
    rw [List.mem_append] at hm
    rcases hm with hm | hm
    · right; exact hm
    · left; simpa using hm
  · intro m hm
    right
    exact hm

theorem countStep_msgs (cfg : ScanConfig) (e : WalkEntry) (st : CountSt) :
    (∀ next, countStep cfg e st = Sum.inr next →
       next.progress.progressPercent = st.progress.progressPercent ∧
       next.progress.phase = st.progress.phase ∧
       (∀ m ∈ next.msgs,
         (m.progressPercent = st.progress.progressPercent ∧
          m.phase = st.progress.phase) ∨ m ∈ st.msgs)) ∧
    (∀ stop, countStep cfg e st = Sum.inl stop →
       stop.progress.progressPercent = st.progress.progressPercent ∧
       stop.progress.phase = st.progress.phase ∧ stop.msgs = st.msgs) := by
  cases e with
  | err epath emsg =>
    constructor
    · intro next hnext
      simp only [countStep] at hnext
      cases hnext
      refine ⟨by simp, by simp, ?_⟩
      intro m hm
      rcases countEmit_msgs_mem cfg _ m hm with hm' | hm'
      · left
        rw [hm']
        exact ⟨rfl, rfl⟩
      · right
        exact hm'
    · intro stop hstop
      simp only [countStep] at hstop
      exact Sum.noConfusion hstop
  | ok depth isDir pth meta =>
    simp only [countStep]
    by_cases hd : depth = 0
    · simp only [if_pos hd]
      constructor
      · intro next hnext
        cases hnext
        exact ⟨rfl, rfl, fun m hm => Or.inr hm⟩
      · intro stop hstop
        exact Sum.noConfusion hstop
    · simp only [if_neg hd]
      by_cases hdir : isDir
      · simp only [if_pos hdir]
        constructor
        · intro next hnext
          cases hnext
          refine ⟨by simp, by simp, ?_⟩
          intro m hm
          rcases countEmit_msgs_mem cfg _ m hm with hm' | hm'
          · left
            rw [hm']
            exact ⟨rfl, rfl⟩
          · right
            exact hm'
        · intro stop hstop
          exact Sum.noConfusion hstop
      · simp only [if_neg hdir]
        cases hmf : cfg.maxFiles with
        | none =>
          dsimp only
          constructor
          · intro next hnext
            cases hnext
            refine ⟨by simp, by simp, ?_⟩
            intro m hm
            rcases countEmit_msgs_mem cfg _ m hm with hm' | hm'
            · left
              rw [hm']
              exact ⟨rfl, rfl⟩
            · right
              exact hm'
          · intro stop hstop
            exact Sum.noConfusion hstop
        | some N =>
          dsimp only
          by_cases htr : N ≤ st.progress.filesScanned
          · rw [if_pos htr]
            constructor
            · intro next hnext
              exact Sum.noConfusion hnext
            · intro stop hstop
              cases hstop
              exact ⟨rfl, rfl, rfl⟩
          · rw [if_neg htr]
            constructor
            · intro next hnext
              cases hnext
              refine ⟨by simp, by simp, ?_⟩
              intro m hm
              rcases countEmit_msgs_mem cfg _ m hm with hm' | hm'
              · left
                rw [hm']
                exact ⟨rfl, rfl⟩
              · right
                exact hm'
            · intro stop hstop
              exact Sum.noConfusion hstop

theorem countLoop_counting (cfg : ScanConfig) :
    ∀ entries st,
      st.progress.progressPercent = none →
      st.progress.phase = ScanPhase.counting →
      (∀ m ∈ st.msgs, m.progressPercent = none ∧ m.phase = ScanPhase.counting) →
      (countLoop cfg entries st).progress.progressPercent = none ∧
      (countLoop cfg entries st).progress.phase = ScanPhase.counting ∧
      ∀ m ∈ (countLoop cfg entries st).msgs,
        m.progressPercent = none ∧ m.phase = ScanPhase.counting := by
  intro entries
  induction entries with
  | nil => intro st h1 h2 h3; exact ⟨h1, h2, h3⟩
  | cons e rest ih =>
    intro st h1 h2 h3
    cases hstep : countStep cfg e st with
    | inl stop =>
      simp only [countLoop, hstep]
      obtain ⟨hp, hph, hms⟩ := (countStep_msgs cfg e st).2 stop hstep
      exact ⟨hp.trans h1, hph.trans h2, hms ▸ h3⟩
    | inr next =>
      simp only [countLoop, hstep]
      obtain ⟨hp, hph, hms⟩ := (countStep_msgs cfg e st).1 next hstep
      apply ih next (hp.trans h1) (hph.trans h2)
      intro m hm
      rcases hms m hm with ⟨hm1, hm2⟩ | hm'
      · exact ⟨hm1.trans h1, hm2.trans h2⟩
      · exact h3 m hm'

theorem estimate_msgs_counting (cfg : ScanConfig) (entries : List WalkEntry) :
    ∀ m ∈ (estimateTotalEntries cfg entries).1,
      m.progressPercent = none ∧ m.phase = ScanPhase.counting := by
  obtain ⟨h1, h2, h3⟩ := countLoop_counting cfg entries ⟨ScanProgress.init, []⟩
    rfl rfl (by intro m hm; simp at hm)
  intro m hm
  simp only [estimateTotalEntries, List.mem_append] at hm
  rcases hm with hm | hm
  · exact h3 m hm
  · simp at hm
    subst hm
    exact ⟨h1, h2⟩

theorem scanDirectory_stream (cfg : ScanConfig) (rp : List String) (time : Nat → ℚ)
    (entries : List WalkEntry) (est : Nat) :
    ∃ ms pT, (scanDirectory cfg rp time entries est).1 = ms ++ [pT] ∧
      (percentsOf ms).Chain' (· ≤ ·) ∧
      (∀ m ∈ ms, m.phase = ScanPhase.scanning ∧
        ∃ r, m.progressPercent = some r ∧ 0 ≤ r ∧ r ≤ 999/10) ∧
      pT.progressPercent = some 100 ∧
      (∀ r ∈ (percentsOf ms).getLast?, r ≤ 100) := by
  obtain ⟨q', hq', hinv⟩ := pinv_scanLoop cfg rp time entries
    ⟨{ ScanProgress.init with
        phase := ScanPhase.scanning,
        totalEstimatedEntries := some (max est 1),
        progressPercent := some 0 },
      Node.mk (rp.getLast?.getD (pathString rp)) rp 0 [], [], []⟩ 0
    ⟨rfl, le_refl 0, by norm_num, rfl, List.chain'_nil, by simp [percentsOf], by simp⟩
  obtain ⟨hp, h0, h99, hph, hch, hlast, hall⟩ := hinv
  refine ⟨_, _, rfl, hch, hall, update_percent_finished _ _, ?_⟩
  intro r hr
  refine le_trans (hlast r hr) (le_trans h99 (by norm_num))

/-- C5: across a scan's progress-message stream the present
`progress_percent` values are non-decreasing, every non-terminal
Scanning-phase message carries a percentage clamped to `[0, 99.9]`, and
on success the terminal message carries exactly `100.0`. -/
theorem percentsOf_append (l1 l2 : List ScanProgress) :
    percentsOf (l1 ++ l2) = percentsOf l1 ++ percentsOf l2 :=
  List.filterMap_append l1 l2 _

/-- C5: across a scan's progress-message stream the present
`progress_percent` values are non-decreasing, every non-terminal
Scanning-phase message carries a percentage clamped to `[0, 99.9]`, and
on success the terminal message carries exactly `100.0`. -/
theorem c5_progress_monotone (fs : FsModel) (cfg : ScanConfig) (time : Nat → ℚ) :
    (percentsOf (runScanPipeline fs cfg time).1).Chain' (· ≤ ·) ∧
    (∀ m ∈ (runScanPipeline fs cfg time).1.dropLast,
       m.phase = ScanPhase.scanning →
       ∃ r, m.progressPercent = some r ∧ 0 ≤ r ∧ r ≤ 999/10) ∧
    (∀ res, (runScanPipeline fs cfg time).2 = Except.ok res →
       ∃ m, (runScanPipeline fs cfg time).1.getLast? = some m ∧
         m.progressPercent = some (100 : ℚ)) := by
  unfold runScanPipeline
  by_cases he : fs.rootExists = false
  · simp [he, percentsOf]
  · by_cases hd : fs.rootIsDir = false
    · simp [he, hd, percentsOf]
    · rw [if_neg he, if_neg hd]
      dsimp only
      obtain ⟨ms, pT, hms, hch, hall, hpT, hlast⟩ :=
        scanDirectory_stream cfg fs.rootPath time fs.entries
          (estimateTotalEntries cfg fs.entries).2
      have hcnt := estimate_msgs_counting cfg fs.entries
      have hcnil : percentsOf (estimateTotalEntries cfg fs.entries).1 = [] := by
        rw [percentsOf, List.filterMap_eq_nil_iff]
        intro m hm
        exact (hcnt m hm).1
      have hpTl : percentsOf [pT] = [100] := by
        simp [percentsOf, hpT]
      refine ⟨?_, ?_, ?_⟩
      · rw [hms, ← List.append_assoc, percentsOf_append, percentsOf_append]
        rw [hcnil, List.nil_append, hpTl, List.chain'_append]
        refine ⟨hch, List.chain'_singleton _, ?_⟩
        intro x hx y hy
        simp at hy
        subst hy
        exact hlast x hx
      · rw [hms, ← List.append_assoc, List.dropLast_concat]
        intro m hm hsc
        rw [List.mem_append] at hm
        rcases hm with hm | hm
        · obtain ⟨h1, h2⟩ := hcnt m hm
          rw [hsc] at h2
          exact absurd h2 (by simp)
        · exact (hall m hm).2
      · intro res _
        refine ⟨pT, ?_, hpT⟩
        rw [hms, ← List.append_assoc]
        rw [List.getLast?_append_of_ne_nil _ (by simp)]
        rfl

/-- Witness for C5 at a concrete scan of an empty walk. -/
theorem c5_progress_monotone_witness :
    (percentsOf (runScanPipeline (FsModel.mk ["r"] true true [])
        (ScanConfig.mk 64 (some 250000) 400) (fun _ => 0)).1).Chain' (· ≤ ·) ∧
    ((runScanPipeline (FsModel.mk ["r"] true true [])
        (ScanConfig.mk 64 (some 250000) 400) (fun _ => 0)).2 =
      Except.ok (scanDirectory (ScanConfig.mk 64 (some 250000) 400) ["r"]
        (fun _ => 0) []
        (estimateTotalEntries (ScanConfig.mk 64 (some 250000) 400) []).2).2 ∧
     ∃ m, (runScanPipeline (FsModel.mk ["r"] true true [])
        (ScanConfig.mk 64 (some 250000) 400) (fun _ => 0)).1.getLast? = some m ∧
       m.progressPercent = some (100 : ℚ)) :=
  ⟨(c5_progress_monotone (FsModel.mk ["r"] true true [])
      (ScanConfig.mk 64 (some 250000) 400) (fun _ => 0)).1,
   rfl,
   (c5_progress_monotone (FsModel.mk ["r"] true true [])
      (ScanConfig.mk 64 (some 250000) 400) (fun _ => 0)).2.2
     (scanDirectory (ScanConfig.mk 64 (some 250000) 400) ["r"] (fun _ => 0) []
       (estimateTotalEntries (ScanConfig.mk 64 (some 250000) 400) []).2).2 rfl⟩


/-- C6: when the root path does not exist or is not a directory, the
pipeline emits no progress message and returns the fatal error string
naming the offending path; no `ScanResult` is produced. -/
theorem c6_fatal_root_error (fs : FsModel) (cfg : ScanConfig) (time : Nat → ℚ)
    (h : fs.rootExists = false ∨ fs.rootIsDir = false) :
    (runScanPipeline fs cfg time).1 = [] ∧
    (runScanPipeline fs cfg time).2 =
      Except.error ((if fs.rootExists = false then "Directory does not exist: "
               else "Path is not a directory: ") ++ pathString fs.rootPath) := by
  unfold runScanPipeline
  by_cases he : fs.rootExists = false
  · rw [if_pos he, if_pos he]
    exact ⟨rfl, rfl⟩
  · have hd : fs.rootIsDir = false := by tauto
    rw [if_neg he, if_pos hd, if_neg he]
    exact ⟨rfl, rfl⟩

/-- Witness for C6 at a missing root. -/
theorem c6_fatal_root_error_witness :
    ((FsModel.mk ["r"] false true []).rootExists = false ∨
     (FsModel.mk ["r"] false true []).rootIsDir = false) ∧
    ((runScanPipeline (FsModel.mk ["r"] false true [])
        (ScanConfig.mk 64 none 400) (fun _ => 0)).1 = [] ∧
     (runScanPipeline (FsModel.mk ["r"] false true [])
        (ScanConfig.mk 64 none 400) (fun _ => 0)).2 =
      Except.error
        ((if (FsModel.mk ["r"] false true []).rootExists = false then
            "Directory does not exist: "
          else "Path is not a directory: ") ++
         pathString (FsModel.mk ["r"] false true []).rootPath)) :=
  ⟨Or.inl rfl,
   c6_fatal_root_error (FsModel.mk ["r"] false true [])
     (ScanConfig.mk 64 none 400) (fun _ => 0) (Or.inl rfl)⟩

/-! ### Layout engine (`src/treemap.rs`), over exact rationals in place
of `f32` -/

/-- `LayoutRect`. -/
structure LayoutRect where
  x : ℚ
  y : ℚ
  w : ℚ
  h : ℚ
deriving DecidableEq

/-- `LayoutRect::area`. -/
def LayoutRect.area (r : LayoutRect) : ℚ := max r.w 0 * max r.h 0

/-- `LayoutRect::shortest_side`. -/
def LayoutRect.shortestSide (r : LayoutRect) : ℚ := min r.w r.h

/-- `LayoutRect::shrink`. -/
def LayoutRect.shrink (r : LayoutRect) (padding : ℚ) : LayoutRect :=
  ⟨r.x + padding, r.y + padding,
   max (r.w - (padding * 2)) 0, max (r.h - (padding * 2)) 0⟩

/-- `TreemapCell` (the node reference is the node value itself in this
embedding). -/
structure TreemapCell where
  node : Node
  rect : LayoutRect
  depth : Nat

/-- `RowItem`. -/
structure RowItem where
  node : Node
  area : ℚ

/-- Total area of a row (`row.iter().map(|item| item.area).sum()`). -/
def rowArea (row : List RowItem) : ℚ := (row.map (fun it => it.area)).sum

/-- `min` against the running `min_area`, which starts at
`f32::INFINITY` (modelled as `none`). -/
def minOpt (a : Option ℚ) (b : ℚ) : Option ℚ :=
  match a with
  | none => some b
  | some a => some (min a b)

/-- `worst_ratio`, with `f32::INFINITY` modelled as `none`. -/
def worstRatio (row : List RowItem) (side : ℚ) : Option ℚ :=
  if row.isEmpty || side ≤ 0 then none
  else
    let folded := row.foldl
      (fun acc it =>
        let area := max it.area 0
        (minOpt acc.1 area, max acc.2.1 area, acc.2.2 + area))
      ((none : Option ℚ), (0 : ℚ), (0 : ℚ))
    match folded.1 with
    | none => none
    | some minArea =>
      if minArea ≤ 0 || folded.2.2 ≤ 0 then none
      else
        let sideSq := side * side
        let sumSq := folded.2.2 * folded.2.2
        some (max (sideSq * folded.2.1 / sumSq) (sumSq / (sideSq * minArea)))

/-- `f32` `<=` on possibly-infinite worst ratios: `none` (`+∞`) is `≤`
only of `none`. -/
def wleq : Option ℚ → Option ℚ → Bool
  | _, none => true
  | none, some _ => false
  | some a, some b => decide (a ≤ b)

/-- One item's extent along a strip: `item.area / column_width` when the
shared thickness is positive, `0.0` otherwise. -/
def stripAdv (it : RowItem) (cw : ℚ) : ℚ := if 0 < cw then it.area / cw else 0

/-- The strip of rectangles for one row laid out as a vertical column
(`bounds.w >= bounds.h` branch of `layout_row`): items stacked downward
from `y`, all with x-position `x` and width `max cw 0`. -/
def vertStrip : List RowItem → ℚ → ℚ → ℚ → List (RowItem × LayoutRect)
  | [], _, _, _ => []
  | it :: rest, x, y, cw =>
    (it, ⟨x, y, max cw 0, max (stripAdv it cw) 0⟩) ::
      vertStrip rest x (y + stripAdv it cw) cw

/-- The strip for one row laid out as a horizontal band
(`bounds.w < bounds.h` branch of `layout_row`). -/
def horizStrip : List RowItem → ℚ → ℚ → ℚ → List (RowItem × LayoutRect)
  | [], _, _, _ => []
  | it :: rest, x, y, rh =>
    (it, ⟨x, y, max (stripAdv it rh) 0, max rh 0⟩) ::
      horizStrip rest (x + stripAdv it rh) y rh

/-- `layout_row`: place one row against the remaining rectangle, return
the placed pairs and the new remaining rectangle. -/
def layoutRow (row : List RowItem) (bounds : LayoutRect) :
    List (RowItem × LayoutRect) × LayoutRect :=
  if bounds.h ≤ bounds.w then
    let cw : ℚ := if 0 < bounds.h then rowArea row / bounds.h else 0
    (vertStrip row bounds.x bounds.y cw,
     ⟨bounds.x + cw, bounds.y, max (bounds.w - cw) 0, bounds.h⟩)
  else
    let rh : ℚ := if 0 < bounds.w then rowArea row / bounds.w else 0
    (horizStrip row bounds.x bounds.y rh,
     ⟨bounds.x, bounds.y + rh, bounds.w, max (bounds.h - rh) 0⟩)

/-- The keep/close decision of `squarify_items` for one candidate. -/
def squarifyKeep (row : List RowItem) (it : RowItem) (remaining : LayoutRect) : Bool :=
  let side := max remaining.shortestSide 1
  row.isEmpty || wleq (worstRatio (row ++ [it]) side) (worstRatio row side)

/-- The loop of `squarify_items` over the remaining items, carrying the
remaining rectangle and the current row. -/
def squarifyGo : List RowItem → LayoutRect → List RowItem →
    List (RowItem × LayoutRect)
  | [], remaining, row =>
    if row.isEmpty then [] else (layoutRow row remaining).1
  | it :: rest, remaining, row =>
    if squarifyKeep row it remaining then
      squarifyGo rest remaining (row ++ [it])
    else
      let lr := layoutRow row remaining
      lr.1 ++ squarifyGo rest lr.2 [it]

/-- `squarify_items`. -/
def squarifyItems (items : List RowItem) (bounds : LayoutRect) :
    List (RowItem × LayoutRect) :=
  squarifyGo items bounds []

/-- The positive-size children, sorted descending by size
(`layout_recursive`, steps 5–6), turned into row items with their target
areas. -/
def layoutItems (children : List Node) (inner : LayoutRect) : List RowItem :=
  let filtered := (children.filter (fun c => 0 < c.size)).mergeSort
    (fun a b => decide (b.size ≤ a.size))
  let totalSize := filtered.foldl (fun sum c => satAdd sum c.size) 0
  let totalArea := inner.area
  filtered.map (fun c => ⟨c, totalArea * ((c.size : ℚ) / (totalSize : ℚ))⟩)

/-- The total size guard value of `layout_recursive` (step 5). -/
def layoutTotalSize (children : List Node) : Nat :=
  ((children.filter (fun c => 0 < c.size)).mergeSort
    (fun a b => decide (b.size ≤ a.size))).foldl (fun sum c => satAdd sum c.size) 0

mutual

/-- `layout_recursive`.  The mutable output vector is modelled by the
count of already-emitted cells; the function returns the cells this call
emits, in order. -/
def layoutRec (node : Node) (bounds : LayoutRect) (depth maxDepth maxNodes cnt : Nat) :
    List TreemapCell :=
  if maxNodes ≤ cnt ∨ bounds.w ≤ 1/5 ∨ bounds.h ≤ 1/5 then []
  else
    TreemapCell.mk node bounds depth ::
      (if h : maxDepth ≤ depth ∨ node.children.isEmpty then []
       else
         let inner := bounds.shrink 1
         if inner.w ≤ 1/5 ∨ inner.h ≤ 1/5 then []
         else if (node.children.filter (fun c => 0 < c.size)).isEmpty then []
         else if layoutTotalSize node.children = 0 then []
         else
           layoutCells (squarifyItems (layoutItems node.children inner) inner)
             (depth + 1) maxDepth maxNodes (cnt + 1))
termination_by (maxDepth - depth, 0, 0)

/-- The loop over the packed children of `layout_recursive` (step 9),
with the early exit once the global budget is reached. -/
def layoutCells (pairs : List (RowItem × LayoutRect))
    (depth maxDepth maxNodes cnt : Nat) : List TreemapCell :=
  match pairs with
  | [] => []
  | pr :: rest =>
    let emitted := layoutRec pr.1.node pr.2 depth maxDepth maxNodes cnt
    if maxNodes ≤ cnt + emitted.length then emitted
    else emitted ++ layoutCells rest depth maxDepth maxNodes (cnt + emitted.length)
termination_by (maxDepth - depth, 1, pairs.length)

end

/-- `squarified_treemap`. -/
def squarifiedTreemap (root : Node) (bounds : LayoutRect)
    (maxDepth maxNodes : Nat) : List TreemapCell :=
  if bounds.w ≤ 0 ∨ bounds.h ≤ 0 then []
  else layoutRec root bounds 0 maxDepth maxNodes 0

/-! ### Layout geometry -/

/-- `r` lies inside `outer` (as closed axis-aligned boxes). -/
def rectInside (outer r : LayoutRect) : Prop :=
  outer.x ≤ r.x ∧ r.x + r.w ≤ outer.x + outer.w ∧
  outer.y ≤ r.y ∧ r.y + r.h ≤ outer.y + outer.h

/-- The open interiors of `p` and `q` are disjoint: they are separated
along one of the axes. -/
def rectDisjoint (p q : LayoutRect) : Prop :=
  p.x + p.w ≤ q.x ∨ q.x + q.w ≤ p.x ∨ p.y + p.h ≤ q.y ∨ q.y + q.h ≤ p.y

instance (outer r : LayoutRect) : Decidable (rectInside outer r) := by
  unfold rectInside
  infer_instance

instance (p q : LayoutRect) : Decidable (rectDisjoint p q) := by
  unfold rectDisjoint
  infer_instance

theorem rectInside_refl (r : LayoutRect) : rectInside r r :=
  ⟨le_refl _, le_refl _, le_refl _, le_refl _⟩

theorem rectInside_trans {a b c : LayoutRect} (h1 : rectInside a b)
    (h2 : rectInside b c) : rectInside a c :=
  ⟨le_trans h1.1 h2.1, le_trans h2.2.1 h1.2.1,
   le_trans h1.2.2.1 h2.2.2.1, le_trans h2.2.2.2 h1.2.2.2⟩

/-- Transposition of a rectangle (swap the two axes). -/
def flipRect (r : LayoutRect) : LayoutRect := ⟨r.y, r.x, r.h, r.w⟩

theorem rectInside_flip (outer r : LayoutRect) (h : rectInside outer r) :
    rectInside (flipRect outer) (flipRect r) :=
  ⟨h.2.2.1, h.2.2.2, h.1, h.2.1⟩

theorem rectDisjoint_flip (p q : LayoutRect) (h : rectDisjoint p q) :
    rectDisjoint (flipRect p) (flipRect q) := by
  unfold rectDisjoint flipRect at *
  tauto

theorem area_flip (r : LayoutRect) : (flipRect r).area = r.area := by
  unfold flipRect LayoutRect.area
  ring

/-! ### Strip lemmas -/

theorem rowArea_cons (it : RowItem) (rest : List RowItem) :
    rowArea (it :: rest) = it.area + rowArea rest := by
  unfold rowArea
  simp

theorem rowArea_nonneg (row : List RowItem) (h : ∀ it ∈ row, 0 ≤ it.area) :
    0 ≤ rowArea row := by
  induction row with
  | nil => simp [rowArea]
  | cons it rest ih =>
    rw [rowArea_cons]
    have := h it (by simp)
    have := ih (fun x hx => h x (by simp [hx]))
    linarith

theorem vertStrip_fst (row : List RowItem) (x y cw : ℚ) :
    (vertStrip row x y cw).map Prod.fst = row := by
  induction row generalizing y with
  | nil => rfl
  | cons it rest ih => simp [vertStrip, ih]

/-- Sum of the item advances of a strip. -/
def advSum (row : List RowItem) (cw : ℚ) : ℚ := (row.map (fun it => stripAdv it cw)).sum

theorem advSum_cons (it : RowItem) (rest : List RowItem) (cw : ℚ) :
    advSum (it :: rest) cw = stripAdv it cw + advSum rest cw := by
  unfold advSum
  simp

theorem advSum_nonneg (row : List RowItem) (cw : ℚ)
    (h : ∀ it ∈ row, 0 ≤ it.area) : 0 ≤ advSum row cw := by
  induction row with
  | nil => simp [advSum]
  | cons it rest ih =>
    rw [advSum_cons]
    have h1 : 0 ≤ stripAdv it cw := by
      unfold stripAdv
      split
      · exact div_nonneg (h it (by simp)) (le_of_lt (by assumption))
      · exact le_refl 0
    have h2 := ih (fun z hz => h z (by simp [hz]))
    linarith

theorem advSum_eq (row : List RowItem) (cw : ℚ) (hcw : 0 < cw) :
    advSum row cw = rowArea row / cw := by
  induction row with
  | nil => simp [advSum, rowArea]
  | cons it rest ih =>
    rw [advSum_cons, rowArea_cons, ih]
    unfold stripAdv
    rw [if_pos hcw]
    field_simp

theorem vertStrip_bounds (row : List RowItem) (x y cw : ℚ) (hcw : 0 ≤ cw)
    (h : ∀ it ∈ row, 0 ≤ it.area) :
    ∀ pr ∈ vertStrip row x y cw,
      pr.2.x = x ∧ pr.2.w = cw ∧ y ≤ pr.2.y ∧ 0 ≤ pr.2.h ∧
      pr.2.y + pr.2.h ≤ y + advSum row cw := by
  induction row generalizing y with
  | nil => intro pr hpr; simp [vertStrip] at hpr
  | cons it rest ih =>
    intro pr hpr
    have hAd : 0 ≤ stripAdv it cw := by
      unfold stripAdv
      split
      · exact div_nonneg (h it (by simp)) (le_of_lt (by assumption))
      · exact le_refl 0
    have hAr : 0 ≤ advSum rest cw :=
      advSum_nonneg rest cw (fun z hz => h z (by simp [hz]))
    simp only [vertStrip, List.mem_cons] at hpr
    rcases hpr with rfl | hpr
    · rw [advSum_cons]
      refine ⟨rfl, ?_, le_refl y, ?_, ?_⟩
      · show max cw 0 = cw
        exact max_eq_left hcw
      · show (0 : ℚ) ≤ max (stripAdv it cw) 0
        exact le_max_right _ _
      · show y + max (stripAdv it cw) 0 ≤ y + (stripAdv it cw + advSum rest cw)
        rw [max_eq_left hAd]
        linarith
    · obtain ⟨h1, h2, h3, h4, h5⟩ := ih (y + stripAdv it cw)
        (fun z hz => h z (by simp [hz])) pr hpr
      rw [advSum_cons]
      exact ⟨h1, h2, by linarith, h4, by linarith⟩

theorem vertStrip_stacked (row : List RowItem) (x y cw : ℚ) (hcw : 0 ≤ cw)
    (h : ∀ it ∈ row, 0 ≤ it.area) :
    (vertStrip row x y cw).Pairwise (fun p q => p.2.y + p.2.h ≤ q.2.y) := by
  induction row generalizing y with
  | nil => simp [vertStrip]
  | cons it rest ih =>
    have hAd : 0 ≤ stripAdv it cw := by
      unfold stripAdv
      split
      · exact div_nonneg (h it (by simp)) (le_of_lt (by assumption))
      · exact le_refl 0
    simp only [vertStrip]
    rw [List.pairwise_cons]
    constructor
    · intro pr hpr
      obtain ⟨_, _, h3, _, _⟩ := vertStrip_bounds rest x (y + stripAdv it cw) cw hcw
        (fun z hz => h z (by simp [hz])) pr hpr
      show y + max (stripAdv it cw) 0 ≤ pr.2.y
      rw [max_eq_left hAd]
      exact h3
    · exact ih (y + stripAdv it cw) (fun z hz => h z (by simp [hz]))

theorem vertStrip_area (row : List RowItem) (x y cw : ℚ) (hcw : 0 ≤ cw)
    (h : ∀ it ∈ row, 0 ≤ it.area) :
    ∀ pr ∈ vertStrip row x y cw,
      pr.2.area = (if 0 < cw then pr.1.area else 0) := by
  induction row generalizing y with
  | nil => intro pr hpr; simp [vertStrip] at hpr
  | cons it rest ih =>
    intro pr hpr
    simp only [vertStrip, List.mem_cons] at hpr
    rcases hpr with rfl | hpr
    · show LayoutRect.area ⟨x, y, max cw 0, max (stripAdv it cw) 0⟩ = _
      by_cases hc : 0 < cw
      · have ha := h it (by simp)
        have hAd : 0 ≤ stripAdv it cw := by
          unfold stripAdv
          rw [if_pos hc]
          exact div_nonneg ha (le_of_lt hc)
        have h1 : max cw 0 = cw := max_eq_left hcw
        have h2 : max (stripAdv it cw) 0 = stripAdv it cw := max_eq_left hAd
        rw [if_pos hc]
        unfold LayoutRect.area
        dsimp only
        rw [h1, h2, h1, h2]
        unfold stripAdv
        rw [if_pos hc]
        field_simp
      · have hc0 : cw = 0 := le_antisymm (not_lt.mp hc) hcw
        rw [if_neg hc]
        unfold LayoutRect.area stripAdv
        rw [if_neg hc, hc0]
        simp
    · exact ih (y + stripAdv it cw) (fun z hz => h z (by simp [hz])) pr hpr

theorem horizStrip_eq_flip (row : List RowItem) (x y rh : ℚ) :
    horizStrip row x y rh =
      (vertStrip row y x rh).map (fun pr => (pr.1, flipRect pr.2)) := by
  induction row generalizing x with
  | nil => rfl
  | cons it rest ih =>
    simp only [horizStrip, vertStrip, List.map_cons, ih]
    rfl

theorem flip_flip (r : LayoutRect) : flipRect (flipRect r) = r := rfl

theorem advSum_of_not_pos (row : List RowItem) (cw : ℚ) (hc : ¬ 0 < cw) :
    advSum row cw = 0 := by
  induction row with
  | nil => simp [advSum]
  | cons it rest ih =>
    rw [advSum_cons, ih]
    unfold stripAdv
    rw [if_neg hc]
    ring

theorem item_le_rowArea (row : List RowItem) (h : ∀ it ∈ row, 0 ≤ it.area) :
    ∀ it ∈ row, it.area ≤ rowArea row := by
  induction row with
  | nil => intro it hit; simp at hit
  | cons a rest ih =>
    intro it hit
    rw [rowArea_cons]
    rcases List.mem_cons.mp hit with rfl | hit
    · have := rowArea_nonneg rest (fun z hz => h z (by simp [hz]))
      linarith
    · have h1 := ih (fun z hz => h z (by simp [hz])) it hit
      have h2 := h a (by simp)
      linarith

theorem area_eq_mul (b : LayoutRect) (hw : 0 ≤ b.w) (hh : 0 ≤ b.h) :
    b.area = b.w * b.h := by
  unfold LayoutRect.area
  rw [max_eq_left hw, max_eq_left hh]

/-- All areas of a nonnegative row with total ≤ 0 vanish. -/
theorem row_all_zero (row : List RowItem) (h : ∀ it ∈ row, 0 ≤ it.area)
    (hz : rowArea row ≤ 0) : ∀ it ∈ row, it.area = 0 := by
  intro it hit
  have h1 := item_le_rowArea row h it hit
  have h2 := h it hit
  linarith

theorem layoutRow_spec_le (row : List RowItem) (bounds : LayoutRect)
    (hvert : bounds.h ≤ bounds.w)
    (hw : 0 ≤ bounds.w) (hh : 0 ≤ bounds.h)
    (hareas : ∀ it ∈ row, 0 ≤ it.area)
    (hsum : rowArea row ≤ bounds.area) :
    (∀ pr ∈ (layoutRow row bounds).1, rectInside bounds pr.2) ∧
    ((layoutRow row bounds).1.Pairwise (fun p q => rectDisjoint p.2 q.2)) ∧
    ((layoutRow row bounds).1.map Prod.fst = row) ∧
    (∀ pr ∈ (layoutRow row bounds).1, pr.2.area = pr.1.area) ∧
    0 ≤ (layoutRow row bounds).2.w ∧ 0 ≤ (layoutRow row bounds).2.h ∧
    rectInside bounds (layoutRow row bounds).2 ∧
    (∀ pr ∈ (layoutRow row bounds).1, ∀ r2,
      rectInside (layoutRow row bounds).2 r2 → rectDisjoint pr.2 r2) ∧
    rowArea row + (layoutRow row bounds).2.area = bounds.area := by
  have hS : 0 ≤ rowArea row := rowArea_nonneg row hareas
  have harea : bounds.area = bounds.w * bounds.h := area_eq_mul bounds hw hh
  unfold layoutRow
  rw [if_pos hvert]
  dsimp only
  set cw : ℚ := if 0 < bounds.h then rowArea row / bounds.h else 0 with hcwdef
  have hcw0 : 0 ≤ cw := by
    rw [hcwdef]
    split
    · exact div_nonneg hS (le_of_lt (by assumption))
    · exact le_refl 0
  have hcwh : cw * bounds.h = rowArea row ∨
      (cw = 0 ∧ rowArea row = 0 ∧ bounds.h = 0) := by
    rw [hcwdef]
    by_cases hhp : 0 < bounds.h
    · left
      rw [if_pos hhp]
      field_simp
    · right
      have hh0 : bounds.h = 0 := le_antisymm (not_lt.mp hhp) hh
      have hz : rowArea row = 0 := by
        rw [harea, hh0] at hsum
        linarith
      exact ⟨if_neg hhp, hz, hh0⟩
  have hcwW : cw ≤ bounds.w := by
    rcases hcwh with hmul | ⟨hc0, _, _⟩
    · by_cases hhp : 0 < bounds.h
      · have : cw * bounds.h ≤ bounds.w * bounds.h := by
          rw [hmul, ← harea]
          exact hsum
        exact le_of_mul_le_mul_right this hhp
      · have hh0 : bounds.h = 0 := le_antisymm (not_lt.mp hhp) hh
        rw [hcwdef, if_neg hhp]
        exact hw
    · rw [hc0]
      exact hw
  have hadv : advSum row cw ≤ bounds.h := by
    by_cases hcp : 0 < cw
    · rw [advSum_eq row cw hcp]
      have hhp : 0 < bounds.h := by
        by_contra hhp
        rw [hcwdef, if_neg hhp] at hcp
        exact absurd hcp (by norm_num)
      rcases hcwh with hmul | ⟨hc0, _, _⟩
      · rw [div_le_iff hcp, mul_comm]
        rw [hmul]
      · rw [hc0] at hcp
        exact absurd hcp (by norm_num)
    · rw [advSum_of_not_pos row cw hcp]
      exact hh
  have hbnd := vertStrip_bounds row bounds.x bounds.y cw hcw0 hareas
  refine ⟨?_, ?_, vertStrip_fst row bounds.x bounds.y cw, ?_, ?_, ?_, ?_, ?_, ?_⟩
  · intro pr hpr
    obtain ⟨h1, h2, h3, h4, h5⟩ := hbnd pr hpr
    refine ⟨le_of_eq h1.symm, ?_, h3, by linarith⟩
    rw [h1, h2]
    linarith
  · have := vertStrip_stacked row bounds.x bounds.y cw hcw0 hareas
    exact this.imp (fun hpq => Or.inr (Or.inr (Or.inl hpq)))
  · intro pr hpr
    have := vertStrip_area row bounds.x bounds.y cw hcw0 hareas pr hpr
    rw [this]
    by_cases hcp : 0 < cw
    · rw [if_pos hcp]
    · rw [if_neg hcp]
      have hc0 : cw = 0 := le_antisymm (not_lt.mp hcp) hcw0
      have hz : rowArea row = 0 := by
        rcases hcwh with hmul | ⟨_, hz, _⟩
        · rw [hc0] at hmul
          linarith [hmul]
        · exact hz
      have hfst := vertStrip_fst row bounds.x bounds.y cw
      have hmem : pr.1 ∈ row := by
        rw [← hfst]
        exact List.mem_map_of_mem Prod.fst hpr
      exact (row_all_zero row hareas (le_of_eq hz) pr.1 hmem).symm
  · exact le_max_right _ _
  · exact hh
  · refine ⟨by dsimp only; linarith, ?_, le_refl _, by linarith⟩
    dsimp only
    rw [max_eq_left (by linarith)]
    linarith
  · intro pr hpr r2 hr2
    obtain ⟨h1, h2, _, _, _⟩ := hbnd pr hpr
    left
    rw [h1, h2]
    exact le_trans (le_of_eq rfl) hr2.1
  · dsimp only
    have hiw : max (bounds.w - cw) 0 = bounds.w - cw := max_eq_left (by linarith)
    unfold LayoutRect.area
    dsimp only
    rw [hiw, max_eq_left (by linarith), max_eq_left hh]
    rcases hcwh with hmul | ⟨hc0, hz, hh0⟩
    · rw [max_eq_left hw]
      nlinarith [hmul]
    · rw [max_eq_left hw, hc0, hz, hh0]
      ring

theorem layoutRow_flip (row : List RowItem) (bounds : LayoutRect)
    (h : ¬ bounds.h ≤ bounds.w) :
    (layoutRow row bounds).1 =
      ((layoutRow row (flipRect bounds)).1.map (fun pr => (pr.1, flipRect pr.2))) ∧
    (layoutRow row bounds).2 = flipRect (layoutRow row (flipRect bounds)).2 := by
  unfold layoutRow
  rw [if_neg h]
  have h2 : (flipRect bounds).h ≤ (flipRect bounds).w := by
    show bounds.w ≤ bounds.h
    linarith [lt_of_not_le h]
  rw [if_pos h2]
  dsimp only [flipRect]
  exact ⟨horizStrip_eq_flip row bounds.x bounds.y _, rfl⟩

theorem layoutRow_spec (row : List RowItem) (bounds : LayoutRect)
    (hw : 0 ≤ bounds.w) (hh : 0 ≤ bounds.h)
    (hareas : ∀ it ∈ row, 0 ≤ it.area)
    (hsum : rowArea row ≤ bounds.area) :
    (∀ pr ∈ (layoutRow row bounds).1, rectInside bounds pr.2) ∧
    ((layoutRow row bounds).1.Pairwise (fun p q => rectDisjoint p.2 q.2)) ∧
    ((layoutRow row bounds).1.map Prod.fst = row) ∧
    (∀ pr ∈ (layoutRow row bounds).1, pr.2.area = pr.1.area) ∧
    0 ≤ (layoutRow row bounds).2.w ∧ 0 ≤ (layoutRow row bounds).2.h ∧
    rectInside bounds (layoutRow row bounds).2 ∧
    (∀ pr ∈ (layoutRow row bounds).1, ∀ r2,
      rectInside (layoutRow row bounds).2 r2 → rectDisjoint pr.2 r2) ∧
    rowArea row + (layoutRow row bounds).2.area = bounds.area := by
  by_cases hvert : bounds.h ≤ bounds.w
  · exact layoutRow_spec_le row bounds hvert hw hh hareas hsum
  · have hfsum : rowArea row ≤ (flipRect bounds).area := by
      rw [area_flip]
      exact hsum
    obtain ⟨c1, c2, c3, c4, c5, c6, c7, c8, c9⟩ :=
      layoutRow_spec_le row (flipRect bounds)
        (by show bounds.w ≤ bounds.h; linarith [lt_of_not_le hvert]) hh hw hareas hfsum
    obtain ⟨hf1, hf2⟩ := layoutRow_flip row bounds hvert
    refine ⟨?_, ?_, ?_, ?_, ?_, ?_, ?_, ?_, ?_⟩
    · intro pr hpr
      rw [hf1, List.mem_map] at hpr
      obtain ⟨qr, hqr, rfl⟩ := hpr
      have := rectInside_flip _ _ (c1 qr hqr)
      rwa [flip_flip] at this
    · rw [hf1]
      refine List.Pairwise.map _ ?_ c2
      intro p q hpq
      exact rectDisjoint_flip _ _ hpq
    · rw [hf1, List.map_map]
      exact c3
    · intro pr hpr
      rw [hf1, List.mem_map] at hpr
      obtain ⟨qr, hqr, rfl⟩ := hpr
      show (flipRect qr.2).area = qr.1.area
      rw [area_flip]
      exact c4 qr hqr
    · rw [hf2]
      exact c6
    · rw [hf2]
      exact c5
    · rw [hf2]
      have := rectInside_flip _ _ c7
      rwa [flip_flip] at this
    · intro pr hpr r2 hr2
      rw [hf1, List.mem_map] at hpr
      obtain ⟨qr, hqr, rfl⟩ := hpr
      rw [hf2] at hr2
      have hfr2 : rectInside (layoutRow row (flipRect bounds)).2 (flipRect r2) := by
        have := rectInside_flip _ _ hr2
        rwa [flip_flip] at this
      have := rectDisjoint_flip _ _ (c8 qr hqr (flipRect r2) hfr2)
      rwa [flip_flip] at this
    · rw [hf2, area_flip]
      rw [← area_flip bounds]
      exact c9

theorem rowArea_append (l1 l2 : List RowItem) :
    rowArea (l1 ++ l2) = rowArea l1 + rowArea l2 := by
  unfold rowArea
  simp

theorem squarifyGo_spec :
    ∀ (items : List RowItem) (remaining : LayoutRect) (row : List RowItem),
      0 ≤ remaining.w → 0 ≤ remaining.h →
      (∀ it ∈ row, 0 ≤ it.area) → (∀ it ∈ items, 0 ≤ it.area) →
      rowArea row + rowArea items ≤ remaining.area →
      (∀ pr ∈ squarifyGo items remaining row, rectInside remaining pr.2) ∧
      (squarifyGo items remaining row).Pairwise (fun p q => rectDisjoint p.2 q.2) ∧
      ((squarifyGo items remaining row).map Prod.fst = row ++ items) ∧
      (∀ pr ∈ squarifyGo items remaining row, pr.2.area = pr.1.area) := by
  intro items
  induction items with
  | nil =>
    intro remaining row hw hh hrow hitems hsum
    simp only [squarifyGo]
    split
    · refine ⟨by simp, by simp, ?_, by simp⟩
      have : row = [] := by
        rwa [← List.isEmpty_iff]
      simp [this]
    · have hsum' : rowArea row ≤ remaining.area := by
        have hz : rowArea ([] : List RowItem) = 0 := by simp [rowArea]
        rw [hz] at hsum
        linarith
      obtain ⟨c1, c2, c3, c4, _, _, _, _, _⟩ :=
        layoutRow_spec row remaining hw hh hrow hsum'
      exact ⟨c1, c2, by simp [c3], c4⟩
  | cons it rest ih =>
    intro remaining row hw hh hrow hitems hsum
    have hit : 0 ≤ it.area := hitems it (by simp)
    have hrest : ∀ z ∈ rest, 0 ≤ z.area := fun z hz => hitems z (by simp [hz])
    have hrestS : 0 ≤ rowArea rest := rowArea_nonneg rest hrest
    rw [rowArea_cons] at hsum
    simp only [squarifyGo]
    split
    · -- keep the candidate in the current row
      have hrow' : ∀ z ∈ row ++ [it], 0 ≤ z.area := by
        intro z hz
        rcases List.mem_append.mp hz with hz | hz
        · exact hrow z hz
        · simp at hz
          subst hz
          exact hit
      have hsum' : rowArea (row ++ [it]) + rowArea rest ≤ remaining.area := by
        rw [rowArea_append]
        rw [show rowArea [it] = it.area by simp [rowArea]]
        linarith
      obtain ⟨c1, c2, c3, c4⟩ := ih remaining (row ++ [it]) hw hh hrow' hrest hsum'
      refine ⟨c1, c2, ?_, c4⟩
      rw [c3]
      simp
    · -- close the current row, lay it out, start a new one
      have hrowS : 0 ≤ rowArea row := rowArea_nonneg row hrow
      have hsumRow : rowArea row ≤ remaining.area := by linarith
      obtain ⟨c1, c2, c3, c4, c5, c6, c7, c8, c9⟩ :=
        layoutRow_spec row remaining hw hh hrow hsumRow
      have hone : ∀ z ∈ [it], 0 ≤ z.area := by
        intro z hz
        simp at hz
        subst hz
        exact hit
      have hsum' : rowArea [it] + rowArea rest ≤ (layoutRow row remaining).2.area := by
        rw [show rowArea [it] = it.area by simp [rowArea]]
        linarith
      obtain ⟨d1, d2, d3, d4⟩ := ih (layoutRow row remaining).2 [it] c5 c6 hone hrest hsum'
      refine ⟨?_, ?_, ?_, ?_⟩
      · intro pr hpr
        rcases List.mem_append.mp hpr with hpr | hpr
        · exact c1 pr hpr
        · exact rectInside_trans c7 (d1 pr hpr)
      · rw [List.pairwise_append]
        refine ⟨c2, d2, ?_⟩
        intro p hp q hq
        exact c8 p hp q.2 (d1 q hq)
      · rw [List.map_append, c3, d3]
        simp
      · intro pr hpr
        rcases List.mem_append.mp hpr with hpr | hpr
        · exact c4 pr hpr
        · exact d4 pr hpr

theorem layoutRow_fst (row : List RowItem) (bounds : LayoutRect) :
    (layoutRow row bounds).1.map Prod.fst = row := by
  unfold layoutRow
  split
  · exact vertStrip_fst row bounds.x bounds.y _
  · dsimp only
    rw [horizStrip_eq_flip, List.map_map]
    exact vertStrip_fst row bounds.y bounds.x _

theorem squarifyGo_fst :
    ∀ (items : List RowItem) (remaining : LayoutRect) (row : List RowItem),
      (squarifyGo items remaining row).map Prod.fst = row ++ items := by
  intro items
  induction items with
  | nil =>
    intro remaining row
    simp only [squarifyGo]
    split
    · have : row = [] := by rwa [← List.isEmpty_iff]
      simp [this]
    · simp [layoutRow_fst]
  | cons it rest ih =>
    intro remaining row
    simp only [squarifyGo]
    split
    · rw [ih]
      simp
    · rw [List.map_append, layoutRow_fst, ih]
      simp

/-- The strict descendants of a node. -/
def Node.strictSub (t : Node) : List Node := t.children.flatMap Node.allNodes

theorem allNodes_eq (t : Node) : t.allNodes = t :: t.strictSub := by
  cases t with
  | mk n p s cs => rw [allNodes_mk]; rfl

theorem strictSub_of_child {c t : Node} (h : c ∈ t.children) : c ∈ t.strictSub := by
  unfold Node.strictSub
  rw [List.mem_flatMap]
  exact ⟨c, h, by rw [allNodes_eq]; simp⟩

theorem strictSub_trans {a c t : Node} (ha : a ∈ c.strictSub)
    (hc : c ∈ t.children) : a ∈ t.strictSub := by
  unfold Node.strictSub
  rw [List.mem_flatMap]
  refine ⟨c, hc, ?_⟩
  rw [allNodes_eq]
  simp [ha]

theorem layoutItems_node_mem {children : List Node} {inner : LayoutRect}
    {itm : RowItem} (h : itm ∈ layoutItems children inner) :
    itm.node ∈ children := by
  unfold layoutItems at h
  rw [List.mem_map] at h
  obtain ⟨c, hc, rfl⟩ := h
  rw [List.mem_mergeSort, List.mem_filter] at hc
  exact hc.1

theorem squarifyItems_item_mem {items : List RowItem} {bounds : LayoutRect}
    {pr : RowItem × LayoutRect} (h : pr ∈ squarifyItems items bounds) :
    pr.1 ∈ items := by
  have := squarifyGo_fst items bounds []
  unfold squarifyItems at h
  have hmem : pr.1 ∈ (squarifyGo items bounds []).map Prod.fst :=
    List.mem_map_of_mem Prod.fst h
  rw [this] at hmem
  simpa using hmem

/-- Budget of the children loop, given the budget bound for the
recursive calls it makes. -/
theorem layoutCells_budget (md mn d : Nat)
    (hA : ∀ node bounds cnt, (layoutRec node bounds d md mn cnt).length ≤ mn - cnt) :
    ∀ pairs cnt, (layoutCells pairs d md mn cnt).length ≤ mn - cnt := by
  intro pairs
  induction pairs with
  | nil => intro cnt; simp [layoutCells]
  | cons pr rest ihp =>
    intro cnt
    simp only [layoutCells]
    have h1 := hA pr.1.node pr.2 cnt
    split
    · exact h1
    · rw [List.length_append]
      have hrec := ihp (cnt + (layoutRec pr.1.node pr.2 d md mn cnt).length)
      omega

/-- Budget: `layout_recursive` never emits more cells than the remaining
`max_nodes` budget allows. -/
theorem layoutRec_budget (md mn : Nat) :
    ∀ (node : Node) (bounds : LayoutRect) (depth cnt : Nat),
      (layoutRec node bounds depth md mn cnt).length ≤ mn - cnt := by
  have main : ∀ fuel node bounds depth cnt, md - depth ≤ fuel →
      (layoutRec node bounds depth md mn cnt).length ≤ mn - cnt := by
    intro fuel
    induction fuel with
    | zero =>
      intro node bounds depth cnt hf
      simp only [layoutRec]
      split
      · simp
      · rename_i hguard
        rw [dif_pos (Or.inl (by omega))]
        simp only [List.length_cons, List.length_nil]
        omega
    | succ fuel ih =>
      intro node bounds depth cnt hf
      simp only [layoutRec]
      split
      · simp
      · rename_i hguard
        have hcnt : cnt < mn := by
          by_contra hc
          exact hguard (Or.inl (by omega))
        split
        · simp only [List.length_cons, List.length_nil]
          omega
        · rename_i hdesc
          have hdlt : depth < md := by
            by_contra hc
            exact hdesc (Or.inl (by omega))
          have htail : ∀ tl : List TreemapCell, tl.length ≤ mn - (cnt + 1) →
              (TreemapCell.mk node bounds depth :: tl).length ≤ mn - cnt := by
            intro tl htl
            simp only [List.length_cons]
            omega
          apply htail
          have hcb := layoutCells_budget md mn (depth + 1)
            (fun nd bd ct => ih nd bd (depth + 1) ct (by omega))
          split
          · simp
          · split
            · simp
            · split
              · simp
              · exact hcb _ (cnt + 1)
  intro node bounds depth cnt
  exact main (md - depth) node bounds depth cnt (le_refl _)

/-- `layout_recursive` either emits nothing or emits the cell for the
current node, at the current rectangle and depth, first. -/
theorem layoutRec_shape (node : Node) (bounds : LayoutRect) (depth md mn cnt : Nat) :
    layoutRec node bounds depth md mn cnt = [] ∨
    ∃ tl, layoutRec node bounds depth md mn cnt =
      TreemapCell.mk node bounds depth :: tl := by
  simp only [layoutRec]
  split
  · exact Or.inl rfl
  · exact Or.inr ⟨_, rfl⟩

/-- Every cell of `layoutCells` comes from the `layoutRec` call of one of
the packed pairs. -/
theorem layoutCells_mem :
    ∀ (pairs : List (RowItem × LayoutRect)) (d md mn cnt : Nat),
      ∀ cell ∈ layoutCells pairs d md mn cnt,
        ∃ pr ∈ pairs, ∃ cnt', cell ∈ layoutRec pr.1.node pr.2 d md mn cnt' := by
  intro pairs
  induction pairs with
  | nil => intro d md mn cnt cell hcell; simp [layoutCells] at hcell
  | cons pr rest ih =>
    intro d md mn cnt cell hcell
    simp only [layoutCells] at hcell
    split at hcell
    · exact ⟨pr, by simp, cnt, hcell⟩
    · rw [List.mem_append] at hcell
      rcases hcell with hcell | hcell
      · exact ⟨pr, by simp, cnt, hcell⟩
      · obtain ⟨qr, hqr, cnt', hc⟩ := ih d md mn _ cell hcell
        exact ⟨qr, by simp [hqr], cnt', hc⟩

/-- Pre-order: every cell in the tail of a `layout_recursive` call is a
strictly deeper cell for a strict descendant of the call's node. -/
theorem layoutRec_preorder (md mn : Nat) :
    ∀ fuel : Nat,
      ∀ node bounds depth cnt, md - depth ≤ fuel →
        ∀ cell ∈ layoutRec node bounds depth md mn cnt,
          cell = TreemapCell.mk node bounds depth ∨
          (depth < cell.depth ∧ cell.node ∈ node.strictSub) := by
  intro fuel
  induction fuel with
  | zero =>
    intro node bounds depth cnt hf cell hcell
    simp only [layoutRec] at hcell
    split at hcell
    · simp at hcell
    · rw [dif_pos (Or.inl (by omega))] at hcell
      simp at hcell
      exact Or.inl hcell
  | succ fuel ih =>
    intro node bounds depth cnt hf cell hcell
    simp only [layoutRec] at hcell
    split at hcell
    · simp at hcell
    · rw [List.mem_cons] at hcell
      rcases hcell with rfl | hcell
      · exact Or.inl rfl
      · right
        split at hcell
        · simp at hcell
        · rename_i hdesc
          have hdlt : depth < md := by
            by_contra hc
            exact hdesc (Or.inl (by omega))
          split at hcell
          · simp at hcell
          · split at hcell
            · simp at hcell
            · split at hcell
              · simp at hcell
              · obtain ⟨pr, hpr, cnt', hc⟩ := layoutCells_mem _ _ _ _ _ cell hcell
                have hchild : pr.1.node ∈ node.children :=
                  layoutItems_node_mem (squarifyItems_item_mem hpr)
                rcases ih pr.1.node pr.2 (depth + 1) cnt' (by omega) cell hc with
                  rfl | ⟨hd, hsub⟩
                · exact ⟨by simp, strictSub_of_child hchild⟩
                · exact ⟨by omega, strictSub_trans hsub hchild⟩

theorem area_nonneg (r : LayoutRect) : 0 ≤ r.area :=
  mul_nonneg (le_max_right _ _) (le_max_right _ _)

theorem satFold_eq_aux (l : List Node) :
    ∀ acc, acc + (l.map Node.size).sum ≤ U64MAX →
      l.foldl (fun acc c => satAdd acc c.size) acc = acc + (l.map Node.size).sum := by
  induction l with
  | nil => intro acc h; simp
  | cons c rest ih =>
    intro acc h
    simp only [List.map_cons, List.sum_cons] at h ⊢
    rw [List.foldl_cons]
    have hstep : satAdd acc c.size = acc + c.size := by
      unfold satAdd
      omega
    rw [hstep, ih (acc + c.size) (by omega)]
    omega

/-- Without `u64` saturation the fold in `layout_recursive` computes the
exact sum of the sizes. -/
theorem satFold_eq (l : List Node) (h : (l.map Node.size).sum ≤ U64MAX) :
    l.foldl (fun acc c => satAdd acc c.size) 0 = (l.map Node.size).sum := by
  have := satFold_eq_aux l 0 (by omega)
  omega

/-- The saturating size total of the positive children equals the true
total (the no-overflow condition of one node). -/
def noSatOverflow (t : Node) : Prop :=
  ((t.children.filter (fun c => 0 < c.size)).map Node.size).sum ≤ U64MAX

theorem sortedSizes_sum (children : List Node) :
    (((children.filter (fun c => 0 < c.size)).mergeSort
        (fun a b => decide (b.size ≤ a.size))).map Node.size).sum =
      ((children.filter (fun c => 0 < c.size)).map Node.size).sum := by
  have hperm := List.mergeSort_perm (children.filter (fun c => 0 < c.size))
    (fun a b => decide (b.size ≤ a.size))
  exact (hperm.map Node.size).sum_eq

theorem layoutTotalSize_eq (children : List Node)
    (h : ((children.filter (fun c => 0 < c.size)).map Node.size).sum ≤ U64MAX) :
    layoutTotalSize children =
      ((children.filter (fun c => 0 < c.size)).map Node.size).sum := by
  unfold layoutTotalSize
  rw [satFold_eq _ (by rw [sortedSizes_sum]; exact h), sortedSizes_sum]

theorem layoutItems_area_char {children : List Node} {inner : LayoutRect} :
    ∀ itm ∈ layoutItems children inner,
      itm.area = inner.area * ((itm.node.size : ℚ) / (layoutTotalSize children : ℚ)) ∧
      0 ≤ itm.area := by
  intro itm hitm
  unfold layoutItems at hitm
  rw [List.mem_map] at hitm
  obtain ⟨c, hc, rfl⟩ := hitm
  constructor
  · rfl
  · exact mul_nonneg (area_nonneg inner)
      (div_nonneg (Nat.cast_nonneg _) (Nat.cast_nonneg _))

theorem rowArea_map_items (A T : ℚ) (l : List Node) :
    rowArea (l.map (fun c => RowItem.mk c (A * ((c.size : ℚ) / T)))) =
      A * ((((l.map Node.size).sum : Nat) : ℚ) / T) := by
  induction l with
  | nil => simp [rowArea]
  | cons c rest ih =>
    simp only [List.map_cons, rowArea_cons, ih, List.sum_cons]
    push_cast
    ring

theorem rowArea_layoutItems (children : List Node) (inner : LayoutRect)
    (h : noSatOverflow (Node.mk "" [] 0 children)) :
    rowArea (layoutItems children inner) ≤ inner.area := by
  unfold noSatOverflow at h
  simp only [Node.children_mk] at h
  unfold layoutItems
  rw [rowArea_map_items, sortedSizes_sum]
  have hT := layoutTotalSize_eq children h
  by_cases hz : ((children.filter (fun c => 0 < c.size)).map Node.size).sum = 0
  · rw [hz]
    simp [area_nonneg]
  · unfold layoutTotalSize at hT
    rw [hT]
    have : (((children.filter (fun c => 0 < c.size)).map Node.size).sum : ℚ) ≠ 0 := by
      exact_mod_cast hz
    rw [div_self this, mul_one]

theorem squarifyItems_spec (items : List RowItem) (bounds : LayoutRect)
    (hw : 0 ≤ bounds.w) (hh : 0 ≤ bounds.h)
    (hareas : ∀ it ∈ items, 0 ≤ it.area)
    (hsum : rowArea items ≤ bounds.area) :
    (∀ pr ∈ squarifyItems items bounds, rectInside bounds pr.2) ∧
    (squarifyItems items bounds).Pairwise (fun p q => rectDisjoint p.2 q.2) ∧
    (∀ pr ∈ squarifyItems items bounds, pr.2.area = pr.1.area) := by
  have hz : rowArea ([] : List RowItem) = 0 := by simp [rowArea]
  obtain ⟨c1, c2, _, c4⟩ := squarifyGo_spec items bounds []
    hw hh (by simp) hareas (by rw [hz]; linarith)
  exact ⟨c1, c2, c4⟩

/-- A child of `3 * (u64::MAX / 5)` bytes (`0.6 * u64::MAX`); two of
them have a true total of `1.2 * u64::MAX`, which saturates to
`u64::MAX` in the size fold of `layout_recursive`. -/
def ceA : Node := Node.mk "a" ["R", "a"] 11068046444225730969 []

/-- Second saturating child, same size as `ceA`. -/
def ceB : Node := Node.mk "b" ["R", "b"] 11068046444225730969 []

/-- A root directory holding the two saturating children. -/
def ceRoot : Node := Node.mk "R" ["R"] 0 [ceA, ceB]

unseal List.merge List.mergeSort in
/-- On the saturating pair the target areas are `60` each (from the
saturated total `u64::MAX`), not the proportional `50`. -/
theorem ceItems_eval :
    layoutItems [ceA, ceB] ⟨1, 1, 10, 10⟩ = [⟨ceA, 60⟩, ⟨ceB, 60⟩] := by
  have hms : (([ceA, ceB].filter (fun c => 0 < c.size)).mergeSort
      (fun a b => decide (b.size ≤ a.size))) = [ceA, ceB] := rfl
  have hT : layoutTotalSize [ceA, ceB] = U64MAX := by decide
  unfold layoutTotalSize at hT
  simp only [layoutItems]
  rw [hms] at *
  rw [hT]
  norm_num [ceA, ceB, LayoutRect.area, U64MAX]

/-- The squarify run on the two area-`60` items inside the `10 × 10`
rectangle: the first becomes a `6 × 10` column, the second a `4 × 15`
band that overflows the bottom edge. -/
theorem ceOut_eval :
    squarifyItems [⟨ceA, 60⟩, ⟨ceB, 60⟩] ⟨1, 1, 10, 10⟩ =
      [(⟨ceA, 60⟩, ⟨1, 1, 6, 10⟩), (⟨ceB, 60⟩, ⟨7, 1, 4, 15⟩)] := by
  norm_num [squarifyItems, squarifyGo, squarifyKeep, worstRatio, wleq, minOpt,
    layoutRow, vertStrip, horizStrip, stripAdv, rowArea,
    LayoutRect.shortestSide]

/-- C3, counterexample: with two children of `0.6 * u64::MAX` bytes each,
the saturating total under-reports the true total, each laid-out
rectangle gets area `60` instead of `A * s / sum(s) = 50` on a `10 × 10`
inner rectangle, and the laid-out areas sum to `120 > 100 = A`. -/
theorem c3_proportionality_counterexample :
    (∃ pr ∈ squarifyItems (layoutItems [ceA, ceB] ⟨1, 1, 10, 10⟩) ⟨1, 1, 10, 10⟩,
      ¬ pr.2.area = LayoutRect.area ⟨1, 1, 10, 10⟩ *
        ((pr.1.node.size : ℚ) /
         ((([ceA, ceB].filter (fun c => 0 < c.size)).map Node.size).sum : ℚ))) ∧
    ¬ (((squarifyItems (layoutItems [ceA, ceB] ⟨1, 1, 10, 10⟩)
        ⟨1, 1, 10, 10⟩).map (fun pr => pr.2.area)).sum ≤
      LayoutRect.area ⟨1, 1, 10, 10⟩) := by
  rw [ceItems_eval, ceOut_eval]
  constructor
  · refine ⟨(⟨ceA, 60⟩, ⟨1, 1, 6, 10⟩), by simp, ?_⟩
    norm_num [ceA, ceB, LayoutRect.area, List.filter]
  · norm_num [LayoutRect.area]

/-- C3 (amended): provided the positive-size children's total size does
not overflow `u64` (no saturation in the size fold), every laid-out
child rectangle has exactly area `A * size / totalSize`, and the
laid-out areas sum to at most the inner area `A`. -/
theorem c3_layout_proportionality (children : List Node) (inner : LayoutRect)
    (hw : 0 ≤ inner.w) (hh : 0 ≤ inner.h)
    (hsat : ((children.filter (fun c => 0 < c.size)).map Node.size).sum ≤ U64MAX) :
    (∀ pr ∈ squarifyItems (layoutItems children inner) inner,
      pr.2.area = inner.area *
        ((pr.1.node.size : ℚ) /
         (((children.filter (fun c => 0 < c.size)).map Node.size).sum : ℚ))) ∧
    ((squarifyItems (layoutItems children inner) inner).map
        (fun pr => pr.2.area)).sum ≤ inner.area := by
  have hsat' : noSatOverflow (Node.mk "" [] 0 children) := by
    unfold noSatOverflow
    simpa using hsat
  have hareas : ∀ it ∈ layoutItems children inner, 0 ≤ it.area :=
    fun it hit => (layoutItems_area_char it hit).2
  have hsum := rowArea_layoutItems children inner hsat'
  obtain ⟨c1, c2, c4⟩ := squarifyItems_spec (layoutItems children inner) inner
    hw hh hareas hsum
  constructor
  · intro pr hpr
    rw [c4 pr hpr]
    have hmem := squarifyItems_item_mem hpr
    obtain ⟨hchar, _⟩ := layoutItems_area_char pr.1 hmem
    rw [hchar, layoutTotalSize_eq children hsat]
  · have hmapeq : (squarifyItems (layoutItems children inner) inner).map
        (fun pr => pr.2.area) =
        (squarifyItems (layoutItems children inner) inner).map
        (fun pr => pr.1.area) := by
      apply List.map_congr_left
      intro pr hpr
      exact c4 pr hpr
    rw [hmapeq]
    have hfst : (squarifyItems (layoutItems children inner) inner).map
        (fun pr => pr.1.area) = (layoutItems children inner).map
        (fun it => it.area) := by
      have := squarifyGo_fst (layoutItems children inner) inner []
      unfold squarifyItems
      rw [show (fun pr : RowItem × LayoutRect => pr.1.area) =
        (fun it : RowItem => it.area) ∘ Prod.fst from rfl, ← List.map_map, this]
      simp
    rw [hfst]
    exact hsum

/-- Witness for C3 (amended) at the four-children scenario of the spec. -/
theorem c3_layout_proportionality_witness :
    ((0 : ℚ) ≤ (LayoutRect.mk 1 1 1198 598).w ∧
     (0 : ℚ) ≤ (LayoutRect.mk 1 1 1198 598).h ∧
     ((([Node.mk "a" ["root", "a"] 500 [], Node.mk "b" ["root", "b"] 250 [],
         Node.mk "c" ["root", "c"] 125 [], Node.mk "d" ["root", "d"] 64 []].filter
          (fun c => 0 < c.size)).map Node.size).sum ≤ U64MAX)) ∧
    ((∀ pr ∈ squarifyItems
        (layoutItems
          [Node.mk "a" ["root", "a"] 500 [], Node.mk "b" ["root", "b"] 250 [],
           Node.mk "c" ["root", "c"] 125 [], Node.mk "d" ["root", "d"] 64 []]
          ⟨1, 1, 1198, 598⟩) ⟨1, 1, 1198, 598⟩,
      pr.2.area = LayoutRect.area ⟨1, 1, 1198, 598⟩ *
        ((pr.1.node.size : ℚ) /
         ((([Node.mk "a" ["root", "a"] 500 [], Node.mk "b" ["root", "b"] 250 [],
             Node.mk "c" ["root", "c"] 125 [], Node.mk "d" ["root", "d"] 64 []].filter
              (fun c => 0 < c.size)).map Node.size).sum : ℚ))) ∧
     ((squarifyItems
        (layoutItems
          [Node.mk "a" ["root", "a"] 500 [], Node.mk "b" ["root", "b"] 250 [],
           Node.mk "c" ["root", "c"] 125 [], Node.mk "d" ["root", "d"] 64 []]
          ⟨1, 1, 1198, 598⟩) ⟨1, 1, 1198, 598⟩).map
        (fun pr => pr.2.area)).sum ≤ LayoutRect.area ⟨1, 1, 1198, 598⟩) :=
  ⟨⟨by norm_num, by norm_num, by decide⟩,
   c3_layout_proportionality
     [Node.mk "a" ["root", "a"] 500 [], Node.mk "b" ["root", "b"] 250 [],
      Node.mk "c" ["root", "c"] 125 [], Node.mk "d" ["root", "d"] 64 []]
     ⟨1, 1, 1198, 598⟩ (by norm_num) (by norm_num) (by decide)⟩


/-! ### C2: containment and disjointness -/

/-- The one-unit-shrunk rectangle lies inside the original whenever both
shrunk sides clear the `0.2` degeneracy guard of `layout_recursive`. -/
theorem shrink_inside (bounds : LayoutRect)
    (hw : (1 : ℚ)/5 < (bounds.shrink 1).w) (hh : (1 : ℚ)/5 < (bounds.shrink 1).h) :
    rectInside bounds (bounds.shrink 1) := by
  unfold LayoutRect.shrink at *
  simp only at hw hh
  unfold rectInside
  refine ⟨by simp, ?_, by simp, ?_⟩
  · simp only
    rcases le_total (bounds.w - 1 * 2) 0 with h | h
    · rw [max_eq_right h] at hw; linarith
    · rw [max_eq_left h]; linarith
  · simp only
    rcases le_total (bounds.h - 1 * 2) 0 with h | h
    · rw [max_eq_right h] at hh; linarith
    · rw [max_eq_left h]; linarith

/-- Membership in `all_nodes` is preserved going up to a parent. -/
theorem mem_allNodes_of_child {u c t : Node} (hc : c ∈ t.children)
    (hu : u ∈ c.allNodes) : u ∈ t.allNodes := by
  rw [allNodes_eq]
  refine List.mem_cons_of_mem _ ?_
  unfold Node.strictSub
  rw [List.mem_flatMap]
  exact ⟨c, hc, hu⟩

/-- Every node is among its own `all_nodes`. -/
theorem self_mem_allNodes (t : Node) : t ∈ t.allNodes := by
  rw [allNodes_eq]
  exact List.mem_cons_self _ _

/-- Containment: when no node of the subtree saturates the `u64` size
fold, every cell emitted by `layout_recursive` lies inside the bounds of
the call. -/
theorem layoutRec_inside (md mn : Nat) :
    ∀ fuel : Nat, ∀ (node : Node) (bounds : LayoutRect) (depth cnt : Nat),
      md - depth ≤ fuel →
      (∀ u ∈ node.allNodes, noSatOverflow u) →
      ∀ cell ∈ layoutRec node bounds depth md mn cnt,
        rectInside bounds cell.rect := by
  intro fuel
  induction fuel with
  | zero =>
    intro node bounds depth cnt hf hsat cell hcell
    simp only [layoutRec] at hcell
    split at hcell
    · simp at hcell
    · rw [dif_pos (Or.inl (by omega))] at hcell
      simp at hcell
      rw [hcell]
      exact rectInside_refl bounds
  | succ fuel ih =>
    intro node bounds depth cnt hf hsat cell hcell
    simp only [layoutRec] at hcell
    split at hcell
    · simp at hcell
    · rw [List.mem_cons] at hcell
      rcases hcell with rfl | hcell
      · exact rectInside_refl bounds
      · split at hcell
        · simp at hcell
        · rename_i hdesc
          have hdlt : depth < md := by
            by_contra hc
            exact hdesc (Or.inl (by omega))
          split at hcell
          · simp at hcell
          · rename_i hguard
            push_neg at hguard
            split at hcell
            · simp at hcell
            · split at hcell
              · simp at hcell
              · obtain ⟨pr, hpr, cnt', hc⟩ :=
                  layoutCells_mem _ _ _ _ _ cell hcell
                have hchild : pr.1.node ∈ node.children :=
                  layoutItems_node_mem (squarifyItems_item_mem hpr)
                have hsat' : ∀ u ∈ pr.1.node.allNodes, noSatOverflow u :=
                  fun u hu => hsat u (mem_allNodes_of_child hchild hu)
                have hinner := ih pr.1.node pr.2 (depth + 1) cnt'
                  (by omega) hsat' cell hc
                have hsatN : noSatOverflow (Node.mk "" [] 0 node.children) := by
                  have := hsat node (self_mem_allNodes node)
                  unfold noSatOverflow at this ⊢
                  simpa using this
                have hareas : ∀ it ∈ layoutItems node.children (bounds.shrink 1),
                    0 ≤ it.area :=
                  fun it hit => (layoutItems_area_char it hit).2
                have hsum := rowArea_layoutItems node.children (bounds.shrink 1) hsatN
                obtain ⟨c1, _, _⟩ := squarifyItems_spec
                  (layoutItems node.children (bounds.shrink 1)) (bounds.shrink 1)
                  (le_max_right _ _) (le_max_right _ _) hareas hsum
                have hprIn := c1 pr hpr
                have hshr := shrink_inside bounds hguard.1 hguard.2
                exact rectInside_trans (rectInside_trans hshr hprIn) hinner

unseal List.merge List.mergeSort in
/-- C2, counterexample: on the saturating pair, `squarified_treemap` on a
`12 × 12` canvas emits the depth-1 cell for `ceB` with rectangle
`4 × 15` at `(7, 1)`, which sticks out of the root's inner bounds
`10 × 10` at `(1, 1)`. -/
theorem c2_containment_counterexample :
    ∃ cell ∈ squarifiedTreemap ceRoot ⟨0, 0, 12, 12⟩ 1 1024,
      cell.depth = 1 ∧
      ¬ rectInside ((LayoutRect.mk 0 0 12 12).shrink 1) cell.rect := by
  have hshrink : (LayoutRect.mk 0 0 12 12).shrink 1 = ⟨1, 1, 10, 10⟩ := by
    norm_num [LayoutRect.shrink]
  have hch : ceRoot.children = [ceA, ceB] := rfl
  have hTz : layoutTotalSize ceRoot.children ≠ 0 := by
    rw [hch]
    decide
  have hA : layoutRec ceA ⟨1, 1, 6, 10⟩ 1 1 1024 1 =
      [TreemapCell.mk ceA ⟨1, 1, 6, 10⟩ 1] := by
    rw [layoutRec.eq_def]
    norm_num
  have hB : layoutRec ceB ⟨7, 1, 4, 15⟩ 1 1 1024 2 =
      [TreemapCell.mk ceB ⟨7, 1, 4, 15⟩ 1] := by
    rw [layoutRec.eq_def]
    norm_num
  have hcells : squarifiedTreemap ceRoot ⟨0, 0, 12, 12⟩ 1 1024 =
      [TreemapCell.mk ceRoot ⟨0, 0, 12, 12⟩ 0,
       TreemapCell.mk ceA ⟨1, 1, 6, 10⟩ 1,
       TreemapCell.mk ceB ⟨7, 1, 4, 15⟩ 1] := by
    unfold squarifiedTreemap
    rw [if_neg (by norm_num)]
    rw [layoutRec.eq_def]
    rw [if_neg (by norm_num)]
    rw [dif_neg (by simp [hch])]
    simp only [hshrink, hch]
    rw [if_neg (by norm_num)]
    rw [if_neg (by decide)]
    rw [if_neg (by rw [← hch]; exact hTz)]
    rw [ceItems_eval, ceOut_eval]
    simp only [layoutCells]
    norm_num [hA, hB, layoutCells]
  rw [hcells, hshrink]
  refine ⟨TreemapCell.mk ceB ⟨7, 1, 4, 15⟩ 1, by simp, rfl, ?_⟩
  norm_num [rectInside]

/-- C2 (amended): when no node of the subtree saturates the `u64` size
fold, the packed child rectangles lie inside the parent's inner
(one-unit-shrunk) bounds with pairwise-disjoint interiors, and every
cell `layout_recursive` emits lies inside the bounds of the call. -/
theorem c2_containment_disjointness (node : Node) (bounds : LayoutRect)
    (depth md mn cnt : Nat)
    (hsat : ∀ u ∈ node.allNodes, noSatOverflow u) :
    (∀ pr ∈ squarifyItems (layoutItems node.children (bounds.shrink 1))
        (bounds.shrink 1), rectInside (bounds.shrink 1) pr.2) ∧
    ((squarifyItems (layoutItems node.children (bounds.shrink 1))
        (bounds.shrink 1)).Pairwise (fun p q => rectDisjoint p.2 q.2)) ∧
    (∀ cell ∈ layoutRec node bounds depth md mn cnt,
        rectInside bounds cell.rect) := by
  have hsatN : noSatOverflow (Node.mk "" [] 0 node.children) := by
    have := hsat node (self_mem_allNodes node)
    unfold noSatOverflow at this ⊢
    simpa using this
  have hareas : ∀ it ∈ layoutItems node.children (bounds.shrink 1), 0 ≤ it.area :=
    fun it hit => (layoutItems_area_char it hit).2
  have hsum := rowArea_layoutItems node.children (bounds.shrink 1) hsatN
  obtain ⟨c1, c2, _⟩ := squarifyItems_spec
    (layoutItems node.children (bounds.shrink 1)) (bounds.shrink 1)
    (le_max_right _ _) (le_max_right _ _) hareas hsum
  exact ⟨c1, c2, layoutRec_inside md mn (md - depth) node bounds depth cnt
    (le_refl _) hsat⟩

/-- Witness for C2 (amended): a root with one 5-byte child laid out on
an `8 × 8` canvas. -/
theorem c2_containment_disjointness_witness :
    (∀ u ∈ (Node.mk "r" ["r"] 0 [Node.mk "a" ["r", "a"] 5 []]).allNodes,
        noSatOverflow u) ∧
    ((∀ pr ∈ squarifyItems
        (layoutItems (Node.mk "r" ["r"] 0 [Node.mk "a" ["r", "a"] 5 []]).children
          ((LayoutRect.mk 0 0 8 8).shrink 1)) ((LayoutRect.mk 0 0 8 8).shrink 1),
        rectInside ((LayoutRect.mk 0 0 8 8).shrink 1) pr.2) ∧
     ((squarifyItems
        (layoutItems (Node.mk "r" ["r"] 0 [Node.mk "a" ["r", "a"] 5 []]).children
          ((LayoutRect.mk 0 0 8 8).shrink 1)) ((LayoutRect.mk 0 0 8 8).shrink 1)).Pairwise
        (fun p q => rectDisjoint p.2 q.2)) ∧
     (∀ cell ∈ layoutRec (Node.mk "r" ["r"] 0 [Node.mk "a" ["r", "a"] 5 []])
          (LayoutRect.mk 0 0 8 8) 0 1 10 0,
        rectInside (LayoutRect.mk 0 0 8 8) cell.rect)) := by
  have hsat : ∀ u ∈ (Node.mk "r" ["r"] 0 [Node.mk "a" ["r", "a"] 5 []]).allNodes,
      noSatOverflow u := by
    intro u hu
    rw [allNodes_eq] at hu
    simp only [Node.strictSub] at hu
    simp only [Node.children_mk] at hu
    rw [show [Node.mk "a" ["r", "a"] 5 []].flatMap Node.allNodes =
        Node.allNodes (Node.mk "a" ["r", "a"] 5 []) by simp] at hu
    rw [allNodes_eq] at hu
    simp only [Node.strictSub, Node.children_mk] at hu
    simp at hu
    rcases hu with rfl | rfl
    · unfold noSatOverflow U64MAX
      norm_num
    · unfold noSatOverflow U64MAX
      norm_num
  exact ⟨hsat, c2_containment_disjointness
    (Node.mk "r" ["r"] 0 [Node.mk "a" ["r", "a"] 5 []]) ⟨0, 0, 8, 8⟩ 0 1 10 0 hsat⟩


/-! ### C7: budget, head cell, pre-order -/

/-- When `layout_recursive` emits anything, the first cell is the call's
node/rectangle/depth and every later cell is a strictly deeper cell of a
strict descendant. -/
theorem layoutRec_head_tail (md mn : Nat) (node : Node) (bounds : LayoutRect)
    (depth cnt : Nat) (c : TreemapCell) (tl : List TreemapCell)
    (heq : layoutRec node bounds depth md mn cnt = c :: tl) :
    c = TreemapCell.mk node bounds depth ∧
    ∀ cell ∈ tl, depth < cell.depth ∧ cell.node ∈ node.strictSub := by
  rw [layoutRec.eq_def] at heq
  split at heq
  · exact absurd heq (by simp)
  · rw [List.cons.injEq] at heq
    obtain ⟨rfl, htl⟩ := heq
    refine ⟨rfl, ?_⟩
    intro cell hcell
    rw [← htl] at hcell
    split at hcell
    · simp at hcell
    · rename_i hdesc
      dsimp only at hcell
      split at hcell
      · simp at hcell
      · split at hcell
        · simp at hcell
        · split at hcell
          · simp at hcell
          · obtain ⟨pr, hpr, cnt', hc⟩ := layoutCells_mem _ _ _ _ _ cell hcell
            have hchild : pr.1.node ∈ node.children :=
              layoutItems_node_mem (squarifyItems_item_mem hpr)
            rcases layoutRec_preorder md mn (md - (depth + 1)) pr.1.node pr.2
              (depth + 1) cnt' (le_refl _) cell hc with rfl | ⟨hd, hsub⟩
            · exact ⟨by simp, strictSub_of_child hchild⟩
            · exact ⟨by omega, strictSub_trans hsub hchild⟩

/-- C7: with a positive node budget, `squarified_treemap` emits at most
`max_nodes` cells; when the list is non-empty it starts with the root at
depth `0` and the full bounds; and in every recursive call the call's
cell precedes all cells of its strict descendants, which are strictly
deeper (pre-order). -/
theorem c7_budget_preorder (root : Node) (bounds : LayoutRect) (md mn : Nat)
    (hmn : 1 ≤ mn) :
    (squarifiedTreemap root bounds md mn).length ≤ mn ∧
    (∀ c tl, squarifiedTreemap root bounds md mn = c :: tl →
      c = TreemapCell.mk root bounds 0) ∧
    (∀ (node : Node) (bounds' : LayoutRect) (depth cnt : Nat)
        (c : TreemapCell) (tl : List TreemapCell),
      layoutRec node bounds' depth md mn cnt = c :: tl →
      c = TreemapCell.mk node bounds' depth ∧
      ∀ cell ∈ tl, depth < cell.depth ∧ cell.node ∈ node.strictSub) := by
  refine ⟨?_, ?_, ?_⟩
  · unfold squarifiedTreemap
    split
    · simp
    · have := layoutRec_budget md mn root bounds 0 0
      omega
  · intro c tl heq
    unfold squarifiedTreemap at heq
    split at heq
    · exact absurd heq (by simp)
    · exact (layoutRec_head_tail md mn root bounds 0 0 c tl heq).1
  · intro node bounds' depth cnt c tl heq
    exact layoutRec_head_tail md mn node bounds' depth cnt c tl heq

/-- Witness for C7 on a two-level tree with budget `3`. -/
theorem c7_budget_preorder_witness :
    1 ≤ 3 ∧
    ((squarifiedTreemap (Node.mk "r" ["r"] 5 [Node.mk "a" ["r", "a"] 5 []])
        ⟨0, 0, 8, 8⟩ 1 3).length ≤ 3 ∧
     (∀ c tl, squarifiedTreemap (Node.mk "r" ["r"] 5 [Node.mk "a" ["r", "a"] 5 []])
          ⟨0, 0, 8, 8⟩ 1 3 = c :: tl →
        c = TreemapCell.mk (Node.mk "r" ["r"] 5 [Node.mk "a" ["r", "a"] 5 []])
          ⟨0, 0, 8, 8⟩ 0) ∧
     (∀ (node : Node) (bounds' : LayoutRect) (depth cnt : Nat)
         (c : TreemapCell) (tl : List TreemapCell),
       layoutRec node bounds' depth 1 3 cnt = c :: tl →
       c = TreemapCell.mk node bounds' depth ∧
       ∀ cell ∈ tl, depth < cell.depth ∧ cell.node ∈ node.strictSub)) :=
  ⟨by norm_num,
   c7_budget_preorder (Node.mk "r" ["r"] 5 [Node.mk "a" ["r", "a"] 5 []])
     ⟨0, 0, 8, 8⟩ 1 3 (by norm_num)⟩


/-! ### C8: the keep/close decision of the squarify heuristic -/

/-- The clamped area `item.area.max(0.0)` read by `worst_ratio`. -/
def clampA (it : RowItem) : ℚ := max it.area 0

/-- The spec's closed formula for the worst aspect ratio of a non-empty
row: `max(side² · max(aᵢ) / sum(aᵢ)², sum(aᵢ)² / (side² · min(aᵢ)))`. -/
def specRatio : List RowItem → ℚ → ℚ
  | [], _ => 0
  | a :: rest, side =>
    let sum := ((a :: rest).map RowItem.area).sum
    let mx := rest.foldl (fun m z => max m z.area) a.area
    let mn := rest.foldl (fun m z => min m z.area) a.area
    max (side * side * mx / (sum * sum)) (sum * sum / (side * side * mn))

theorem wrFold (l : List RowItem) :
    ∀ (a1 : Option ℚ) (a2 a3 : ℚ),
      l.foldl (fun acc it =>
          (minOpt acc.1 (max it.area 0), max acc.2.1 (max it.area 0),
           acc.2.2 + max it.area 0)) (a1, a2, a3) =
        (l.foldl (fun o it => minOpt o (clampA it)) a1,
         l.foldl (fun m it => max m (clampA it)) a2,
         a3 + (l.map clampA).sum) := by
  induction l with
  | nil => intro a1 a2 a3; simp
  | cons c rest ih =>
    intro a1 a2 a3
    rw [List.foldl_cons, ih]
    simp only [List.foldl_cons, List.map_cons, List.sum_cons, clampA]
    refine congrArg _ (congrArg _ ?_)
    ring

theorem minOpt_foldl_some (l : List RowItem) :
    ∀ x : ℚ, l.foldl (fun o it => minOpt o (clampA it)) (some x) =
      some (l.foldl (fun m it => min m (clampA it)) x) := by
  induction l with
  | nil => intro x; rfl
  | cons c rest ih => intro x; simp only [List.foldl_cons, minOpt]; exact ih _

theorem foldl_min_pos (l : List ℚ) :
    ∀ x : ℚ, 0 < x → (∀ y ∈ l, 0 < y) → 0 < l.foldl min x := by
  induction l with
  | nil => intro x hx _; exact hx
  | cons c rest ih =>
    intro x hx hl
    rw [List.foldl_cons]
    exact ih _ (lt_min hx (hl c (by simp))) (fun y hy => hl y (by simp [hy]))

/-- The fold in `worst_ratio` computes exactly the spec's min/max/sum
formula: on a non-empty row of positive areas and a positive side the
result is the spec's closed-form worst ratio. -/
theorem worstRatio_spec (row : List RowItem) (side : ℚ)
    (hrow : row ≠ []) (hpos : ∀ z ∈ row, 0 < z.area) (hside : 0 < side) :
    worstRatio row side = some (specRatio row side) := by
  cases row with
  | nil => exact absurd rfl hrow
  | cons a rest =>
    have hclamp : ∀ z ∈ a :: rest, clampA z = z.area :=
      fun z hz => max_eq_left (le_of_lt (hpos z hz))
    have ha : (0 : ℚ) < a.area := hpos a (by simp)
    have h1 : (a :: rest).foldl (fun o it => minOpt o (clampA it)) none =
        some (rest.foldl (fun m z => min m z.area) a.area) := by
      rw [List.foldl_cons,
        show minOpt none (clampA a) = some (clampA a) from rfl,
        minOpt_foldl_some, hclamp a (by simp)]
      refine congrArg _ (List.foldl_ext _ _ _ ?_)
      intro m z hz
      rw [hclamp z (by simp [hz])]
    have h2 : (a :: rest).foldl (fun m it => max m (clampA it)) 0 =
        rest.foldl (fun m z => max m z.area) a.area := by
      rw [List.foldl_cons,
        show (0 : ℚ) ⊔ clampA a = clampA a from
          max_eq_right (le_max_right _ _),
        hclamp a (by simp)]
      refine List.foldl_ext _ _ _ ?_
      intro m z hz
      rw [hclamp z (by simp [hz])]
    have h3 : (0 : ℚ) + ((a :: rest).map clampA).sum =
        ((a :: rest).map RowItem.area).sum := by
      rw [zero_add]
      congr 1
      exact List.map_congr_left hclamp
    have hmn : (0 : ℚ) < rest.foldl (fun m z => min m z.area) a.area := by
      have := foldl_min_pos (rest.map RowItem.area) a.area ha
        (by intro y hy; rw [List.mem_map] at hy; obtain ⟨z, hz, rfl⟩ := hy
            exact hpos z (by simp [hz]))
      rwa [List.foldl_map] at this
    have hsum : (0 : ℚ) < ((a :: rest).map RowItem.area).sum := by
      rw [List.map_cons, List.sum_cons]
      have : (0 : ℚ) ≤ (rest.map RowItem.area).sum :=
        List.sum_nonneg (by intro y hy; rw [List.mem_map] at hy
                            obtain ⟨z, hz, rfl⟩ := hy
                            exact le_of_lt (hpos z (by simp [hz])))
      linarith
    unfold worstRatio
    rw [if_neg (by simp; linarith)]
    rw [wrFold, h1, h2, h3]
    simp only
    rw [if_neg (by
      simp only [Bool.or_eq_true, decide_eq_true_eq, not_or, not_le]
      exact ⟨hmn, hsum⟩)]
    unfold specRatio
    simp only

/-- The keep/close decision as the spec words it: the side is the raw
shorter side of the remaining rectangle, with no lower clamp. -/
def specKeep (row : List RowItem) (it : RowItem) (remaining : LayoutRect) : Bool :=
  row.isEmpty || wleq (worstRatio (row ++ [it]) remaining.shortestSide)
                      (worstRatio row remaining.shortestSide)

/-- C8, counterexample: on a remaining rectangle of width `1/2`, a row of
one area-`1/4` item and an equal candidate, the code keeps the candidate
(it clamps the side to `1`), while the spec's unclamped decision closes
the row. -/
theorem c8_side_clamp_counterexample :
    squarifyKeep [⟨Node.mk "a" ["a"] 1 [], 1/4⟩] ⟨Node.mk "a" ["a"] 1 [], 1/4⟩
      ⟨0, 0, 1/2, 10⟩ = true ∧
    specKeep [⟨Node.mk "a" ["a"] 1 [], 1/4⟩] ⟨Node.mk "a" ["a"] 1 [], 1/4⟩
      ⟨0, 0, 1/2, 10⟩ = false := by
  constructor <;>
    norm_num [squarifyKeep, specKeep, worstRatio, wleq, minOpt,
      LayoutRect.shortestSide]

/-- C8 (amended): for a row of positive areas, the keep/close decision
compares the spec's closed-form worst ratios — but at the side
`max(shortest_side, 1)`, the shorter remaining side clamped below by
`1`; the candidate is kept exactly when the row is empty or adding it
does not increase that worst ratio. -/
theorem c8_keep_decision (row : List RowItem) (it : RowItem)
    (remaining : LayoutRect)
    (hpos : ∀ z ∈ row ++ [it], 0 < z.area) :
    squarifyKeep row it remaining =
      (row.isEmpty ||
       decide (specRatio (row ++ [it]) (max remaining.shortestSide 1) ≤
               specRatio row (max remaining.shortestSide 1))) := by
  cases row with
  | nil => simp [squarifyKeep]
  | cons a rest =>
    simp only [squarifyKeep, List.cons_append]
    have hside : (0 : ℚ) < max remaining.shortestSide 1 :=
      lt_of_lt_of_le one_pos (le_max_right _ _)
    have hp1 : ∀ z ∈ a :: (rest ++ [it]), 0 < z.area := by
      intro z hz
      apply hpos
      simpa using hz
    have hp2 : ∀ z ∈ a :: rest, 0 < z.area := by
      intro z hz
      apply hpos
      simp at hz ⊢
      tauto
    rw [worstRatio_spec (a :: (rest ++ [it])) _ (by simp) hp1 hside,
      worstRatio_spec (a :: rest) _ (by simp) hp2 hside]
    rfl

/-- Witness for C8 (amended) at a two-item row. -/
theorem c8_keep_decision_witness :
    (∀ z ∈ [(⟨Node.mk "a" ["a"] 1 [], 1⟩ : RowItem)] ++
        [(⟨Node.mk "b" ["b"] 1 [], 2⟩ : RowItem)], 0 < z.area) ∧
    squarifyKeep [⟨Node.mk "a" ["a"] 1 [], 1⟩] ⟨Node.mk "b" ["b"] 1 [], 2⟩
        ⟨0, 0, 3, 4⟩ =
      (([(⟨Node.mk "a" ["a"] 1 [], 1⟩ : RowItem)]).isEmpty ||
       decide (specRatio ([⟨Node.mk "a" ["a"] 1 [], 1⟩] ++ [⟨Node.mk "b" ["b"] 1 [], 2⟩])
            (max (LayoutRect.shortestSide ⟨0, 0, 3, 4⟩) 1) ≤
          specRatio [⟨Node.mk "a" ["a"] 1 [], 1⟩]
            (max (LayoutRect.shortestSide ⟨0, 0, 3, 4⟩) 1))) := by
  have hpos : ∀ z ∈ [(⟨Node.mk "a" ["a"] 1 [], 1⟩ : RowItem)] ++
      [(⟨Node.mk "b" ["b"] 1 [], 2⟩ : RowItem)], 0 < z.area := by
    intro z hz
    simp at hz
    rcases hz with rfl | rfl <;> norm_num
  exact ⟨hpos, c8_keep_decision [⟨Node.mk "a" ["a"] 1 [], 1⟩]
    ⟨Node.mk "b" ["b"] 1 [], 2⟩ ⟨0, 0, 3, 4⟩ hpos⟩


/-! ### C9: insertion order and last-write-wins -/

/-- First child with the given name (the `position`/`find` lookup used by
`insert_components`), as a total function. -/
def findChild : List Node → String → Option Node
  | [], _ => none
  | c :: cs, nm => if c.name = nm then some c else findChild cs nm

/-- The node reached from `t` by following child names along `q`. -/
def subtreeAt : Node → List String → Option Node
  | t, [] => some t
  | t, c :: rest =>
    match findChild t.children c with
    | none => none
    | some ch => subtreeAt ch rest

/-- Sum of the stored sizes of all leaves below a node (no saturation). -/
def Node.leafSum : Node → Nat
  | .mk _ _ s cs =>
    if cs.isEmpty then s
    else (cs.attach.map (fun c => Node.leafSum c.1)).sum
decreasing_by
  have h1 := List.sizeOf_lt_of_mem c.2
  simp only [Node.mk.sizeOf_spec]
  omega

@[simp] theorem leafSum_mk (n p s cs) :
    Node.leafSum (.mk n p s cs) =
      if cs.isEmpty then s else (cs.map Node.leafSum).sum := by
  rw [Node.leafSum.eq_def]
  simp only [attach_map_eq]

/-- The size stored at path `q` (`none` when no node sits there). -/
def szAt (t : Node) (q : List String) : Option Nat := (subtreeAt t q).map Node.size

/-- The leaf-sum of the node at path `q`. -/
def lsAt (t : Node) (q : List String) : Option Nat := (subtreeAt t q).map Node.leafSum

/-- Insert a list of `(relative path, size)` pairs in order, as the
scanner does when building the tree. -/
def build (root0 : Node) (pairs : List (List String × Nat)) : Node :=
  pairs.foldl (fun t pr => t.insertRelative pr.1 pr.2) root0

@[simp] theorem subtreeAt_nil (t : Node) : subtreeAt t [] = some t := rfl

theorem subtreeAt_cons (t : Node) (c : String) (rest : List String) :
    subtreeAt t (c :: rest) =
      match findChild t.children c with
      | none => none
      | some ch => subtreeAt ch rest := rfl

theorem subtreeAt_append_one (q : List String) :
    ∀ (t : Node) (d : String),
      subtreeAt t (q ++ [d]) =
        (subtreeAt t q).bind (fun n => findChild n.children d) := by
  induction q with
  | nil =>
    intro t d
    rw [List.nil_append, subtreeAt_cons]
    cases h : findChild t.children d
    · simp [h]
    · simp [h]
  | cons c rest ih =>
    intro t d
    rw [List.cons_append, subtreeAt_cons, subtreeAt_cons]
    cases findChild t.children c with
    | none => rfl
    | some ch => exact ih ch d

theorem findChild_cons (c : Node) (cs : List Node) (nm : String) :
    findChild (c :: cs) nm =
      if c.name = nm then some c else findChild cs nm := rfl

@[simp] theorem findChild_nil (nm : String) : findChild [] nm = none := rfl

theorem applyAt_cons (nm : String) (f : Node → Node) (c : Node) (cs : List Node) :
    applyAt nm f (c :: cs) =
      if c.name = nm then f c :: cs else c :: applyAt nm f cs := rfl

@[simp] theorem setSize_name (t : Node) (s : Nat) : (t.setSize s).name = t.name := by
  cases t; rfl

@[simp] theorem setSize_children (t : Node) (s : Nat) :
    (t.setSize s).children = t.children := by
  cases t; rfl

@[simp] theorem setSize_size (t : Node) (s : Nat) : (t.setSize s).size = s := by
  cases t; rfl

theorem applyAt_of_not_found (nm : String) (f : Node → Node) :
    ∀ cs, findChild cs nm = none → applyAt nm f cs = cs := by
  intro cs
  induction cs with
  | nil => intro _; rfl
  | cons c rest ih =>
    intro h
    rw [findChild_cons] at h
    rw [applyAt_cons]
    split at h
    · exact absurd h (by simp)
    · rw [if_neg (by assumption), ih h]

theorem findChild_applyAt_ne (nm d : String) (f : Node → Node)
    (hf : ∀ x, (f x).name = x.name) (hne : d ≠ nm) :
    ∀ cs, findChild (applyAt nm f cs) d = findChild cs d := by
  intro cs
  induction cs with
  | nil => rfl
  | cons c rest ih =>
    rw [applyAt_cons]
    split
    · rename_i hc
      rw [findChild_cons, findChild_cons]
      rw [if_neg (by rw [hf, hc]; exact fun h => hne h.symm)]
      rw [if_neg (by rw [hc]; exact fun h => hne h.symm)]
    · rw [findChild_cons, findChild_cons]
      split
      · rfl
      · exact ih

theorem findChild_applyAt_eq (nm : String) (f : Node → Node)
    (hf : ∀ x, (f x).name = x.name) :
    ∀ cs, findChild (applyAt nm f cs) nm = (findChild cs nm).map f := by
  intro cs
  induction cs with
  | nil => rfl
  | cons c rest ih =>
    rw [applyAt_cons]
    split
    · rename_i hc
      rw [findChild_cons, findChild_cons]
      rw [if_pos (by rw [hf]; exact hc), if_pos hc]
      rfl
    · rw [findChild_cons, findChild_cons]
      rw [if_neg (by assumption), if_neg (by assumption)]
      exact ih

theorem any_eq_findChild (nm : String) :
    ∀ cs : List Node,
      (cs.any (fun ch => ch.name = nm)) = (findChild cs nm).isSome := by
  intro cs
  induction cs with
  | nil => rfl
  | cons c rest ih =>
    rw [List.any_cons, findChild_cons]
    split
    · rename_i hc
      simp [hc]
    · rename_i hc
      simp [hc, ih]

theorem findChild_append_one_none (cs : List Node) (nn : Node) (d : String) :
    findChild cs d = none →
      findChild (cs ++ [nn]) d = if nn.name = d then some nn else none := by
  induction cs with
  | nil => intro _; rfl
  | cons c rest ih =>
    intro h
    rw [findChild_cons] at h
    split at h
    · exact absurd h (by simp)
    · rw [List.cons_append, findChild_cons, if_neg (by assumption)]
      exact ih h

theorem findChild_append_one_some (cs : List Node) (nn ch : Node) (d : String) :
    findChild cs d = some ch → findChild (cs ++ [nn]) d = some ch := by
  induction cs with
  | nil => intro h; exact absurd h (by simp)
  | cons c rest ih =>
    intro h
    rw [findChild_cons] at h
    split at h
    · rw [List.cons_append, findChild_cons, if_pos (by assumption)]
      exact h
    · rw [List.cons_append, findChild_cons, if_neg (by assumption)]
      exact ih h

theorem applyAt_length (nm : String) (f : Node → Node) :
    ∀ cs, (applyAt nm f cs).length = cs.length := by
  intro cs
  induction cs with
  | nil => rfl
  | cons c rest ih =>
    rw [applyAt_cons]
    split
    · simp
    · simp [ih]

theorem leafSum_applyAt (nm : String) (f : Node → Node) :
    ∀ cs ch, findChild cs nm = some ch →
      ((applyAt nm f cs).map Node.leafSum).sum + ch.leafSum =
        (cs.map Node.leafSum).sum + (f ch).leafSum := by
  intro cs
  induction cs with
  | nil => intro ch h; exact absurd h (by simp)
  | cons c rest ih =>
    intro ch h
    rw [findChild_cons] at h
    rw [applyAt_cons]
    split at h
    · rw [if_pos (by assumption)]
      rw [Option.some.injEq] at h
      subst h
      simp only [List.map_cons, List.sum_cons]
      omega
    · rw [if_neg (by assumption)]
      simp only [List.map_cons, List.sum_cons]
      have := ih ch h
      omega

theorem insertComps_name_path (s : Nat) :
    ∀ (p : List String) (t : Node),
      (Node.insertComps p s t).name = t.name ∧
      (Node.insertComps p s t).path = t.path := by
  intro p
  induction p with
  | nil => intro t; exact ⟨rfl, rfl⟩
  | cons c rest ih =>
    intro t
    cases t with
    | mk n pp sz cs =>
      unfold Node.insertComps
      split
      · exact ih _
      · exact ⟨rfl, rfl⟩

theorem findChild_append_one_ne (cs : List Node) (nn : Node) (d : String)
    (h : ¬ nn.name = d) : findChild (cs ++ [nn]) d = findChild cs d := by
  cases hf : findChild cs d with
  | none => rw [findChild_append_one_none cs nn d hf, if_neg h]
  | some ch => exact findChild_append_one_some cs nn ch d hf

theorem subtreeAt_cons_none {t : Node} {c : String} (rest : List String)
    (h : findChild t.children c = none) : subtreeAt t (c :: rest) = none := by
  rw [subtreeAt_cons, h]

theorem subtreeAt_cons_some {t ch : Node} {c : String} (rest : List String)
    (h : findChild t.children c = some ch) :
    subtreeAt t (c :: rest) = subtreeAt ch rest := by
  rw [subtreeAt_cons, h]

theorem insertComps_cons (c : String) (rest : List String) (s : Nat)
    (n : String) (pp : List String) (sz : Nat) (cs : List Node)
    (hc : skipComp c = false) :
    Node.insertComps (c :: rest) s (.mk n pp sz cs) =
      .mk n pp sz (applyAt c
        (fun child => if rest.isEmpty then child.setSize s
                      else Node.insertComps rest s child)
        (if cs.any (fun ch => ch.name = c) then cs
         else cs ++ [Node.mk c (pp ++ [c]) 0 []])) := by
  conv_lhs => rw [Node.insertComps.eq_def]
  dsimp only
  rw [if_neg (by rw [hc]; exact Bool.false_ne_true)]

theorem lsAt_nil (t : Node) : lsAt t [] = some t.leafSum := rfl

/-- Single-insert characterization: away from the inserted path nothing
changes; every prefix of the inserted path becomes present; and (when the
terminal is fresh and every proper-prefix leaf has size `0`) the leaf-sum
at every prefix grows by exactly the inserted size. -/
theorem insertComps_char :
    ∀ (p : List String) (s : Nat) (t : Node),
      p ≠ [] → (∀ c ∈ p, skipComp c = false) →
      ((∀ q, ¬ q <+: p → subtreeAt (Node.insertComps p s t) q = subtreeAt t q) ∧
       (∀ q, q <+: p → (subtreeAt (Node.insertComps p s t) q).isSome = true) ∧
       (subtreeAt t p = none →
        (∀ q0, q0 <+: p → q0 ≠ p → ∀ m, subtreeAt t q0 = some m →
          m.children = [] → m.size = 0) →
        ∀ q, q <+: p →
          lsAt (Node.insertComps p s t) q = some ((lsAt t q).getD 0 + s))) := by
  intro p
  induction p with
  | nil => intro s t hne _; exact absurd rfl hne
  | cons c rest ih =>
    intro s t _ hgood
    obtain ⟨n, pp, sz, cs⟩ := t
    have hc : skipComp c = false := hgood c (by simp)
    rw [insertComps_cons c rest s n pp sz cs hc]
    set g : Node → Node := fun child =>
      if rest.isEmpty then child.setSize s else Node.insertComps rest s child with hg
    set cs0 : List Node := if cs.any (fun ch => ch.name = c) then cs
      else cs ++ [Node.mk c (pp ++ [c]) 0 []] with hcs0
    have hgname : ∀ x, (g x).name = x.name := by
      intro x
      rw [hg]
      split
      · exact setSize_name x s
      · exact (insertComps_name_path s rest x).1
    have hch0 : ∃ ch0, findChild cs0 c = some ch0 ∧
        ((findChild cs c = some ch0 ∧ cs0 = cs) ∨
         (findChild cs c = none ∧ ch0 = Node.mk c (pp ++ [c]) 0 [] ∧
          cs0 = cs ++ [Node.mk c (pp ++ [c]) 0 []])) := by
      cases hf : findChild cs c with
      | some ch =>
        have hany : cs.any (fun ch => ch.name = c) = true := by
          rw [any_eq_findChild, hf]; rfl
        refine ⟨ch, ?_, Or.inl ⟨rfl, ?_⟩⟩
        · rw [hcs0, if_pos hany]; exact hf
        · rw [hcs0, if_pos hany]
      | none =>
        have hany : cs.any (fun ch => ch.name = c) = false := by
          rw [any_eq_findChild, hf]; rfl
        refine ⟨Node.mk c (pp ++ [c]) 0 [], ?_, Or.inr ⟨rfl, rfl, ?_⟩⟩
        · rw [hcs0, if_neg (by rw [hany]; exact Bool.false_ne_true)]
          rw [findChild_append_one_none cs _ c hf]
          simp
        · rw [hcs0, if_neg (by rw [hany]; exact Bool.false_ne_true)]
    obtain ⟨ch0, hfc0, hcases⟩ := hch0
    have hfd_ne : ∀ d, d ≠ c → findChild cs0 d = findChild cs d := by
      intro d hd
      rcases hcases with ⟨_, h0⟩ | ⟨_, _, h0⟩
      · rw [h0]
      · rw [h0, findChild_append_one_ne cs _ d (by simp; exact fun h => hd h.symm)]
    have hsub_ne : ∀ d q', d ≠ c →
        subtreeAt (Node.mk n pp sz (applyAt c g cs0)) (d :: q') =
          subtreeAt (Node.mk n pp sz cs) (d :: q') := by
      intro d q' hd
      rw [subtreeAt_cons, subtreeAt_cons]
      simp only [Node.children_mk]
      rw [findChild_applyAt_ne c d g hgname (by exact hd) cs0, hfd_ne d hd]
    have hsub_c : ∀ q', subtreeAt (Node.mk n pp sz (applyAt c g cs0)) (c :: q') =
        subtreeAt (g ch0) q' := by
      intro q'
      rw [subtreeAt_cons]
      simp only [Node.children_mk]
      rw [findChild_applyAt_eq c g hgname cs0, hfc0]
      rfl
    have hsub_old : ∀ q', subtreeAt (Node.mk n pp sz cs) (c :: q') =
        subtreeAt ch0 q' ∨
        (findChild cs c = none ∧
         subtreeAt (Node.mk n pp sz cs) (c :: q') = none ∧
         ch0 = Node.mk c (pp ++ [c]) 0 []) := by
      intro q'
      rcases hcases with ⟨hf, _⟩ | ⟨hf, hnew, _⟩
      · left
        exact subtreeAt_cons_some q' (by simpa using hf)
      · right
        exact ⟨hf, subtreeAt_cons_none q' (by simpa using hf), hnew⟩
    refine ⟨?_, ?_, ?_⟩
    · -- away from the path nothing changes
      intro q hq
      cases q with
      | nil => exact absurd (List.nil_prefix) hq
      | cons d q' =>
        by_cases hd : d = c
        · subst hd
          have hq' : ¬ q' <+: rest := fun h => hq (List.cons_prefix_cons.mpr ⟨rfl, h⟩)
          rw [hsub_c q']
          rcases hsub_old q' with hold | ⟨hf, hold, hnew⟩
          · rw [hold]
            rw [hg]
            split
            · rename_i hrest
              rw [List.isEmpty_iff] at hrest
              subst hrest
              have hq'ne : q' ≠ [] := fun h => hq' (h ▸ List.nil_prefix)
              obtain ⟨e, q'', rfl⟩ := List.exists_cons_of_ne_nil hq'ne
              rw [subtreeAt_cons, subtreeAt_cons, setSize_children]
            · rename_i hrest
              have hrne : rest ≠ [] := by
                intro h; rw [h] at hrest; exact hrest rfl
              exact (ih s ch0 hrne (fun x hx => hgood x (by simp [hx]))).1 q' hq'
          · rw [hold, hnew]
            have hq'ne : q' ≠ [] := fun h => hq' (h ▸ List.nil_prefix)
            obtain ⟨e, q'', rfl⟩ := List.exists_cons_of_ne_nil hq'ne
            rw [hg]
            split
            · rw [subtreeAt_cons]
              simp [findChild]
            · rename_i hrest
              have hrne : rest ≠ [] := by
                intro h; rw [h] at hrest; exact hrest rfl
              rw [(ih s _ hrne (fun x hx => hgood x (by simp [hx]))).1 _ hq']
              rw [subtreeAt_cons]
              simp [findChild]
        · exact hsub_ne d q' hd
    · -- every prefix of the path becomes present
      intro q hq
      cases q with
      | nil => rfl
      | cons d q' =>
        obtain ⟨rfl, hq'⟩ := List.cons_prefix_cons.mp hq
        rw [hsub_c q']
        rw [hg]
        split
        · rename_i hrest
          rw [List.isEmpty_iff] at hrest
          subst hrest
          rw [List.prefix_nil] at hq'
          subst hq'
          rfl
        · rename_i hrest
          have hrne : rest ≠ [] := by
            intro h; rw [h] at hrest; exact hrest rfl
          exact (ih s ch0 hrne (fun x hx => hgood x (by simp [hx]))).2.1 q' hq'
    · -- the leaf sums along the path grow by `s`
      intro habs hzero q hq
      have hrgood : ∀ x ∈ rest, skipComp x = false :=
        fun x hx => hgood x (by simp [hx])
      have hkey : Node.leafSum (g ch0) = Node.leafSum ch0 + s := by
        rw [hg]
        split
        · rename_i hrest
          rw [List.isEmpty_iff] at hrest
          subst hrest
          rcases hcases with ⟨hf, _⟩ | ⟨hf, hnew, _⟩
          · have hcontra : subtreeAt (Node.mk n pp sz cs) [c] = subtreeAt ch0 [] :=
              subtreeAt_cons_some [] (by simpa using hf)
            rw [habs] at hcontra
            exact absurd hcontra.symm (by simp)
          · subst hnew
            simp [Node.setSize]
        · rename_i hrest
          have hrne : rest ≠ [] := by
            intro h; rw [h] at hrest; exact hrest rfl
          have habs' : subtreeAt ch0 rest = none := by
            rcases hcases with ⟨hf, _⟩ | ⟨hf, hnew, _⟩
            · have heq : subtreeAt (Node.mk n pp sz cs) (c :: rest) =
                  subtreeAt ch0 rest := subtreeAt_cons_some rest (by simpa using hf)
              rw [habs] at heq
              exact heq.symm
            · subst hnew
              obtain ⟨e, r', rfl⟩ := List.exists_cons_of_ne_nil hrne
              exact subtreeAt_cons_none r' (by simp)
          have hzero' : ∀ q0, q0 <+: rest → q0 ≠ rest → ∀ m,
              subtreeAt ch0 q0 = some m → m.children = [] → m.size = 0 := by
            intro q0 hq0 hq0ne m hm hml
            rcases hcases with ⟨hf, _⟩ | ⟨hf, hnew, _⟩
            · exact hzero (c :: q0) (List.cons_prefix_cons.mpr ⟨rfl, hq0⟩)
                (by simp [hq0ne]) m
                (by rw [subtreeAt_cons_some q0 (by simpa using hf)]; exact hm) hml
            · subst hnew
              cases q0 with
              | nil =>
                simp only [subtreeAt_nil, Option.some.injEq] at hm
                rw [← hm]
                rfl
              | cons e q0' =>
                rw [subtreeAt_cons_none q0' (by simp)] at hm
                exact absurd hm (by simp)
          have hthis := ((ih s ch0 hrne hrgood).2.2 habs' hzero') [] List.nil_prefix
          simp [lsAt] at hthis
          simpa using hthis
      cases q with
      | nil =>
        rw [lsAt_nil, lsAt_nil]
        show some ((Node.mk n pp sz (applyAt c g cs0)).leafSum) =
          some ((Node.mk n pp sz cs).leafSum + s)
        refine congrArg some ?_
        have hcs0ne : cs0 ≠ [] := by
          intro h
          rw [h] at hfc0
          exact absurd hfc0 (by simp)
        have hcs'ne : (applyAt c g cs0).isEmpty = false := by
          cases happ : applyAt c g cs0 with
          | nil =>
            have hl := applyAt_length c g cs0
            rw [happ] at hl
            cases hcs0' : cs0 with
            | nil =>
              rw [hcs0'] at hfc0
              exact absurd hfc0 (by simp)
            | cons _ _ =>
              rw [hcs0'] at hl
              simp at hl
          | cons _ _ => rfl
        rw [leafSum_mk, if_neg (by rw [hcs'ne]; exact Bool.false_ne_true)]
        have hsum := leafSum_applyAt c g cs0 ch0 hfc0
        rcases hcases with ⟨hf, hceq⟩ | ⟨hf, hnew, hceq⟩
        · have hcsne : cs.isEmpty = false := by
            cases cs with
            | nil => exact absurd hf (by simp)
            | cons _ _ => rfl
          rw [leafSum_mk, if_neg (by rw [hcsne]; exact Bool.false_ne_true)]
          rw [hceq] at hsum ⊢
          omega
        · rw [hceq] at hsum ⊢
          rw [List.map_append, List.sum_append] at hsum
          subst hnew
          simp at hkey
          simp only [List.map_cons, List.map_nil, List.sum_cons, List.sum_nil,
            leafSum_mk] at hsum
          cases cs with
          | nil =>
            have hsz : sz = 0 :=
              hzero [] List.nil_prefix (by simp) _ rfl (by simp)
            simp only [leafSum_mk, List.isEmpty_nil, if_pos rfl, hsz]
            simp at hsum ⊢
            omega
          | cons c1 cs1 =>
            rw [leafSum_mk, if_neg (by simp)]
            simp at hsum ⊢
            omega
      | cons d q' =>
        obtain ⟨heqd, hq'⟩ := List.cons_prefix_cons.mp hq
        have heqd2 : c = d := heqd.symm
        subst heqd2
        have hls : lsAt (Node.mk n pp sz (applyAt c g cs0)) (c :: q') =
            lsAt (g ch0) q' := by
          unfold lsAt
          rw [hsub_c q']
        rw [hls, hg]
        split
        · rename_i hrest
          rw [List.isEmpty_iff] at hrest
          subst hrest
          rw [List.prefix_nil] at hq'
          subst hq'
          rcases hcases with ⟨hf, _⟩ | ⟨hf, hnew, _⟩
          · have hcontra : subtreeAt (Node.mk n pp sz cs) [c] = subtreeAt ch0 [] :=
              subtreeAt_cons_some [] (by simpa using hf)
            rw [habs] at hcontra
            exact absurd hcontra.symm (by simp)
          · subst hnew
            have htnone : subtreeAt (Node.mk n pp sz cs) [c] = none :=
              subtreeAt_cons_none [] (by simpa using hf)
            simp [lsAt, htnone, Node.setSize]
        · rename_i hrest
          have hrne : rest ≠ [] := by
            intro h; rw [h] at hrest; exact hrest rfl
          have habs' : subtreeAt ch0 rest = none := by
            rcases hcases with ⟨hf, _⟩ | ⟨hf, hnew, _⟩
            · have heq : subtreeAt (Node.mk n pp sz cs) (c :: rest) =
                  subtreeAt ch0 rest := subtreeAt_cons_some rest (by simpa using hf)
              rw [habs] at heq
              exact heq.symm
            · subst hnew
              obtain ⟨e, r', rfl⟩ := List.exists_cons_of_ne_nil hrne
              exact subtreeAt_cons_none r' (by simp)
          have hzero' : ∀ q0, q0 <+: rest → q0 ≠ rest → ∀ m,
              subtreeAt ch0 q0 = some m → m.children = [] → m.size = 0 := by
            intro q0 hq0 hq0ne m hm hml
            rcases hcases with ⟨hf, _⟩ | ⟨hf, hnew, _⟩
            · exact hzero (c :: q0) (List.cons_prefix_cons.mpr ⟨rfl, hq0⟩)
                (by simp [hq0ne]) m
                (by rw [subtreeAt_cons_some q0 (by simpa using hf)]; exact hm) hml
            · subst hnew
              cases q0 with
              | nil =>
                simp only [subtreeAt_nil, Option.some.injEq] at hm
                rw [← hm]
                rfl
              | cons e q0' =>
                rw [subtreeAt_cons_none q0' (by simp)] at hm
                exact absurd hm (by simp)
          have hih := ((ih s ch0 hrne hrgood).2.2 habs' hzero') q' hq'
          rw [hih]
          rcases hcases with ⟨hf, _⟩ | ⟨hf, hnew, _⟩
          · have : lsAt (Node.mk n pp sz cs) (c :: q') = lsAt ch0 q' := by
              unfold lsAt
              rw [subtreeAt_cons_some q' (by simpa using hf)]
            rw [this]
          · subst hnew
            have h1 : lsAt (Node.mk n pp sz cs) (c :: q') = none := by
              unfold lsAt
              rw [subtreeAt_cons_none q' (by simpa using hf)]
              rfl
            have h2 : (lsAt (Node.mk c (pp ++ [c]) 0 []) q').getD 0 = 0 := by
              cases q' with
              | nil => simp [lsAt]
              | cons e q'' =>
                unfold lsAt
                rw [subtreeAt_cons_none q'' (by simp)]
                rfl
            rw [h1, h2]
            rfl

theorem insertRelative_eq (t : Node) (p : List String) (s : Nat) (hne : p ≠ []) :
    t.insertRelative p s = Node.insertComps p s t := by
  unfold Node.insertRelative
  rw [if_neg (by simp [hne])]

theorem build_append (root0 : Node) (pairs : List (List String × Nat))
    (pr : List String × Nat) :
    build root0 (pairs ++ [pr]) = (build root0 pairs).insertRelative pr.1 pr.2 := by
  unfold build
  rw [List.foldl_append]
  rfl

theorem findChild_mem {cs : List Node} {c : String} {ch : Node}
    (h : findChild cs c = some ch) : ch ∈ cs := by
  induction cs with
  | nil => exact absurd h (by simp)
  | cons x rest ih =>
    rw [findChild_cons] at h
    split at h
    · rw [Option.some.injEq] at h
      subst h
      exact List.mem_cons_self _ _
    · exact List.mem_cons_of_mem _ (ih h)

theorem leafData_child_subset {n : String} {pp : List String} {sz : Nat}
    {cs : List Node} {ch : Node} (hch : ch ∈ cs) :
    ∀ x ∈ ch.leafData, x ∈ (Node.mk n pp sz cs).leafData := by
  intro x hx
  rw [leafData_mk, if_neg (by simp [List.isEmpty_iff, List.ne_nil_of_mem hch])]
  rw [List.mem_flatMap]
  exact ⟨ch, hch, hx⟩

theorem subtreeAt_leafData_subset :
    ∀ (q : List String) (t m : Node), subtreeAt t q = some m →
      ∀ x ∈ m.leafData, x ∈ t.leafData := by
  intro q
  induction q with
  | nil =>
    intro t m h
    simp only [subtreeAt_nil, Option.some.injEq] at h
    subst h
    exact fun x hx => hx
  | cons c q' ih =>
    intro t m h
    cases hf : findChild t.children c with
    | none => rw [subtreeAt_cons_none q' hf] at h; exact absurd h (by simp)
    | some ch =>
      rw [subtreeAt_cons_some q' hf] at h
      intro x hx
      have hch := findChild_mem hf
      obtain ⟨n, pp, sz, cs⟩ := t
      exact leafData_child_subset hch x (ih ch m h x hx)

theorem applyAt_mem (nm : String) (f : Node → Node) :
    ∀ cs, ∀ y ∈ applyAt nm f cs, y ∈ cs ∨ ∃ z ∈ cs, y = f z := by
  intro cs
  induction cs with
  | nil => intro y hy; exact absurd hy (by simp [applyAt])
  | cons x rest ih =>
    intro y hy
    rw [applyAt_cons] at hy
    split at hy
    · rcases List.mem_cons.mp hy with rfl | hy
      · exact Or.inr ⟨x, List.mem_cons_self _ _, rfl⟩
      · exact Or.inl (List.mem_cons_of_mem _ hy)
    · rcases List.mem_cons.mp hy with rfl | hy
      · exact Or.inl (List.mem_cons_self _ _)
      · rcases ih y hy with h | ⟨z, hz, hyz⟩
        · exact Or.inl (List.mem_cons_of_mem _ h)
        · exact Or.inr ⟨z, List.mem_cons_of_mem _ hz, hyz⟩

theorem leafData_setSize (z : Node) (s : Nat) :
    (z.setSize s).leafData =
      if z.children.isEmpty then [(z.path, s)] else z.leafData := by
  obtain ⟨n, pp, sz, cs⟩ := z
  cases cs with
  | nil => simp [Node.setSize]
  | cons c rest => simp [Node.setSize]

theorem insertComps_skip (c : String) (rest : List String) (s : Nat) (t : Node)
    (hc : skipComp c = true) :
    Node.insertComps (c :: rest) s t = Node.insertComps rest s t := by
  obtain ⟨n, pp, sz, cs⟩ := t
  conv_lhs => rw [Node.insertComps.eq_def]
  dsimp only
  rw [if_pos hc]

/-- Inserting a size bounded by `u64::MAX` keeps every leaf size bounded. -/
theorem insertComps_leafData_bound :
    ∀ (p : List String) (s : Nat) (t : Node),
      (∀ x ∈ t.leafData, x.2 ≤ U64MAX) → s ≤ U64MAX →
      ∀ x ∈ (Node.insertComps p s t).leafData, x.2 ≤ U64MAX := by
  intro p
  induction p with
  | nil => intro s t ht _ x hx; exact ht x hx
  | cons c rest ih =>
    intro s t ht hs x hx
    by_cases hc : skipComp c = true
    · rw [insertComps_skip c rest s t hc] at hx
      exact ih s t ht hs x hx
    · rw [Bool.not_eq_true] at hc
      obtain ⟨n, pp, sz, cs⟩ := t
      rw [insertComps_cons c rest s n pp sz cs hc] at hx
      set g : Node → Node := fun child =>
        if rest.isEmpty then child.setSize s else Node.insertComps rest s child
        with hg
      set cs0 : List Node := if cs.any (fun ch => ch.name = c) then cs
        else cs ++ [Node.mk c (pp ++ [c]) 0 []] with hcs0
      have hcs0b : ∀ z ∈ cs0, ∀ x ∈ z.leafData, x.2 ≤ U64MAX := by
        intro z hz
        rw [hcs0] at hz
        split at hz
        · exact fun x hx => ht x (leafData_child_subset hz x hx)
        · rcases List.mem_append.mp hz with hz | hz
          · exact fun x hx => ht x (leafData_child_subset hz x hx)
          · simp only [List.mem_singleton] at hz
            subst hz
            intro x hx
            simp at hx
            subst hx
            exact Nat.zero_le _
      rw [leafData_mk] at hx
      split at hx
      · rename_i hemp
        exfalso
        have hcs0ne : cs0 ≠ [] := by
          rw [hcs0]
          split
          · rename_i hany
            intro h
            rw [h] at hany
            simp at hany
          · simp
        have hl := applyAt_length c g cs0
        rw [List.isEmpty_iff] at hemp
        rw [hemp] at hl
        cases hcs0' : cs0 with
        | nil => exact hcs0ne hcs0'
        | cons a b =>
          rw [hcs0'] at hl
          simp at hl
      · rw [List.mem_flatMap] at hx
        obtain ⟨ch', hch', hxch⟩ := hx
        rcases applyAt_mem c g _ ch' hch' with hmem | ⟨z, hz, rfl⟩
        · exact hcs0b ch' hmem x hxch
        · rw [hg] at hxch
          dsimp only at hxch
          split at hxch
          · rw [leafData_setSize] at hxch
            split at hxch
            · simp only [List.mem_singleton] at hxch
              subst hxch
              exact hs
            · exact hcs0b z hz x hxch
          · exact ih s z (hcs0b z hz) hs x hxch

@[simp] theorem computeTotalSize_name (t : Node) :
    (Node.computeTotalSize t).name = t.name := by
  obtain ⟨n, pp, sz, cs⟩ := t
  rw [computeTotalSize_mk]
  split <;> rfl

theorem findChild_map (f : Node → Node) (hf : ∀ x, (f x).name = x.name)
    (c : String) :
    ∀ cs, findChild (cs.map f) c = (findChild cs c).map f := by
  intro cs
  induction cs with
  | nil => rfl
  | cons x rest ih =>
    rw [List.map_cons, findChild_cons, findChild_cons, hf]
    split
    · rfl
    · exact ih

/-- Finalization commutes with walking down a path. -/
theorem subtreeAt_computeTotalSize :
    ∀ (q : List String) (t : Node),
      subtreeAt (Node.computeTotalSize t) q =
        (subtreeAt t q).map Node.computeTotalSize := by
  intro q
  induction q with
  | nil => intro t; rfl
  | cons c q' ih =>
    intro t
    obtain ⟨n, pp, sz, cs⟩ := t
    rw [computeTotalSize_mk]
    split
    · rename_i hcs
      rw [List.isEmpty_iff] at hcs
      subst hcs
      rw [subtreeAt_cons_none q' (by simp)]
      rfl
    · rw [subtreeAt_cons, subtreeAt_cons]
      simp only [Node.children_mk]
      rw [findChild_map Node.computeTotalSize computeTotalSize_name c cs]
      cases hf : findChild cs c with
      | none => rfl
      | some ch =>
        simp only [Option.map_some]
        exact ih ch

theorem satAdd_foldl (l : List Nat) :
    ∀ a, a ≤ U64MAX →
      l.foldl satAdd a = min (a + l.sum) U64MAX := by
  induction l with
  | nil =>
    intro a ha
    simp
    omega
  | cons x rest ih =>
    intro a ha
    rw [List.foldl_cons, List.sum_cons]
    have hstep : satAdd a x = min (a + x) U64MAX := rfl
    rw [hstep, ih _ (by unfold satAdd U64MAX at *; omega)]
    unfold satAdd U64MAX at *
    omega

theorem min_sum_clamped (l : List Nat) :
    min ((l.map (fun x => min x U64MAX)).sum) U64MAX = min l.sum U64MAX := by
  induction l with
  | nil => rfl
  | cons x rest ih =>
    rw [List.map_cons, List.sum_cons, List.sum_cons]
    omega

/-- The finalized size of a node is its leaf-sum saturated at
`u64::MAX`, provided every leaf size is in `u64` range. -/
theorem computeTotalSize_size :
    ∀ t : Node, (∀ x ∈ t.leafData, x.2 ≤ U64MAX) →
      (Node.computeTotalSize t).size = min t.leafSum U64MAX := by
  intro t
  induction t using Node.ind with
  | h n pp sz cs ih =>
    intro hb
    rw [computeTotalSize_mk, leafSum_mk]
    split
    · rename_i hcs
      simp only [Node.size_mk]
      rw [List.isEmpty_iff] at hcs
      subst hcs
      have := hb (pp, sz) (by simp)
      simp at this
      omega
    · rename_i hcs
      simp only [Node.size_mk]
      unfold satSumSizes
      rw [← List.foldl_map Node.size satAdd]
      rw [satAdd_foldl _ 0 (Nat.zero_le _), Nat.zero_add]
      have hsizes : (cs.map Node.computeTotalSize).map Node.size =
          (cs.map Node.leafSum).map (fun x => min x U64MAX) := by
        rw [List.map_map, List.map_map]
        apply List.map_congr_left
        intro c hc
        have hcb : ∀ x ∈ c.leafData, x.2 ≤ U64MAX :=
          fun x hx => hb x (leafData_child_subset hc x hx)
        exact ih c hc hcb
      rw [hsizes, min_sum_clamped]

/-- Characterization of the tree built by inserting pairwise
incomparable, non-empty, skip-free paths into a fresh root: a node sits
at `q` exactly when `q` is a prefix of an inserted path (or the root);
its leaf-sum is the sum of the sizes inserted below it; and every leaf
is either an inserted terminal or carries size `0`. -/
theorem build_char (nm : String) (pp : List String) :
    ∀ pairs : List (List String × Nat),
      (∀ pr ∈ pairs, pr.1 ≠ [] ∧ ∀ c ∈ pr.1, skipComp c = false) →
      pairs.Pairwise (fun a b => ¬ a.1 <+: b.1 ∧ ¬ b.1 <+: a.1) →
      ((∀ q, q ≠ [] → (∀ pr ∈ pairs, ¬ q <+: pr.1) →
          subtreeAt (build (Node.mk nm pp 0 []) pairs) q = none) ∧
       (∀ q, (q = [] ∨ ∃ pr ∈ pairs, q <+: pr.1) →
          lsAt (build (Node.mk nm pp 0 []) pairs) q =
            some (((pairs.filter (fun pr => decide (q <+: pr.1))).map
              Prod.snd).sum)) ∧
       (∀ q m, subtreeAt (build (Node.mk nm pp 0 []) pairs) q = some m →
          m.children = [] → m.size = 0 ∨ ∃ pr ∈ pairs, q = pr.1)) := by
  intro pairs
  induction pairs using List.reverseRecOn with
  | nil =>
    intro _ _
    refine ⟨?_, ?_, ?_⟩
    · intro q hqne _
      obtain ⟨c, q', rfl⟩ := List.exists_cons_of_ne_nil hqne
      exact subtreeAt_cons_none q' (by simp [build])
    · intro q hq
      rcases hq with rfl | ⟨pr, hpr, _⟩
      · simp [build, lsAt]
      · simp at hpr
    · intro q m hm hml
      cases q with
      | nil =>
        simp only [build, List.foldl_nil, subtreeAt_nil, Option.some.injEq] at hm
        subst hm
        exact Or.inl rfl
      | cons c q' =>
        rw [show build (Node.mk nm pp 0 []) [] = Node.mk nm pp 0 [] from rfl,
          subtreeAt_cons_none q' (by simp)] at hm
        exact absurd hm (by simp)
  | append_singleton l pr ihl =>
    intro hgood hpw
    have hgoodl : ∀ pr' ∈ l, pr'.1 ≠ [] ∧ ∀ c ∈ pr'.1, skipComp c = false :=
      fun pr' h => hgood pr' (by simp [h])
    rw [List.pairwise_append] at hpw
    have hpwl := hpw.1
    have hincomp : ∀ a ∈ l, ¬ a.1 <+: pr.1 ∧ ¬ pr.1 <+: a.1 := by
      intro a ha
      have := hpw.2.2 a ha pr (by simp)
      exact this
    obtain ⟨ihA, ihB, ihC⟩ := ihl hgoodl hpwl
    obtain ⟨hprne, hprgood⟩ := hgood pr (by simp)
    have hbuild : build (Node.mk nm pp 0 []) (l ++ [pr]) =
        Node.insertComps pr.1 pr.2 (build (Node.mk nm pp 0 []) l) := by
      rw [build_append, insertRelative_eq _ _ _ hprne]
    have habs : subtreeAt (build (Node.mk nm pp 0 []) l) pr.1 = none :=
      ihA pr.1 hprne (fun a ha h => (hincomp a ha).2 h)
    have hzero : ∀ q0, q0 <+: pr.1 → q0 ≠ pr.1 → ∀ m,
        subtreeAt (build (Node.mk nm pp 0 []) l) q0 = some m →
        m.children = [] → m.size = 0 := by
      intro q0 hq0 _ m hm hml
      rcases ihC q0 m hm hml with h0 | ⟨a, ha, rfl⟩
      · exact h0
      · exact absurd hq0 (hincomp a ha).1
    obtain ⟨C1, C2, C3⟩ :=
      insertComps_char pr.1 pr.2 (build (Node.mk nm pp 0 []) l) hprne hprgood
    have C3' := C3 habs hzero
    refine ⟨?_, ?_, ?_⟩
    · intro q hqne hnot
      rw [hbuild, C1 q (hnot pr (by simp))]
      exact ihA q hqne (fun a ha => hnot a (by simp [ha]))
    · intro q hq
      rw [hbuild, List.filter_append, List.map_append, List.sum_append]
      by_cases hqp : q <+: pr.1
      · rw [C3' q hqp]
        by_cases hql : q = [] ∨ ∃ a ∈ l, q <+: a.1
        · rw [ihB q hql]
          simp [hqp]
        · push_neg at hql
          have hTn : subtreeAt (build (Node.mk nm pp 0 []) l) q = none :=
            ihA q hql.1 hql.2
          have hfl : l.filter (fun pr' => decide (q <+: pr'.1)) = [] := by
            rw [List.filter_eq_nil_iff]
            intro a ha
            simp [hql.2 a ha]
          rw [show lsAt (build (Node.mk nm pp 0 []) l) q = none by
            unfold lsAt; rw [hTn]; rfl]
          rw [hfl]
          simp [hqp]
      · have hql : q = [] ∨ ∃ a ∈ l, q <+: a.1 := by
          rcases hq with rfl | ⟨a, ha, haq⟩
          · exact absurd List.nil_prefix hqp
          · rcases List.mem_append.mp ha with ha | ha
            · exact Or.inr ⟨a, ha, haq⟩
            · simp only [List.mem_singleton] at ha
              subst ha
              exact absurd haq hqp
        have hls : lsAt (Node.insertComps pr.1 pr.2
            (build (Node.mk nm pp 0 []) l)) q =
            lsAt (build (Node.mk nm pp 0 []) l) q := by
          unfold lsAt
          rw [C1 q hqp]
        rw [hls, ihB q hql]
        simp [hqp]
    · intro q m hm hml
      rw [hbuild] at hm
      by_cases hqp : q <+: pr.1
      · by_cases hqe : q = pr.1
        · exact Or.inr ⟨pr, by simp, hqe⟩
        · exfalso
          obtain ⟨r, hr⟩ := hqp
          have hrne : r ≠ [] := by
            intro h
            rw [h] at hr
            simp at hr
            exact hqe hr
          obtain ⟨next, r', rfl⟩ := List.exists_cons_of_ne_nil hrne
          have hqn : (q ++ [next]) <+: pr.1 := ⟨r', by rw [← hr]; simp⟩
          have hsome := C2 (q ++ [next]) hqn
          rw [subtreeAt_append_one, hm] at hsome
          simp [hml] at hsome
      · rw [C1 q hqp] at hm
        rcases ihC q m hm hml with h0 | ⟨a, ha, hqa⟩
        · exact Or.inl h0
        · exact Or.inr ⟨a, by simp [ha], hqa⟩

theorem applyAt_comp (nm : String) (f1 f2 : Node → Node)
    (hf1 : ∀ x, (f1 x).name = x.name) :
    ∀ cs, applyAt nm f2 (applyAt nm f1 cs) = applyAt nm (fun x => f2 (f1 x)) cs := by
  intro cs
  induction cs with
  | nil => rfl
  | cons c rest ih =>
    rw [applyAt_cons]
    split
    · rename_i hc
      rw [applyAt_cons, if_pos (by rw [hf1]; exact hc), applyAt_cons, if_pos hc]
    · rename_i hc
      rw [applyAt_cons, if_neg hc, applyAt_cons, if_neg hc, ih]

/-- Re-inserting the same path overwrites the previous terminal size
exactly (`last-write-wins`), as a structural equality of trees. -/
theorem insertComps_idem :
    ∀ (p : List String) (s1 s2 : Nat) (t : Node),
      Node.insertComps p s2 (Node.insertComps p s1 t) =
        Node.insertComps p s2 t := by
  intro p
  induction p with
  | nil => intro s1 s2 t; rfl
  | cons c rest ih =>
    intro s1 s2 t
    by_cases hc : skipComp c = true
    · rw [insertComps_skip c rest s1 t hc, insertComps_skip c rest s2 _ hc,
        insertComps_skip c rest s2 t hc, ih]
    · rw [Bool.not_eq_true] at hc
      obtain ⟨n, pp, sz, cs⟩ := t
      rw [insertComps_cons c rest s1 n pp sz cs hc]
      set g1 : Node → Node := fun child =>
        if rest.isEmpty then child.setSize s1 else Node.insertComps rest s1 child
        with hg1
      set g2 : Node → Node := fun child =>
        if rest.isEmpty then child.setSize s2 else Node.insertComps rest s2 child
        with hg2
      set cs0 : List Node := if cs.any (fun ch => ch.name = c) then cs
        else cs ++ [Node.mk c (pp ++ [c]) 0 []] with hcs0
      have hg1name : ∀ x, (g1 x).name = x.name := by
        intro x
        rw [hg1]
        split
        · exact setSize_name x s1
        · exact (insertComps_name_path s1 rest x).1
      have hfc0 : (findChild cs0 c).isSome = true := by
        cases hf : findChild cs c with
        | some ch =>
          have hany : cs.any (fun ch => ch.name = c) = true := by
            rw [any_eq_findChild, hf]; rfl
          rw [hcs0, if_pos hany, hf]
          rfl
        | none =>
          have hany : cs.any (fun ch => ch.name = c) = false := by
            rw [any_eq_findChild, hf]; rfl
          rw [hcs0, if_neg (by rw [hany]; exact Bool.false_ne_true)]
          rw [findChild_append_one_none cs _ c hf]
          simp
      have hany1 : (applyAt c g1 cs0).any (fun ch => ch.name = c) = true := by
        rw [any_eq_findChild, findChild_applyAt_eq c g1 hg1name cs0]
        cases hf0 : findChild cs0 c with
        | none => rw [hf0] at hfc0; exact absurd hfc0 (by simp)
        | some ch => rfl
      rw [insertComps_cons c rest s2 n pp sz (applyAt c g1 cs0) hc]
      rw [insertComps_cons c rest s2 n pp sz cs hc]
      rw [if_pos hany1]
      rw [applyAt_comp c g1 g2 hg1name cs0]
      have hgg : (fun x => g2 (g1 x)) = g2 := by
        funext x
        rw [hg1, hg2]
        dsimp only
        split
        · obtain ⟨xn, xp, xs, xcs⟩ := x
          rfl
        · exact ih s1 s2 x
      rw [hgg]

/-- `insert_relative` last-write-wins: re-inserting the same relative
path replaces the effect of the first insert entirely. -/
theorem insertRelative_lww (t : Node) (p : List String) (s1 s2 : Nat) :
    (t.insertRelative p s1).insertRelative p s2 = t.insertRelative p s2 := by
  by_cases hp : p = []
  · subst hp
    rfl
  · rw [insertRelative_eq _ _ _ hp, insertRelative_eq _ _ _ hp,
      insertRelative_eq _ _ _ hp, insertComps_idem]

theorem build_leafData_bound (nm : String) (pp : List String) :
    ∀ pairs : List (List String × Nat),
      (∀ pr ∈ pairs, pr.2 ≤ U64MAX) →
      ∀ x ∈ (build (Node.mk nm pp 0 []) pairs).leafData, x.2 ≤ U64MAX := by
  intro pairs
  induction pairs using List.reverseRecOn with
  | nil =>
    intro _ x hx
    simp [build] at hx
    subst hx
    exact Nat.zero_le _
  | append_singleton l pr ih =>
    intro hb
    rw [build_append]
    unfold Node.insertRelative
    split
    · exact ih (fun a ha => hb a (by simp [ha]))
    · exact insertComps_leafData_bound pr.1 pr.2 _
        (ih (fun a ha => hb a (by simp [ha]))) (hb pr (by simp))

/-- The finalized size at every path of a built tree: `none` off the
inserted prefixes, and the `u64`-saturated sum of the sizes inserted at
or below the path otherwise. -/
theorem build_fin_szAt (nm : String) (pp : List String)
    (pairs : List (List String × Nat))
    (hgood : ∀ pr ∈ pairs, pr.1 ≠ [] ∧ ∀ c ∈ pr.1, skipComp c = false)
    (hpw : pairs.Pairwise (fun a b => ¬ a.1 <+: b.1 ∧ ¬ b.1 <+: a.1))
    (hsz : ∀ pr ∈ pairs, pr.2 ≤ U64MAX) :
    ∀ q, szAt ((build (Node.mk nm pp 0 []) pairs).computeTotalSize) q =
      if q = [] ∨ ∃ pr ∈ pairs, q <+: pr.1 then
        some (min (((pairs.filter (fun pr => decide (q <+: pr.1))).map
          Prod.snd).sum) U64MAX)
      else none := by
  intro q
  obtain ⟨chA, chB, chC⟩ := build_char nm pp pairs hgood hpw
  have hb := build_leafData_bound nm pp pairs hsz
  unfold szAt
  rw [subtreeAt_computeTotalSize]
  split
  · rename_i hcond
    have hls := chB q hcond
    unfold lsAt at hls
    cases hsub : subtreeAt (build (Node.mk nm pp 0 []) pairs) q with
    | none => rw [hsub] at hls; exact absurd hls (by simp)
    | some m =>
      rw [hsub] at hls
      have hls2 : m.leafSum = ((pairs.filter
          (fun pr => decide (q <+: pr.1))).map Prod.snd).sum := by
        simpa using hls
      have hmb : ∀ x ∈ m.leafData, x.2 ≤ U64MAX :=
        fun x hx => hb x (subtreeAt_leafData_subset q _ m hsub x hx)
      have hsz2 := computeTotalSize_size m hmb
      simp [hsz2, hls2]
  · rename_i hcond
    push_neg at hcond
    rw [chA q hcond.1 hcond.2]
    rfl

set_option maxRecDepth 8192 in
set_option maxHeartbeats 2000000 in
unseal Node.computeTotalSize in
/-- C9, counterexample: the same multiset of `(path, size)` pairs with a
duplicated path `a` inserted in two orders yields different finalized
sizes at `a` (`3` versus `5`): last-write-wins makes duplicated paths
order-dependent. -/
theorem c9_duplicate_counterexample :
    ([((["a"] : List String), (5 : Nat)), (["a"], 3)]).Perm
      [(["a"], 3), (["a"], 5)] ∧
    ¬ szAt ((build (Node.mk "r" ["r"] 0 [])
          [(["a"], 5), (["a"], 3)]).computeTotalSize) ["a"] =
      szAt ((build (Node.mk "r" ["r"] 0 [])
          [(["a"], 3), (["a"], 5)]).computeTotalSize) ["a"] := by
  constructor
  · decide
  · decide

/-- C9 (amended): for pairwise incomparable (hence duplicate-free),
non-empty, skip-free relative paths with `u64`-range sizes, inserting
the pairs in any order and finalizing yields the same size (or absence)
at every path; and re-inserting the same terminal path is last-write-wins
as an exact tree equality. -/
theorem c9_insertion_order :
    (∀ (nm : String) (pp : List String)
        (pairs1 pairs2 : List (List String × Nat)),
      pairs1.Perm pairs2 →
      (∀ pr ∈ pairs1, pr.1 ≠ [] ∧ ∀ c ∈ pr.1, skipComp c = false) →
      pairs1.Pairwise (fun a b => ¬ a.1 <+: b.1 ∧ ¬ b.1 <+: a.1) →
      (∀ pr ∈ pairs1, pr.2 ≤ U64MAX) →
      ∀ q, szAt ((build (Node.mk nm pp 0 []) pairs1).computeTotalSize) q =
           szAt ((build (Node.mk nm pp 0 []) pairs2).computeTotalSize) q) ∧
    (∀ (t : Node) (p : List String) (s1 s2 : Nat),
      (t.insertRelative p s1).insertRelative p s2 = t.insertRelative p s2) := by
  constructor
  · intro nm pp pairs1 pairs2 hperm hgood hpw hsz q
    have hgood2 : ∀ pr ∈ pairs2, pr.1 ≠ [] ∧ ∀ c ∈ pr.1, skipComp c = false :=
      fun pr h => hgood pr (hperm.mem_iff.mpr h)
    have hpw2 := (hperm.pairwise_iff (fun {x y} h => ⟨h.2, h.1⟩)).mp hpw
    have hsz2 : ∀ pr ∈ pairs2, pr.2 ≤ U64MAX :=
      fun pr h => hsz pr (hperm.mem_iff.mpr h)
    rw [build_fin_szAt nm pp pairs1 hgood hpw hsz q,
      build_fin_szAt nm pp pairs2 hgood2 hpw2 hsz2 q]
    have hsum : ((pairs1.filter (fun pr => decide (q <+: pr.1))).map
        Prod.snd).sum = ((pairs2.filter (fun pr => decide (q <+: pr.1))).map
        Prod.snd).sum :=
      ((hperm.filter (fun pr => decide (q <+: pr.1))).map Prod.snd).sum_eq
    refine if_congr (or_congr Iff.rfl ?_) (by rw [hsum]) rfl
    constructor
    · rintro ⟨a, ha, h⟩
      exact ⟨a, hperm.mem_iff.mp ha, h⟩
    · rintro ⟨a, ha, h⟩
      exact ⟨a, hperm.mem_iff.mpr ha, h⟩
  · intro t p s1 s2
    exact insertRelative_lww t p s1 s2

/-- Witness for C9 (amended) at two pairs in two orders, and a repeated
terminal write on a fresh root. -/
theorem c9_insertion_order_witness :
    (([((["a"] : List String), (5 : Nat)), (["b"], 7)]).Perm
        [(["b"], 7), (["a"], 5)] ∧
     (∀ pr ∈ [((["a"] : List String), (5 : Nat)), (["b"], 7)],
        pr.1 ≠ [] ∧ ∀ c ∈ pr.1, skipComp c = false) ∧
     ([((["a"] : List String), (5 : Nat)), (["b"], 7)]).Pairwise
        (fun a b => ¬ a.1 <+: b.1 ∧ ¬ b.1 <+: a.1) ∧
     (∀ pr ∈ [((["a"] : List String), (5 : Nat)), (["b"], 7)],
        pr.2 ≤ U64MAX)) ∧
    szAt ((build (Node.mk "r" ["r"] 0 [])
        [(["a"], 5), (["b"], 7)]).computeTotalSize) ["a"] =
      szAt ((build (Node.mk "r" ["r"] 0 [])
        [(["b"], 7), (["a"], 5)]).computeTotalSize) ["a"] ∧
    ((Node.mk "r" ["r"] 0 []).insertRelative ["a"] 1).insertRelative ["a"] 2 =
      (Node.mk "r" ["r"] 0 []).insertRelative ["a"] 2 :=
  ⟨⟨by decide, by decide, by decide, by decide⟩,
   c9_insertion_order.1 "r" ["r"] _ _ (by decide) (by decide) (by decide)
     (by decide) ["a"],
   c9_insertion_order.2 (Node.mk "r" ["r"] 0 []) ["a"] 1 2⟩

end TreeMapBase
